import Mathlib

/-! # The mod overlay of the `hacked` editor

A shallow embedding of the mutable resource store (`editor/model/MutableResource.go`),
the mod overlay (`editor/model/Mod.go`), the transaction builder
(`ss1/world/ModTransaction.go`), the text services (`ss1/edit/media/GetText.go`,
`ss1/cyber/GetAugmentedText.go`, the sound key of `editor/texts/View.go`) and the movie
timestamps (`ss1/content/movie/Timestamp.go`), followed by theorems about them.

Conventions of the embedding:
* Go `int` is `Int`, on a 64-bit platform; where a computation can leave the range of `int` its
  result is wrapped by `wrapInt`.
* Go `[]byte` is `List UInt8`; a nil slice and an empty slice are both `[]`.
* A Go map is `none` when it is nil, and otherwise a total function into `Option`, in which a
  missing key is `none`.
* A method with a pointer receiver takes the old value and returns the new one.
* A Go panic is the result `none`.
-/

namespace Hacked

/-- Go `[]byte`. -/
abbrev Bytes := List UInt8

/-- Type `resource.ID`, an integer naming a resource slot. -/
abbrev ID := Nat

/-- Type `resource.Language`, an integer tag. -/
abbrev Language := Nat

/-- Modelled from the spec: `resource.ContentType` is declared outside the given sources, which
name only its constant `Text`; every other tag is kept by number. -/
inductive ContentType where
  | Text
  | Other (tag : Nat)
  deriving DecidableEq, Repr

/-- Type `resource.Key`: the tuple (Language, ResourceID, blockIndex) addressing one block. -/
structure Key where
  Lang : Language
  ID : ID
  Index : Int
  deriving DecidableEq, Repr

/-! ## Go int -/

/-- The largest value of Go `int`. -/
def maxInt : Int := 9223372036854775807

/-- The smallest value of Go `int`. -/
def minInt : Int := -9223372036854775808

/-- The `int` which the exact result of an `int` operation becomes: the result modulo `2^64`, in
two's complement. -/
def wrapInt (value : Int) : Int :=
  (value + 9223372036854775808) % 18446744073709551616 - 9223372036854775808

/-! ## Readers -/

/-- An `io.Reader` as `ioutil.ReadAll` sees it: the bytes it yields, or a read error. -/
structure BlockReader where
  ReadAll : Except String Bytes

/-- Function `bytes.NewReader`: a reader over bytes held in memory; reading it does not fail. -/
def bytes.NewReader (data : Bytes) : BlockReader where
  ReadAll := Except.ok data

/-- Function `ioutil.ReadAll`: all the bytes of the reader, or the error of the read. -/
def readAll (reader : BlockReader) : Except String Bytes :=
  reader.ReadAll

/-- Modelled from the spec: interface `resource.BlockProvider` is declared outside the given
sources. It is what `readBlock` takes and what `Mod.go` calls on a resource: the number of its
blocks and, per block index, a reader or an error. -/
class BlockProvider (ρ : Type) where
  BlockCount : ρ → Int
  Block : ρ → Int → Except String BlockReader

/-- Function `readBlock` of `editor/model/MutableResource.go`: the bytes of the block, nil when
the reader cannot be obtained or read. -/
def readBlock {ρ : Type} [BlockProvider ρ] (provider : ρ) (index : Int) : Bytes :=
  match BlockProvider.Block provider index with
  | Except.error _ => []
  | Except.ok reader =>
    match readAll reader with
    | Except.error _ => []
    | Except.ok data => data

/-! ## MutableResource -/

/-- Struct `MutableResource` of `editor/model/MutableResource.go`. The field `blocks` is `none`
for the nil map of a resource no constructor has set up. -/
structure MutableResource where
  filename : String
  saveOrder : Int
  compound : Bool
  contentType : ContentType
  compressed : Bool
  blockCount : Int
  blocks : Option (Int → Option Bytes)

namespace MutableResource

/-- The expression `res.blocks[index]` with its presence flag: the bytes stored under the key,
`none` when the key is missing or the map is nil. -/
def entry (res : MutableResource) (index : Int) : Option Bytes :=
  match res.blocks with
  | none => none
  | some stored => stored index

/-- Method `BlockCount`. -/
def BlockCount (res : MutableResource) : Int :=
  res.blockCount

/-- Method `isBlockIndexValid`: `(index >= 0) && (index < res.blockCount)`. -/
def isBlockIndexValid (res : MutableResource) (index : Int) : Bool :=
  decide (index ≥ 0) && decide (index < res.blockCount)

/-- Method `Block`: an error for an invalid index (its message is kept without the two numbers
the source formats into it), otherwise `bytes.NewReader(res.blocks[index])`, in which an absent
map key reads as nil. -/
def Block (res : MutableResource) (index : Int) : Except String BlockReader :=
  if !res.isBlockIndexValid index then
    Except.error "block index wrong"
  else
    Except.ok (bytes.NewReader ((res.entry index).getD []))

/-- Method `SetBlock`. The assignment `res.blocks[index] = data` panics when the map is nil; the
sum `index + 1` is an `int`. -/
def SetBlock (res : MutableResource) (index : Int) (data : Bytes) : Option MutableResource :=
  if index < 0 then
    some res
  else
    match res.blocks with
    | none => none
    | some stored =>
      let assigned : MutableResource :=
        { res with blocks := some fun i => if i = index then some data else stored i }
      if index ≥ assigned.blockCount then
        some { assigned with blockCount := wrapInt (index + 1) }
      else
        some assigned

/-- Method `SetBlocks`: resets the count, makes a new map, then sets every block at its
position. -/
def SetBlocks (res : MutableResource) (data : List Bytes) : Option MutableResource :=
  data.enum.foldlM (fun r entry => r.SetBlock (entry.1 : Int) entry.2)
    { res with blockCount := 0, blocks := some fun _ => none }

/-- No bytes are stored outside `[0, blockCount)` and the count is not negative. -/
def Consistent (res : MutableResource) : Prop :=
  0 ≤ res.blockCount ∧ ∀ j : Int, (res.entry j).isSome = true → 0 ≤ j ∧ j < res.blockCount

end MutableResource

/-- A `MutableResource` has the two methods of `resource.BlockProvider`. -/
instance MutableResource.blockProvider : BlockProvider MutableResource where
  BlockCount := MutableResource.BlockCount
  Block := MutableResource.Block

/-! ## Languages, world manifest and resource lists -/

/-- Modelled from the spec: the language declarations of package `resource` (`LangAny`,
`Languages()` and `Language.Includes`) are not among the given sources. They are taken as
parameters of every operation that uses them; `Includes a b` reads `a.Includes(b)`. -/
structure LanguageSet where
  LangAny : Language
  Languages : List Language
  Includes : Language → Language → Bool

/-- The keys of `mod.localizedResources` after `NewMod`: every entry of `Languages()` and
`LangAny`. No code changes this key set afterwards. -/
def LanguageSet.known (L : LanguageSet) (lang : Language) : Bool :=
  decide (lang ∈ L.Languages) || decide (lang = L.LangAny)

/-- Modelled from the spec: package `resource` with the distinguished value `LangAny` and three
human languages. A language includes itself and `LangAny` includes every language; a human
language does not include `LangAny`, the case `delResource` tests for before it deletes the
`LangAny` override. -/
def resourceLanguages : LanguageSet where
  LangAny := 255
  Languages := [0, 1, 2]
  Includes := fun lang other => decide (lang = 255) || decide (lang = other)

/-- Modelled from the spec: `resource.Resource`, as far as the sources read it: the three
meta attributes and the blocks of a resource of the world. -/
structure Resource where
  Compound : Bool
  ContentType : ContentType
  Compressed : Bool
  Blocks : List Bytes
  deriving DecidableEq, Repr

/-- An element of a `resource.List`. The Go list holds pointers; the tag records where a pointer
comes from: the world manifest, or the override map of the mod for the given language. -/
inductive ListEntry where
  | world (res : Resource)
  | modified (lang : Language) (res : MutableResource)

/-- Method `resource.List.With`: the list with one more resource at its end. -/
def ListEntry.With (list : List ListEntry) (res : ListEntry) : List ListEntry :=
  list ++ [res]

/-- Modelled from the spec: `world.Manifest` is not among the given sources; the mod only calls
its `Filter(lang, id)`, the ordered list of matching world resources, which is kept as a field. -/
structure Manifest where
  Filter : Language → ID → List Resource

/-! ## Mod -/

/-- Struct `Mod` of `editor/model/Mod.go`. The callback `resourcesChanged` is not state: its
invocations are returned by `Modify`. The outer map of `localizedResources` has the fixed key set
`LanguageSet.known`; only the inner maps are state. The type `ρ` is the type of the overrides:
`Mod.go` declares them as `*resource.Resource`, of a package that is not among the given sources,
and reads them through the methods of `resource.BlockProvider` only. -/
structure ModOf (ρ : Type) where
  worldManifest : Manifest
  localizedResources : Language → ID → Option ρ

/-- The mod whose overrides are the resources of `editor/model/MutableResource.go`, the ones the
methods of the modder change. -/
abbrev Mod := ModOf MutableResource

namespace ModOf

/-- Method `ModifiedResource`: `mod.localizedResources[lang][id]`. -/
def ModifiedResource {ρ : Type} (mod : ModOf ρ) (lang : Language) (id : ID) : Option ρ :=
  mod.localizedResources lang id

/-- Method `ModifiedBlock`. -/
def ModifiedBlock {ρ : Type} [BlockProvider ρ] (mod : ModOf ρ) (key : Key) : Bytes :=
  match mod.ModifiedResource key.Lang key.ID with
  | none => []
  | some res =>
    if key.Index ≥ BlockProvider.BlockCount res then
      []
    else
      match BlockProvider.Block res key.Index with
      | Except.error _ => []
      | Except.ok reader =>
        match readAll reader with
        | Except.error _ => []
        | Except.ok data => data

end ModOf

namespace Mod

/-- Function `NewMod`: an empty world manifest and an empty override map per language. -/
def NewMod : Mod where
  worldManifest := { Filter := fun _ _ => [] }
  localizedResources := fun _ _ => none

/-- Method `World`. -/
def World (mod : Mod) : Manifest :=
  mod.worldManifest

/-- Method `Filter`. -/
def Filter (L : LanguageSet) (mod : Mod) (lang : Language) (id : ID) : List ListEntry :=
  let list := (mod.worldManifest.Filter lang id).map ListEntry.world
  let list :=
    match mod.localizedResources L.LangAny id with
    | some res => ListEntry.With list (ListEntry.modified L.LangAny res)
    | none => list
  L.Languages.foldl
    (fun list worldLang =>
      if L.Includes worldLang lang then
        match mod.localizedResources lang id with
        | some res => ListEntry.With list (ListEntry.modified lang res)
        | none => list
      else
        list)
    list

/-- The statement `mod.localizedResources[lang][id] = res`. -/
def store (mod : Mod) (lang : Language) (id : ID) (res : MutableResource) : Mod :=
  { mod with
    localizedResources := fun l i => if l = lang ∧ i = id then some res else mod.localizedResources l i }

/-- The statement `delete(mod.localizedResources[lang], id)`. -/
def delete (mod : Mod) (lang : Language) (id : ID) : Mod :=
  { mod with
    localizedResources := fun l i => if l = lang ∧ i = id then none else mod.localizedResources l i }

/-- Method `newResource`: meta attributes of the first world match, or the defaults. The
override is a `MutableResource` with an empty block map. -/
def newResource (mod : Mod) (lang : Language) (id : ID) : MutableResource :=
  match mod.worldManifest.Filter lang id with
  | existing :: _ =>
    { filename := "", saveOrder := 0
      compound := existing.Compound
      contentType := existing.ContentType
      compressed := existing.Compressed
      blockCount := 0, blocks := some fun _ => none }
  | [] =>
    { filename := "", saveOrder := 0
      compound := false
      contentType := ContentType.Text
      compressed := false
      blockCount := 0, blocks := some fun _ => none }

/-- Method `ensureResource`. Storing under a language without an inner map is an assignment to an
entry of a nil map, which panics. -/
def ensureResource (L : LanguageSet) (mod : Mod) (lang : Language) (id : ID) :
    Option (Mod × MutableResource) :=
  match mod.localizedResources lang id with
  | some res => some (mod, res)
  | none =>
    if L.known lang then
      some (mod.store lang id (mod.newResource lang id), mod.newResource lang id)
    else
      none

/-- Method `delResource`. -/
def delResource (L : LanguageSet) (mod : Mod) (lang : Language) (id : ID) : Mod :=
  let mod := L.Languages.foldl
    (fun m worldLang => if L.Includes lang worldLang then m.delete worldLang id else m) mod
  if L.Includes lang L.LangAny then mod.delete L.LangAny id else mod

/-- Modelled from the spec: the method `SetResourceBlock` by which the mod serves a queued
action is not among the given sources. As the spec and the doc comment of
`ModTransaction.SetResourceBlock` say, non-empty data creates the override on demand and sets
the block, extending the block count; empty data clears the block of an existing override. The
block is set by `MutableResource.SetBlock`, on the override the map holds. -/
def SetResourceBlock (L : LanguageSet) (mod : Mod) (lang : Language) (id : ID) (index : Int)
    (data : Bytes) : Option Mod :=
  if data.length > 0 then
    match mod.ensureResource L lang id with
    | some (ensured, res) => (res.SetBlock index data).map (ensured.store lang id)
    | none => none
  else
    match mod.ModifiedResource lang id with
    | some res => (res.SetBlock index []).map (mod.store lang id)
    | none => some mod

/-- Modelled from the spec: the method `SetResourceBlocks` of the mod is not among the given
sources. It replaces the full block list of the resource in one step, by
`MutableResource.SetBlocks`. -/
def SetResourceBlocks (L : LanguageSet) (mod : Mod) (lang : Language) (id : ID)
    (data : List Bytes) : Option Mod :=
  match mod.ensureResource L lang id with
  | some (ensured, res) => (res.SetBlocks data).map (ensured.store lang id)
  | none => none

/-- Modelled from the spec: the method `DelResource` of the mod is not among the given sources.
It removes the override through `delResource`. -/
def DelResource (L : LanguageSet) (mod : Mod) (lang : Language) (id : ID) : Option Mod :=
  some (mod.delResource L lang id)

/-- Every override of the mod has a block map: none of them is a resource no constructor has set
up. -/
def Made (mod : Mod) : Prop :=
  ∀ lang id res, mod.localizedResources lang id = some res → res.blocks.isSome = true

end Mod

/-! ## Transactions -/

/-- Modelled from the spec: `resource.IDMarkerMap` is not among the given sources. It is the set
of resource IDs marked for notification, a Go map from ID to a flag; a map holds a key once. -/
structure IDMarkerMap where
  ids : List ID
  nodup : ids.Nodup

namespace IDMarkerMap

/-- The call `make(idMarkerMap)`. -/
def empty : IDMarkerMap where
  ids := []
  nodup := List.nodup_nil

/-- Method `Add`: marks the ID; marking a marked ID changes nothing. -/
def Add (marker : IDMarkerMap) (id : ID) : IDMarkerMap where
  ids := List.insert id marker.ids
  nodup := marker.nodup.insert

/-- Method `toList`: the marked IDs. -/
def toList (marker : IDMarkerMap) : List ID :=
  marker.ids

end IDMarkerMap

/-- Type `modAction`, `func(modder Modder)`, with the mod as the modder: an action turns the mod
into the changed mod, or panics. -/
abbrev modAction := Mod → Option Mod

/-- Struct `ModTransaction` of `ss1/world/ModTransaction.go`. -/
structure ModTransaction where
  actions : List modAction
  modifiedIDs : IDMarkerMap

namespace ModTransaction

/-- The transaction `Modify` hands to the modifier: no actions, an empty marker map. -/
def fresh : ModTransaction where
  actions := []
  modifiedIDs := IDMarkerMap.empty

/-- Method `SetResourceBlock`. -/
def SetResourceBlock (L : LanguageSet) (trans : ModTransaction) (lang : Language) (id : ID)
    (index : Int) (data : Bytes) : ModTransaction where
  actions := trans.actions ++ [fun modder => modder.SetResourceBlock L lang id index data]
  modifiedIDs := trans.modifiedIDs.Add id

/-- Method `SetResourceBlocks`. -/
def SetResourceBlocks (L : LanguageSet) (trans : ModTransaction) (lang : Language) (id : ID)
    (data : List Bytes) : ModTransaction where
  actions := trans.actions ++ [fun modder => modder.SetResourceBlocks L lang id data]
  modifiedIDs := trans.modifiedIDs.Add id

/-- Method `DelResource`. -/
def DelResource (L : LanguageSet) (trans : ModTransaction) (lang : Language) (id : ID) :
    ModTransaction where
  actions := trans.actions ++ [fun modder => modder.DelResource L lang id]
  modifiedIDs := trans.modifiedIDs.Add id

end ModTransaction

/-- The loop `for _, action := range trans.actions { action(mod) }` of `Modify`. -/
def applyActions : List modAction → Mod → Option Mod
  | [], mod => some mod
  | action :: rest, mod =>
    match action mod with
    | some next => applyActions rest next
    | none => none

/-! ## Views and the change notification -/

/-- Modelled from the spec: `resource.ViewStrategy`, which `world.ResourceViewStrategy()`
returns, is not among the given sources. It tells of which resource IDs the blocks form a
compound list, the resources in which a cleared block shows the data beneath it. -/
structure ViewStrategy where
  IsCompoundList : ID → Bool

/-- Modelled from the spec: the blocks one element of a `resource.List` provides, by index: a
resource of the world its blocks, an override what `readBlock` returns for every index below its
block count. -/
def ListEntry.Blocks : ListEntry → List Bytes
  | ListEntry.world res => res.Blocks
  | ListEntry.modified _ res =>
    (List.range res.BlockCount.toNat).map fun (index : Nat) => readBlock res (index : Int)

/-- Modelled from the spec: a resource laid in front of the blocks beneath it, block by block:
where the resource in front has bytes they are shown, where its block is empty or missing the
bytes beneath are. -/
def overlayBlocks (beneath front : List Bytes) : List Bytes :=
  (List.range (max beneath.length front.length)).map fun index =>
    if (front.getD index []).isEmpty then beneath.getD index [] else front.getD index []

/-- Modelled from the spec: the merged, read-only view of a resource, of which the blocks are
kept. In the list `Filter` returns the overrides come last and sit in front of the resources of
the world. Of a compound list every element is laid in front of the ones before it; of any other
resource the element in front is the one seen. An empty list has no view. -/
def mergedView (strategy : ViewStrategy) (id : ID) (list : List ListEntry) :
    Option (List Bytes) :=
  match list.getLast? with
  | none => none
  | some front =>
    if strategy.IsCompoundList id then
      some (list.foldl (fun merged element => overlayBlocks merged element.Blocks) [])
    else
      some front.Blocks

/-- Struct `resource.Selector`, as `Mod.LocalizedResources` fills it. -/
structure Selector where
  Lang : Language
  From : Mod
  As : ViewStrategy

/-- Method `Mod.LocalizedResources`. -/
def Mod.LocalizedResources (mod : Mod) (strategy : ViewStrategy) (lang : Language) : Selector where
  Lang := lang
  From := mod
  As := strategy

/-- Modelled from the spec: `resource.Selector.Select` is not among the given sources. It
presents, by the strategy, what `Filter` of the source returns for the language; `none` is its
error for a resource nothing provides. -/
def Selector.Select (L : LanguageSet) (selector : Selector) (id : ID) : Option (List Bytes) :=
  mergedView selector.As id (selector.From.Filter L selector.Lang id)

/-- The two ID lists one call of the callback `resourcesChanged` receives. -/
structure Notification where
  modifiedIDs : List ID
  failedIDs : List ID
  deriving DecidableEq, Repr

/-- What one call of `Modify` leaves behind: the changed mod, the ID list handed to the notifier
and the calls of `resourcesChanged`, in order. -/
structure Outcome where
  mod : Mod
  affectedIDs : List ID
  notifications : List Notification

/-- Modelled from the spec: the effective content of a resource, as the change notifier compares
it: the view of the resource for `LangAny` and for every language of `Languages()`. -/
def effectiveContent (L : LanguageSet) (strategy : ViewStrategy) (localizer : Mod) (id : ID) :
    List (Option (List Bytes)) :=
  (L.LangAny :: L.Languages).map fun lang => (localizer.LocalizedResources strategy lang).Select L id

/-- Modelled from the spec: `resource.ChangeNotifier.ModifyAndNotify` is not among the given
sources. It runs the modifier once, compares the effective content of every affected ID before
and after, and calls the callback once, with the affected IDs whose content changed and with no
failed ID. -/
def ModifyAndNotify (L : LanguageSet) (strategy : ViewStrategy) (localizer : Mod)
    (modifier : Mod → Option Mod) (affectedIDs : List ID) : Option Outcome :=
  match modifier localizer with
  | none => none
  | some changed =>
    some
      { mod := changed
        affectedIDs := affectedIDs
        notifications :=
          [{ modifiedIDs := affectedIDs.filter fun id =>
               effectiveContent L strategy localizer id != effectiveContent L strategy changed id
             failedIDs := [] }] }

/-- Method `Mod.Modify`. -/
def Mod.Modify (L : LanguageSet) (strategy : ViewStrategy) (mod : Mod)
    (modifier : ModTransaction → ModTransaction) : Option Outcome :=
  let trans := modifier ModTransaction.fresh
  ModifyAndNotify L strategy mod (fun target => applyActions trans.actions target)
    trans.modifiedIDs.toList

/-! ## Calls of the transaction builder -/

/-- One call of a method of `ModTransaction` that changes the blocks of a resource, with its
arguments. A modifier passed to `Modify` makes a sequence of such calls. -/
inductive TransCall where
  | SetResourceBlock (lang : Language) (id : ID) (index : Int) (data : Bytes)
  | SetResourceBlocks (lang : Language) (id : ID) (data : List Bytes)
  | DelResource (lang : Language) (id : ID)

namespace TransCall

/-- The resource ID a call names. -/
def id : TransCall → ID
  | SetResourceBlock _ id _ _ => id
  | SetResourceBlocks _ id _ => id
  | DelResource _ id => id

/-- The call made on a transaction. -/
def queue (L : LanguageSet) (trans : ModTransaction) : TransCall → ModTransaction
  | SetResourceBlock lang id index data => trans.SetResourceBlock L lang id index data
  | SetResourceBlocks lang id data => trans.SetResourceBlocks L lang id data
  | DelResource lang id => trans.DelResource L lang id

/-- The change of the mod the call asks for, done at once on the mod. -/
def perform (L : LanguageSet) (mod : Mod) : TransCall → Option Mod
  | SetResourceBlock lang id index data => mod.SetResourceBlock L lang id index data
  | SetResourceBlocks lang id data => mod.SetResourceBlocks L lang id data
  | DelResource lang id => mod.DelResource L lang id

end TransCall

/-- The modifier function that makes the given calls on the transaction, in order. -/
def modifierOf (L : LanguageSet) (calls : List TransCall) (trans : ModTransaction) :
    ModTransaction :=
  calls.foldl (fun t call => call.queue L t) trans

/-- The changes the calls ask for, done on the mod one after the other, each once, the first
call first; a panic of one of them ends the run. -/
def performAll (L : LanguageSet) : List TransCall → Mod → Option Mod
  | [], mod => some mod
  | call :: rest, mod => (call.perform L mod).bind (performAll L rest)

/-- The entries `Filter` appends for the override map of one language: the override stored under
the ID, if there is one. -/
def Mod.overrideEntries (mod : Mod) (lang : Language) (id : ID) : List ListEntry :=
  match mod.localizedResources lang id with
  | some res => [ListEntry.modified lang res]
  | none => []

/-- The override under `(lang, id)` exists and stores `data` at `index`, below its block
count. -/
def Mod.holdsBlock (mod : Mod) (lang : Language) (id : ID) (index : Int) (data : Bytes) : Prop :=
  ∃ res, mod.localizedResources lang id = some res ∧ res.entry index = some data
    ∧ index < res.blockCount

/-! ## The remaining methods of the transaction builder -/

/-- Modelled from the spec: `texture.Properties` is declared outside the given sources; a
record of a fixed-size property table, kept by its bytes. -/
structure TextureProperties where
  raw : Bytes
  deriving DecidableEq, Repr

/-- Modelled from the spec: `object.Triple` is declared outside the given sources; the class,
subclass and type of an object. -/
structure ObjectTriple where
  Class : Nat
  Subclass : Nat
  ObjectType : Nat
  deriving DecidableEq, Repr

/-- Modelled from the spec: `object.Properties` is declared outside the given sources; a record
of a fixed-size property table, kept by its bytes. -/
structure ObjectProperties where
  raw : Bytes
  deriving DecidableEq, Repr

/-- Modelled from the spec: the methods `PatchResourceBlock`, `SetTextureProperties` and
`SetObjectProperties` by which the mod serves a queued action are not among the given sources.
What they do to the mod is left open: they are parameters of the builder methods that queue
them. -/
structure ModderMethods where
  PatchResourceBlock : Mod → Language → ID → Int → Int → Bytes → Option Mod
  SetTextureProperties : Mod → Int → TextureProperties → Option Mod
  SetObjectProperties : Mod → ObjectTriple → ObjectProperties → Option Mod

namespace ModTransaction

/-- Method `PatchResourceBlock`. -/
def PatchResourceBlock (M : ModderMethods) (trans : ModTransaction) (lang : Language) (id : ID)
    (index : Int) (expectedLength : Int) (patch : Bytes) : ModTransaction where
  actions :=
    trans.actions ++ [fun modder => M.PatchResourceBlock modder lang id index expectedLength patch]
  modifiedIDs := trans.modifiedIDs.Add id

/-- Method `SetTextureProperties`. -/
def SetTextureProperties (M : ModderMethods) (trans : ModTransaction) (textureIndex : Int)
    (properties : TextureProperties) : ModTransaction where
  actions := trans.actions ++ [fun modder => M.SetTextureProperties modder textureIndex properties]
  modifiedIDs := trans.modifiedIDs

/-- Method `SetObjectProperties`. -/
def SetObjectProperties (M : ModderMethods) (trans : ModTransaction) (triple : ObjectTriple)
    (properties : ObjectProperties) : ModTransaction where
  actions := trans.actions ++ [fun modder => M.SetObjectProperties modder triple properties]
  modifiedIDs := trans.modifiedIDs

end ModTransaction

/-- One call of any of the six methods of `ModTransaction`, with its arguments. -/
inductive BuilderCall where
  | SetResourceBlock (lang : Language) (id : ID) (index : Int) (data : Bytes)
  | PatchResourceBlock (lang : Language) (id : ID) (index : Int) (expectedLength : Int)
      (patch : Bytes)
  | SetResourceBlocks (lang : Language) (id : ID) (data : List Bytes)
  | DelResource (lang : Language) (id : ID)
  | SetTextureProperties (textureIndex : Int) (properties : TextureProperties)
  | SetObjectProperties (triple : ObjectTriple) (properties : ObjectProperties)

/-- The call made on a transaction. -/
def BuilderCall.queue (L : LanguageSet) (M : ModderMethods) (trans : ModTransaction) :
    BuilderCall → ModTransaction
  | SetResourceBlock lang id index data => trans.SetResourceBlock L lang id index data
  | PatchResourceBlock lang id index expectedLength patch =>
    trans.PatchResourceBlock M lang id index expectedLength patch
  | SetResourceBlocks lang id data => trans.SetResourceBlocks L lang id data
  | DelResource lang id => trans.DelResource L lang id
  | SetTextureProperties textureIndex properties =>
    trans.SetTextureProperties M textureIndex properties
  | SetObjectProperties triple properties => trans.SetObjectProperties M triple properties

/-- The two objects a running modifier works on: the mod, which it can read, and the transaction
`Modify` has handed to it. -/
structure ModifyState where
  mod : Mod
  trans : ModTransaction

/-- One call of a builder method while the modifier runs. The method bodies assign to
`trans.actions` and `trans.modifiedIDs` only. -/
def BuilderCall.step (L : LanguageSet) (M : ModderMethods) (state : ModifyState)
    (call : BuilderCall) : ModifyState where
  mod := state.mod
  trans := call.queue L M state.trans

/-- The modifier function that makes the given calls of builder methods, in order. -/
def builderModifier (L : LanguageSet) (M : ModderMethods) (calls : List BuilderCall)
    (trans : ModTransaction) : ModTransaction :=
  calls.foldl (fun t call => call.queue L M t) trans

/-! ## Mods made by ensureResource and delResource -/

/-- The mods that calls of `ensureResource` and `delResource` make of the mod `NewMod` returns,
over the world manifest `world`. -/
inductive Mod.Reachable (L : LanguageSet) (world : Manifest) : Mod → Prop where
  | pristine : Mod.Reachable L world { Mod.NewMod with worldManifest := world }
  | ensure (mod ensured : Mod) (res : MutableResource) (lang : Language) (id : ID) :
      Mod.Reachable L world mod → mod.ensureResource L lang id = some (ensured, res) →
      Mod.Reachable L world ensured
  | del (mod : Mod) (lang : Language) (id : ID) :
      Mod.Reachable L world mod → Mod.Reachable L world (mod.delResource L lang id)

/-! ## Text services -/

/-- Modelled from the spec: `ids.ResourceInfo` is declared outside the given sources, which read
only its flag `List`. -/
structure ResourceInfo where
  List : Bool
  deriving DecidableEq, Repr

/-- Modelled from the spec: the table `ids.Info` of known resource IDs and the method
`resource.ID.Plus` are not among the given sources; they are parameters of the services. `Info`
returns the entry of an ID and whether the table has one. -/
structure ResourceIDs where
  Info : ID → ResourceInfo × Bool
  Plus : ID → Int → ID

/-- Interface `TextBlockGetter` of `ss1/edit/media/GetText.go`. -/
structure TextBlockGetter where
  ModifiedBlock : Language → ID → Int → Bytes
  ModifiedBlocks : Language → ID → List Bytes

/-- Struct `GetTextService`. A `text.Cache` is kept by its method `Text`, which returns the
text of a key or an error. -/
structure GetTextService where
  lineCache : Key → Except String String
  pageCache : Key → Except String String
  getter : TextBlockGetter

namespace GetTextService

/-- Method `Current`. -/
def Current (ids : ResourceIDs) (service : GetTextService) (key : Key) : String :=
  let cache :=
    if !(ids.Info key.ID).2 || (ids.Info key.ID).1.List then service.lineCache
    else service.pageCache
  match cache key with
  | Except.ok currentValue => currentValue
  | Except.error _ => ""

/-- Method `Modified`. -/
def Modified (ids : ResourceIDs) (service : GetTextService) (key : Key) : Bool :=
  let data : List Bytes :=
    if (ids.Info key.ID).1.List then
      [service.getter.ModifiedBlock key.Lang key.ID key.Index]
    else
      service.getter.ModifiedBlocks key.Lang (ids.Plus key.ID key.Index)
  decide (data.length > 0)

end GetTextService

/-- Modelled from the spec: `media.SetTextService` is not among the given sources. Its methods
take the block setter and change it; what they do to a setter in state `σ` is left open. -/
structure SetTextService (σ : Type) where
  Set : σ → Key → String → σ
  Remove : σ → Key → σ
  Clear : σ → Key → σ

/-- Struct `GetAugmentedTextService` of `ss1/cyber/GetAugmentedText.go`, with the two text
services; the audio services are not used by the text methods. -/
structure GetAugmentedTextService (σ : Type) where
  getText : GetTextService
  setText : SetTextService σ

namespace GetAugmentedTextService

/-- Method `GetText`. -/
def GetText {σ : Type} (ids : ResourceIDs) (service : GetAugmentedTextService σ) (key : Key) :
    String :=
  service.getText.Current ids key

/-- Method `SetText`. -/
def SetText {σ : Type} (service : GetAugmentedTextService σ) (setter : σ) (key : Key)
    (value : String) : σ :=
  service.setText.Set setter key value

/-- Method `RestoreTextFunc`: the text and the modification flag are captured when the function
is made. -/
def RestoreTextFunc {σ : Type} (ids : ResourceIDs) (service : GetAugmentedTextService σ)
    (key : Key) : σ → σ :=
  let oldText := service.getText.Current ids key
  let isModified := service.getText.Modified ids key
  fun setter =>
    if isModified then
      service.setText.Set setter key oldText
    else
      service.setText.Remove setter key

end GetAugmentedTextService

/-! ## Resources built from SetBlock and SetBlocks -/

/-- The resources that calls of `SetBlock` with an index of at most `largest` and calls of
`SetBlocks` make of a resource with an empty block map and the block count 0. An index is an
`int`, so `largest` is at most `maxInt`; a slice has at most `maxInt` elements. -/
inductive MutableResource.Built (largest : Int) : MutableResource → Prop where
  | fresh (filename : String) (saveOrder : Int) (compound : Bool) (contentType : ContentType)
      (compressed : Bool) :
      MutableResource.Built largest
        { filename := filename, saveOrder := saveOrder, compound := compound,
          contentType := contentType, compressed := compressed,
          blockCount := 0, blocks := some fun _ => none }
  | afterSetBlock (res next : MutableResource) (index : Int) (data : Bytes) :
      MutableResource.Built largest res → index ≤ largest → res.SetBlock index data = some next →
      MutableResource.Built largest next
  | afterSetBlocks (res next : MutableResource) (data : List Bytes) :
      MutableResource.Built largest res → (data.length : Int) ≤ maxInt →
      res.SetBlocks data = some next → MutableResource.Built largest next

/-! ## Resources from a provider -/

/-- Modelled from the spec: the resource a `resource.Provider` returns is declared outside the
given sources; it has the three meta attributes, a block count, which is an `int`, and a reader
per block index, or an error instead of the reader. -/
structure ProviderResource where
  Compound : Bool
  ContentType : ContentType
  Compressed : Bool
  BlockCount : Int
  Block : Int → Except String BlockReader
  blockCountIsInt : BlockCount ≤ maxInt

/-- The resource of a provider has the two methods of `resource.BlockProvider`. -/
instance ProviderResource.blockProvider : BlockProvider ProviderResource where
  BlockCount := ProviderResource.BlockCount
  Block := ProviderResource.Block

/-- Modelled from the spec: interface `resource.Provider` is declared outside the given sources;
it lists the IDs it has and returns the resource of an ID, or an error. -/
structure Provider where
  IDs : List ID
  Resource : ID → Except String ProviderResource

/-- Type `IdentifiedResources`, a map from resource ID to resource. -/
abbrev IdentifiedResources := ID → Option MutableResource

/-- The body of the loop over `ids` in `MutableResourcesFromProvider` for a resource the
provider returned: a new resource with an empty block map, then one `SetBlock` per block index
below the block count. -/
def mutableFromProvider (filename : String) (index : Int) (res : ProviderResource) :
    Option MutableResource :=
  (List.range res.BlockCount.toNat).foldlM
    (fun mutable (blockIndex : Nat) =>
      mutable.SetBlock (blockIndex : Int) (readBlock res (blockIndex : Int)))
    { filename := filename, saveOrder := index
      compound := res.Compound, contentType := res.ContentType, compressed := res.Compressed
      blockCount := 0, blocks := some fun _ => none }

/-- Function `MutableResourcesFromProvider`. The error of `provider.Resource` is dropped; with
an error there is no resource to call, which panics. -/
def MutableResourcesFromProvider (filename : String) (provider : Provider) :
    Option IdentifiedResources :=
  provider.IDs.enum.foldl
    (fun state entry =>
      match state with
      | none => none
      | some mutables =>
        match provider.Resource entry.2 with
        | Except.error _ => none
        | Except.ok res =>
          match mutableFromProvider filename (entry.1 : Int) res with
          | none => none
          | some mutable => some fun id => if id = entry.2 then some mutable else mutables id)
    (some fun _ => none)

/-! ## Sound keys of trap messages -/

/-- Modelled from the spec: the constants `TrapMessageTexts` and `TrapMessagesAudioStart` of
package `ids` are not among the given sources; they are parameters. -/
structure TrapMessageIDs where
  TrapMessageTexts : ID
  TrapMessagesAudioStart : ID

/-- Function `TrapMessageSoundKeyFor` of `ss1/cyber/GetAugmentedText.go`. -/
def TrapMessageSoundKeyFor (ids : ResourceIDs) (known : TrapMessageIDs) (key : Key) : Key :=
  let soundKey := key
  let soundKey := { soundKey with ID := ids.Plus known.TrapMessagesAudioStart key.Index }
  { soundKey with Index := 0 }

/-- Method `GetAugmentedTextService.IsTrapMessage`. -/
def IsTrapMessage (known : TrapMessageIDs) (key : Key) : Bool :=
  decide (key.ID = known.TrapMessageTexts)

namespace texts

/-- Variable `textToAudio` of `editor/texts/View.go`, a map with one entry. -/
def textToAudio (known : TrapMessageIDs) (id : ID) : Option ID :=
  if id = known.TrapMessageTexts then some known.TrapMessagesAudioStart else none

/-- Modelled from the spec: struct `viewModel` of package `texts` is not among the given
sources; the view reads its field `currentKey`. -/
structure viewModel where
  currentKey : Key

/-- Struct `View` of `editor/texts/View.go`, as far as the sound key reads it. -/
structure View where
  model : viewModel

/-- Method `hasAudio`. -/
def View.hasAudio (known : TrapMessageIDs) (view : View) : Bool :=
  decide (view.model.currentKey.ID = known.TrapMessageTexts)

/-- Method `currentSoundKey`. A missing entry of `textToAudio` reads as the zero ID. -/
def View.currentSoundKey (ids : ResourceIDs) (known : TrapMessageIDs) (view : View) :
    Key × Bool :=
  if !view.hasAudio known then
    ({ Lang := 0, ID := 0, Index := 0 }, false)
  else
    let key := view.model.currentKey
    let key := { key with ID := ids.Plus ((textToAudio known key.ID).getD 0) key.Index }
    let key := { key with Index := 0 }
    (key, true)

end texts

/-! ## Timestamps -/

/-- Conversion of a floating-point value to an integer: the fraction is dropped. -/
def truncate (value : ℚ) : Int :=
  if 0 ≤ value then ⌊value⌋ else -⌊-value⌋

/-- One IEEE 754 binary format of Go, `float32` with 24 or `float64` with 53 bits of precision.
A value of the type is the rational number it stands for. An operation, or a conversion to the
type, returns the exact result put into the format by `round`; of `round` the only thing used is
that a number whose significand has at most `precision` bits is returned as it is. Not-a-number,
infinities and the bounds of the exponent are not modelled. The conversion of a value to an
integer type that cannot represent it succeeds with a result Go leaves to the implementation:
the three functions for such values. -/
structure FloatFormat (precision : Nat) where
  round : ℚ → ℚ
  exact : ∀ (significand exponent : ℤ), |significand| < 2 ^ precision →
    round ((significand : ℚ) * (2 : ℚ) ^ exponent) = (significand : ℚ) * (2 : ℚ) ^ exponent
  uint8OutOfRange : ℚ → Fin 256
  uint16OutOfRange : ℚ → Fin 65536
  int64OutOfRange : ℚ → Int

namespace FloatFormat

/-- Conversion to `uint8`: the value without its fraction when that is a `uint8`. -/
def toUint8 {precision : Nat} (format : FloatFormat precision) (value : ℚ) : Fin 256 :=
  if 0 ≤ truncate value ∧ truncate value < 256 then Fin.ofNat (truncate value).toNat
  else format.uint8OutOfRange value

/-- Conversion to `uint16`: the value without its fraction when that is a `uint16`. -/
def toUint16 {precision : Nat} (format : FloatFormat precision) (value : ℚ) : Fin 65536 :=
  if 0 ≤ truncate value ∧ truncate value < 65536 then Fin.ofNat (truncate value).toNat
  else format.uint16OutOfRange value

/-- Conversion to `int64`, the type under `time.Duration`: the value without its fraction when
that is an `int64`. -/
def toInt64 {precision : Nat} (format : FloatFormat precision) (value : ℚ) : Int :=
  if minInt ≤ truncate value ∧ truncate value ≤ maxInt then truncate value
  else format.int64OutOfRange value

end FloatFormat

/-- Constant `fractionDivisor` of `ss1/content/movie/Timestamp.go`. -/
def fractionDivisor : Nat := 0x10000

/-- Constant `time.Second`, in nanoseconds. -/
def timeSecond : Int := 1000000000

/-- Struct `Timestamp`: `Second uint8` and `Fraction uint16`. -/
structure Timestamp where
  Second : Fin 256
  Fraction : Fin 65536
  deriving DecidableEq, Repr

/-- Function `TimestampFromSeconds`, on a `float32` value. -/
def TimestampFromSeconds (float32 : FloatFormat 24) (value : ℚ) : Timestamp :=
  let second : Fin 256 := float32.toUint8 value
  { Second := second
    Fraction :=
      float32.toUint16
        (float32.round
          (float32.round (value - float32.round (second.val : ℚ))
            * float32.round (fractionDivisor : ℚ))) }

namespace Timestamp

/-- Method `ToDuration`: a `time.Duration`, the number of nanoseconds, computed in `float64`. -/
def ToDuration (float64 : FloatFormat 53) (ts : Timestamp) : Int :=
  float64.toInt64
    (float64.round
      (float64.round
          (float64.round (ts.Second.val : ℚ)
            + float64.round
                (float64.round (ts.Fraction.val : ℚ) / float64.round (fractionDivisor : ℚ)))
        * float64.round (timeSecond : ℚ)))

/-- Method `IsAfter`. -/
def IsAfter (ts other : Timestamp) : Bool :=
  decide (ts.Second > other.Second)
    || (decide (ts.Second = other.Second) && decide (ts.Fraction > other.Fraction))

end Timestamp

/-! ## Example data -/

/-- The resource of the extension test: one block, `[0xAA]`, at index 0. -/
def oneBlockResource : MutableResource where
  filename := ""
  saveOrder := 0
  compound := false
  contentType := ContentType.Text
  compressed := false
  blockCount := 1
  blocks := some fun i => if i = 0 then some [0xAA] else none

/-- The zero value of `MutableResource`: no constructor has made its block map. -/
def zeroValueResource : MutableResource where
  filename := ""
  saveOrder := 0
  compound := false
  contentType := ContentType.Other 0
  compressed := false
  blockCount := 0
  blocks := none

/-- The world of the tests: resource `0x0800` with the single block `[0xAA]`, for every
language. -/
def testWorld : Manifest where
  Filter := fun _ id =>
    if id = 0x0800 then
      [{ Compound := false, ContentType := ContentType.Text, Compressed := false,
         Blocks := [[0xAA]] }]
    else
      []

/-- An override with the single block `[0xBB]`. -/
def testOverride : MutableResource where
  filename := ""
  saveOrder := 0
  compound := false
  contentType := ContentType.Text
  compressed := false
  blockCount := 1
  blocks := some fun i => if i = 0 then some [0xBB] else none

/-- A mod over `testWorld` that overrides resource `0x0800` under `LangAny` (255) and under
language 1 of `resourceLanguages`. -/
def testMod : Mod where
  worldManifest := testWorld
  localizedResources := fun lang id =>
    if (lang = 255 ∨ lang = 1) ∧ id = 0x0800 then some testOverride else none

/-- A view strategy for the examples: resource `0x004C` is a compound list, no other is. -/
def testStrategy : ViewStrategy where
  IsCompoundList := fun id => decide (id = 0x004C)

/-- The mod of the tests before any `Modify`: `NewMod` over `testWorld`. -/
def pristineTestMod : Mod :=
  { Mod.NewMod with worldManifest := testWorld }

/-- The mod of the test of identical data before its `Modify`: `NewMod` over a world that holds
resource `0x004C` with the single block `[0xAA]`. -/
def listTestMod : Mod :=
  { Mod.NewMod with
    worldManifest :=
      { Filter := fun _ id =>
          if id = 0x004C then
            [{ Compound := true, ContentType := ContentType.Text, Compressed := false,
               Blocks := [[0xAA]] }]
          else
            [] } }

/-- A resource of package `resource` with one block, of which the reader fails. -/
def unreadableResource : ProviderResource where
  Compound := false
  ContentType := ContentType.Text
  Compressed := true
  BlockCount := 1
  Block := fun index =>
    if index = 0 then Except.ok { ReadAll := Except.error "unexpected EOF" }
    else Except.error "block index wrong"
  blockCountIsInt := by decide

/-- A mod that holds `unreadableResource` as the override of `0x0800` under `LangAny` (255). -/
def unreadableMod : ModOf ProviderResource where
  worldManifest := testWorld
  localizedResources := fun lang id =>
    if lang = 255 ∧ id = 0x0800 then some unreadableResource else none

/-- A call of a method of the text setter service, as the recording service of the examples
keeps it. -/
inductive TextSetterCall where
  | Set (key : Key) (value : String)
  | Remove (key : Key)
  | Clear (key : Key)
  deriving DecidableEq, Repr

/-- A text setter service that records the calls made on it, in order. -/
def recordingSetText : SetTextService (List TextSetterCall) where
  Set := fun calls key value => calls ++ [TextSetterCall.Set key value]
  Remove := fun calls key => calls ++ [TextSetterCall.Remove key]
  Clear := fun calls key => calls ++ [TextSetterCall.Clear key]

/-- A table of resource IDs for the examples: `0x0867` is a list of text lines, `0x003C` a text
of pages; `Plus` adds the offset. -/
def testIDs : ResourceIDs where
  Info := fun id =>
    if id = 0x0867 then ({ List := true }, true)
    else if id = 0x003C then ({ List := false }, true)
    else ({ List := false }, false)
  Plus := fun id offset => ((id : Int) + offset).toNat

/-- The text service over a mod without overrides: the getter returns no block for any key, the
caches hold the texts of the world. -/
def unmodifiedTextService : GetAugmentedTextService (List TextSetterCall) where
  getText :=
    { lineCache := fun _ => Except.ok "world line"
      pageCache := fun _ => Except.ok "world page"
      getter := { ModifiedBlock := fun _ _ _ => [], ModifiedBlocks := fun _ _ => [] } }
  setText := recordingSetText

/-- A format for the examples whose `round` changes no number and which converts a value out of
the range of the integer type to 0. -/
def unroundedFormat (precision : Nat) : FloatFormat precision where
  round := fun value => value
  exact := fun _ _ _ => rfl
  uint8OutOfRange := fun _ => 0
  uint16OutOfRange := fun _ => 0
  int64OutOfRange := fun _ => 0

/-- The constants of the trap messages for the examples. -/
def testTrapMessageIDs : TrapMessageIDs where
  TrapMessageTexts := 0x0867
  TrapMessagesAudioStart := 0x0C1C

/-- A provider with the two resources `0x0800` and `0x0801`: the first has two blocks, of which
the second cannot be read, the second has none. -/
def testProvider : Provider where
  IDs := [0x0800, 0x0801]
  Resource := fun id =>
    if id = 0x0800 then
      Except.ok
        { Compound := true, ContentType := ContentType.Text, Compressed := false
          BlockCount := 2
          Block := fun index =>
            if index = 0 then Except.ok { ReadAll := Except.ok [0xAA] }
            else if index = 1 then Except.ok { ReadAll := Except.error "unexpected EOF" }
            else Except.error "block index wrong"
          blockCountIsInt := by decide }
    else if id = 0x0801 then
      Except.ok
        { Compound := false, ContentType := ContentType.Other 2, Compressed := true
          BlockCount := 0
          Block := fun _ => Except.error "block index wrong"
          blockCountIsInt := by decide }
    else
      Except.error "resource does not exist"

/-- A resource with an empty block map. -/
def emptyResource : MutableResource where
  filename := ""
  saveOrder := 0
  compound := false
  contentType := ContentType.Text
  compressed := false
  blockCount := 0
  blocks := some fun _ => none

/-- A resource with the blocks `[0xAA]`, nothing, `[0xBB]`: what `SetBlock(2, ...)` makes of
`oneBlockResource`. -/
def threeBlockResource : MutableResource where
  filename := ""
  saveOrder := 0
  compound := false
  contentType := ContentType.Text
  compressed := false
  blockCount := 3
  blocks := some fun i => if i = 2 then some [0xBB] else if i = 0 then some [0xAA] else none

/-- What `SetBlock(2, ...)` makes of `emptyResource`. -/
def builtOnce : MutableResource :=
  (emptyResource.SetBlock 2 [0xBB]).getD emptyResource

/-- What `SetBlocks` of two blocks makes of `builtOnce`. -/
def builtTwice : MutableResource :=
  (builtOnce.SetBlocks [[0xAA], [0xBB]]).getD emptyResource

/-- A resource made of `emptyResource` by `SetBlock(2, ...)`, `SetBlocks` of two blocks and
`SetBlock(4, ...)`. -/
def builtResource : MutableResource :=
  (builtTwice.SetBlock 4 [0xCC]).getD emptyResource

/-- What `SetBlock(maxInt, ...)` makes of `emptyResource`. -/
def wrappedResource : MutableResource :=
  (emptyResource.SetBlock maxInt [0xBB]).getD emptyResource

/-! # Theorems -/

/-! ## Go int -/

theorem wrapInt_of_int (value : Int) (hlow : minInt ≤ value) (hhigh : value ≤ maxInt) :
    wrapInt value = value := by
  unfold wrapInt
  unfold minInt at hlow
  unfold maxInt at hhigh
  omega

theorem wrapInt_succ_of_lt (index : Int) (hlow : 0 ≤ index) (hhigh : index < maxInt) :
    wrapInt (index + 1) = index + 1 := by
  apply wrapInt_of_int
  · unfold minInt
    omega
  · omega

theorem wrapInt_succ_maxInt : wrapInt (maxInt + 1) = minInt := by
  decide

/-! ## Blocks of a MutableResource -/

theorem MutableResource.SetBlock_of_negative (res : MutableResource) (index : Int) (data : Bytes)
    (hneg : index < 0) : res.SetBlock index data = some res := by
  simp [MutableResource.SetBlock, hneg]

theorem MutableResource.SetBlock_of_nil (res : MutableResource) (index : Int) (data : Bytes)
    (hindex : 0 ≤ index) (hnil : res.blocks = none) : res.SetBlock index data = none := by
  unfold MutableResource.SetBlock
  rw [if_neg (not_lt.mpr hindex), hnil]

theorem MutableResource.SetBlock_of_made (res : MutableResource) (index : Int) (data : Bytes)
    (stored : Int → Option Bytes) (hindex : 0 ≤ index) (hmade : res.blocks = some stored) :
    res.SetBlock index data
      = some
          { res with
            blocks := some fun i => if i = index then some data else stored i
            blockCount := if index ≥ res.blockCount then wrapInt (index + 1) else res.blockCount } := by
  unfold MutableResource.SetBlock
  rw [if_neg (not_lt.mpr hindex), hmade]
  by_cases hcount : index ≥ res.blockCount <;> simp [hcount]

/-- What `SetBlock` with an index that is not negative leaves behind when it returns. -/
theorem MutableResource.SetBlock_some (res next : MutableResource) (index : Int) (data : Bytes)
    (hindex : 0 ≤ index) (hset : res.SetBlock index data = some next) :
    next.entry index = some data
      ∧ (∀ j, j ≠ index → next.entry j = res.entry j)
      ∧ next.blockCount
        = (if index ≥ res.blockCount then wrapInt (index + 1) else res.blockCount)
      ∧ next.blocks.isSome = true
      ∧ res.blocks.isSome = true := by
  cases hmade : res.blocks with
  | none =>
    rw [MutableResource.SetBlock_of_nil res index data hindex hmade] at hset
    cases hset
  | some stored =>
    rw [MutableResource.SetBlock_of_made res index data stored hindex hmade] at hset
    cases hset
    refine ⟨by simp [MutableResource.entry], ?_, rfl, rfl, rfl⟩
    intro j hj
    simp [MutableResource.entry, hmade, hj]

theorem MutableResource.SetBlock_isSome (res : MutableResource) (index : Int) (data : Bytes)
    (hmade : res.blocks.isSome = true) : ∃ next, res.SetBlock index data = some next := by
  by_cases hneg : index < 0
  · exact ⟨res, MutableResource.SetBlock_of_negative res index data hneg⟩
  · cases hblocks : res.blocks with
    | none => rw [hblocks] at hmade; cases hmade
    | some stored =>
      exact ⟨_, MutableResource.SetBlock_of_made res index data stored (not_lt.mp hneg) hblocks⟩

/-- What `SetBlock` with any index leaves as it was when it returns. -/
theorem MutableResource.SetBlock_frame (res next : MutableResource) (index : Int) (data : Bytes)
    (hset : res.SetBlock index data = some next) :
    (∀ j, j ≠ index → next.entry j = res.entry j)
      ∧ (res.blocks.isSome = true → next.blocks.isSome = true)
      ∧ next.filename = res.filename
      ∧ next.saveOrder = res.saveOrder
      ∧ next.compound = res.compound
      ∧ next.contentType = res.contentType
      ∧ next.compressed = res.compressed := by
  by_cases hneg : index < 0
  · rw [MutableResource.SetBlock_of_negative res index data hneg] at hset
    cases hset
    exact ⟨fun _ _ => rfl, fun hmade => hmade, rfl, rfl, rfl, rfl, rfl⟩
  · have hindex : 0 ≤ index := not_lt.mp hneg
    obtain ⟨_, hother, _, hmade, _⟩ := MutableResource.SetBlock_some res next index data hindex hset
    refine ⟨hother, fun _ => hmade, ?_⟩
    cases hblocks : res.blocks with
    | none =>
      rw [MutableResource.SetBlock_of_nil res index data hindex hblocks] at hset
      cases hset
    | some stored =>
      rw [MutableResource.SetBlock_of_made res index data stored hindex hblocks] at hset
      cases hset
      exact ⟨rfl, rfl, rfl, rfl, rfl⟩

theorem MutableResource.SetBlock_blockCount (res next : MutableResource) (index : Int)
    (data : Bytes) (hindex : 0 ≤ index) (hfits : index < maxInt)
    (hset : res.SetBlock index data = some next) :
    next.blockCount = if index ≥ res.blockCount then index + 1 else res.blockCount := by
  rw [(MutableResource.SetBlock_some res next index data hindex hset).2.2.1,
    wrapInt_succ_of_lt index hindex hfits]

theorem MutableResource.SetBlock_blockCount_le (res next : MutableResource) (index : Int)
    (data : Bytes) (hfits : index < maxInt) (hset : res.SetBlock index data = some next) :
    res.blockCount ≤ next.blockCount := by
  by_cases hneg : index < 0
  · rw [MutableResource.SetBlock_of_negative res index data hneg] at hset
    cases hset
    exact le_refl _
  · rw [MutableResource.SetBlock_blockCount res next index data (not_lt.mp hneg) hfits hset]
    by_cases hcount : index ≥ res.blockCount
    · rw [if_pos hcount]; omega
    · rw [if_neg hcount]

theorem MutableResource.SetBlock_index_lt (res next : MutableResource) (index : Int)
    (data : Bytes) (hindex : 0 ≤ index) (hfits : index < maxInt)
    (hset : res.SetBlock index data = some next) : index < next.blockCount := by
  rw [MutableResource.SetBlock_blockCount res next index data hindex hfits hset]
  by_cases hcount : index ≥ res.blockCount
  · rw [if_pos hcount]; omega
  · rw [if_neg hcount]; omega

theorem MutableResource.Block_of_valid (res : MutableResource) (index : Int) (hlow : 0 ≤ index)
    (hhigh : index < res.blockCount) :
    res.Block index = Except.ok (bytes.NewReader ((res.entry index).getD [])) := by
  simp [MutableResource.Block, MutableResource.isBlockIndexValid, hlow, hhigh]

theorem MutableResource.Block_eq (res : MutableResource) (index : Int) :
    res.Block index
      = (if index < 0 ∨ index ≥ res.BlockCount then Except.error "block index wrong"
        else Except.ok (bytes.NewReader ((res.entry index).getD []))) := by
  unfold MutableResource.Block MutableResource.isBlockIndexValid MutableResource.BlockCount
  by_cases hlow : index ≥ 0
  · by_cases hhigh : index < res.blockCount
    · have hvalid : ¬ (index < 0 ∨ index ≥ res.blockCount) := by omega
      simp [hlow, hhigh, hvalid]
    · have hinvalid : index < 0 ∨ index ≥ res.blockCount := by omega
      simp [hlow, hhigh, hinvalid]
  · have hinvalid : index < 0 ∨ index ≥ res.blockCount := by omega
    simp [hlow, hinvalid]

/-- C5, refuted as stated: setting block `maxInt`, the largest index there is, of a resource with
one block makes the block count `minInt`, not `maxInt + 1`, and the block cannot be read back;
and setting block 0 of the zero value of `MutableResource`, whose block count is 0, panics. -/
theorem SetBlock_at_largest_index_wraps :
    (∃ next, oneBlockResource.SetBlock maxInt [0xBB] = some next
        ∧ next.BlockCount = minInt
        ∧ next.BlockCount ≠ maxInt + 1
        ∧ next.Block maxInt = Except.error "block index wrong")
      ∧ zeroValueResource.BlockCount ≤ 0
      ∧ zeroValueResource.SetBlock 0 [0xBB] = none :=
  ⟨⟨_, rfl, rfl, by decide, rfl⟩, by decide, rfl⟩

/-- C5, amended: for a resource with a block map that stores no bytes outside `[0, n)`, `n` its
block count, setting a block at an index from `n` to below `maxInt` makes the count `index + 1`,
makes the block read back as the data, and makes every block from `n` up to the new one read as
empty, without a read error. -/
theorem SetBlock_beyond_count_extends (res : MutableResource) (index : Int) (data : Bytes)
    (hmade : res.blocks.isSome = true) (hres : res.Consistent)
    (hindex : res.BlockCount ≤ index) (hfits : index < maxInt) :
    ∃ next, res.SetBlock index data = some next
      ∧ next.BlockCount = index + 1
      ∧ next.Block index = Except.ok (bytes.NewReader data)
      ∧ ∀ j : Int, res.BlockCount ≤ j → j < index →
          next.Block j = Except.ok (bytes.NewReader []) := by
  obtain ⟨hcount, hstored⟩ := hres
  have hindex' : res.blockCount ≤ index := hindex
  have hnonneg : 0 ≤ index := le_trans hcount hindex'
  obtain ⟨next, hset⟩ := MutableResource.SetBlock_isSome res index data hmade
  obtain ⟨hself, hother, _, _, _⟩ := MutableResource.SetBlock_some res next index data hnonneg hset
  have hnew : next.blockCount = index + 1 := by
    rw [MutableResource.SetBlock_blockCount res next index data hnonneg hfits hset,
      if_pos hindex']
  refine ⟨next, hset, hnew, ?_, ?_⟩
  · rw [MutableResource.Block_of_valid _ index hnonneg (by rw [hnew]; omega), hself]
    rfl
  · intro j hlow hhigh
    have hlow' : res.blockCount ≤ j := hlow
    have hnone : res.entry j = none := by
      cases hblock : res.entry j with
      | none => rfl
      | some bytes =>
        have := (hstored j (by rw [hblock]; rfl)).2
        omega
    rw [MutableResource.Block_of_valid _ j (le_trans hcount hlow') (by rw [hnew]; omega),
      hother j (ne_of_lt hhigh), hnone]
    rfl

theorem oneBlockResource_consistent : oneBlockResource.Consistent := by
  refine ⟨by decide, ?_⟩
  intro j hj
  have hzero : j = 0 := by
    by_contra hne
    simp [oneBlockResource, MutableResource.entry, hne] at hj
  subst hzero
  decide

/-- Witness of C5: setting block 2 of a resource with one block yields three blocks, block 2
holding the data and block 1 empty. -/
theorem SetBlock_beyond_count_extends_witness :
    ∃ next, oneBlockResource.SetBlock 2 [0xBB] = some next
      ∧ next.BlockCount = 2 + 1
      ∧ next.Block 2 = Except.ok (bytes.NewReader [0xBB])
      ∧ ∀ j : Int, oneBlockResource.BlockCount ≤ j → j < 2 →
          next.Block j = Except.ok (bytes.NewReader []) :=
  SetBlock_beyond_count_extends oneBlockResource 2 [0xBB] rfl oneBlockResource_consistent
    (by decide) (by decide)

/-! ## What SetBlock changes and what it keeps -/

/-- C27, refuted as stated: `SetBlock(maxInt, ...)` on a resource with one block makes the block
count smaller than it was, and `SetBlock(0, ...)` on the zero value of `MutableResource` panics
instead of changing the bytes of block 0. -/
theorem SetBlock_decreases_count_at_largest_index :
    (∃ next, oneBlockResource.SetBlock maxInt [0xBB] = some next
        ∧ next.BlockCount < oneBlockResource.BlockCount)
      ∧ zeroValueResource.SetBlock 0 [0xBB] = none :=
  ⟨⟨_, rfl, by decide⟩, rfl⟩

/-- C27, amended: `SetBlock(index, data)` with `index < 0` leaves the resource as it is. With
`index >= 0` it panics on a resource without a block map; on a resource with one it stores the
data at `index`, sets the block count to `index + 1` when `index` is at or beyond it, which is
the `int` `minInt` for `index = maxInt`, and keeps the count otherwise, so that the count does
not decrease for an index below `maxInt`; it leaves the bytes of every other block and the
fields filename, saveOrder, compound, contentType and compressed unchanged. -/
theorem SetBlock_changes_one_block (res : MutableResource) (index : Int) (data : Bytes) :
    (index < 0 → res.SetBlock index data = some res)
      ∧ (0 ≤ index → res.blocks = none → res.SetBlock index data = none)
      ∧ (0 ≤ index → res.blocks.isSome = true →
          ∃ next, res.SetBlock index data = some next
            ∧ next.entry index = some data
            ∧ (∀ other, other ≠ index → next.entry other = res.entry other)
            ∧ (res.BlockCount ≤ index → index < maxInt → next.BlockCount = index + 1)
            ∧ (res.BlockCount ≤ index → index = maxInt → next.BlockCount = minInt)
            ∧ (index < res.BlockCount → next.BlockCount = res.BlockCount)
            ∧ (index < maxInt → res.BlockCount ≤ next.BlockCount)
            ∧ (next.filename = res.filename
              ∧ next.saveOrder = res.saveOrder
              ∧ next.compound = res.compound
              ∧ next.contentType = res.contentType
              ∧ next.compressed = res.compressed)) := by
  refine ⟨MutableResource.SetBlock_of_negative res index data,
    MutableResource.SetBlock_of_nil res index data, ?_⟩
  intro hindex hmade
  obtain ⟨next, hset⟩ := MutableResource.SetBlock_isSome res index data hmade
  obtain ⟨hself, hother, hcount, _, _⟩ :=
    MutableResource.SetBlock_some res next index data hindex hset
  obtain ⟨_, _, hmeta⟩ := MutableResource.SetBlock_frame res next index data hset
  refine ⟨next, hset, hself, hother, ?_, ?_, ?_, ?_, hmeta⟩
  · intro hbeyond hfits
    have hbeyond' : index ≥ res.blockCount := hbeyond
    show next.blockCount = index + 1
    rw [MutableResource.SetBlock_blockCount res next index data hindex hfits hset,
      if_pos hbeyond']
  · intro hbeyond hlargest
    have hbeyond' : index ≥ res.blockCount := hbeyond
    show next.blockCount = minInt
    rw [hcount, if_pos hbeyond', hlargest, wrapInt_succ_maxInt]
  · intro hbelow
    have hbelow' : ¬ index ≥ res.blockCount := not_le.mpr hbelow
    show next.blockCount = res.blockCount
    rw [hcount, if_neg hbelow']
  · intro hfits
    exact MutableResource.SetBlock_blockCount_le res next index data hfits hset

/-- Witness of C27: a negative index changes nothing, and setting block 2 of a resource with one
block keeps block 0 and makes the count 3. -/
theorem SetBlock_changes_one_block_witness :
    oneBlockResource.SetBlock (-1) [0xBB] = some oneBlockResource
      ∧ zeroValueResource.SetBlock 2 [0xBB] = none
      ∧ ∃ next, oneBlockResource.SetBlock 2 [0xBB] = some next
          ∧ next.entry 2 = some [0xBB]
          ∧ (∀ other, other ≠ 2 → next.entry other = oneBlockResource.entry other)
          ∧ (oneBlockResource.BlockCount ≤ 2 → (2 : Int) < maxInt → next.BlockCount = 2 + 1)
          ∧ (oneBlockResource.BlockCount ≤ 2 → (2 : Int) = maxInt → next.BlockCount = minInt)
          ∧ ((2 : Int) < oneBlockResource.BlockCount →
              next.BlockCount = oneBlockResource.BlockCount)
          ∧ ((2 : Int) < maxInt → oneBlockResource.BlockCount ≤ next.BlockCount)
          ∧ (next.filename = oneBlockResource.filename
            ∧ next.saveOrder = oneBlockResource.saveOrder
            ∧ next.compound = oneBlockResource.compound
            ∧ next.contentType = oneBlockResource.contentType
            ∧ next.compressed = oneBlockResource.compressed) :=
  ⟨(SetBlock_changes_one_block oneBlockResource (-1) [0xBB]).1 (by decide),
    (SetBlock_changes_one_block zeroValueResource 2 [0xBB]).2.1 (by decide) rfl,
    (SetBlock_changes_one_block oneBlockResource 2 [0xBB]).2.2 (by decide) rfl⟩

/-! ## Reading a block -/

/-- C17: `Block(index)` returns an error exactly when `index < 0` or `index >= BlockCount()`;
for every other index it returns a reader over the bytes stored for the block, which are empty
when the block was never set. -/
theorem Block_error_iff_index_invalid (res : MutableResource) (index : Int) :
    res.Block index
        = (if index < 0 ∨ index ≥ res.BlockCount then Except.error "block index wrong"
          else Except.ok (bytes.NewReader ((res.entry index).getD [])))
      ∧ ((∃ err, res.Block index = Except.error err) ↔ (index < 0 ∨ index ≥ res.BlockCount))
      ∧ ((∃ reader, res.Block index = Except.ok reader)
          ↔ (0 ≤ index ∧ index < res.BlockCount))
      ∧ (∀ reader, res.Block index = Except.ok reader →
          readAll reader = Except.ok ((res.entry index).getD []))
      ∧ (0 ≤ index ∧ index < res.BlockCount → res.entry index = none →
          res.Block index = Except.ok (bytes.NewReader [])) := by
  have hblock := MutableResource.Block_eq res index
  refine ⟨hblock, ?_, ?_, ?_, ?_⟩
  · rw [hblock]
    by_cases hinvalid : index < 0 ∨ index ≥ res.BlockCount
    · simp [hinvalid]
    · simp [hinvalid]
  · rw [hblock]
    by_cases hinvalid : index < 0 ∨ index ≥ res.BlockCount
    · rw [if_pos hinvalid]
      constructor
      · rintro ⟨_, hok⟩
        cases hok
      · intro hvalid
        omega
    · rw [if_neg hinvalid]
      constructor
      · intro _
        omega
      · intro _
        exact ⟨_, rfl⟩
  · intro reader hreader
    rw [hblock] at hreader
    by_cases hinvalid : index < 0 ∨ index ≥ res.BlockCount
    · rw [if_pos hinvalid] at hreader
      cases hreader
    · rw [if_neg hinvalid] at hreader
      cases hreader
      rfl
  · intro hvalid hnone
    rw [hblock, if_neg (by omega), hnone]
    rfl

/-- Witness of C17: block 1 of a resource with three blocks of which only blocks 0 and 2 were
set reads as empty. -/
theorem Block_error_iff_index_invalid_witness :
    threeBlockResource.Block 1 = Except.ok (bytes.NewReader []) :=
  (Block_error_iff_index_invalid threeBlockResource 1).2.2.2.2 (by decide) rfl

/-! ## Replacing all blocks -/

theorem MutableResource.SetBlock_loop (data : List Bytes) (start : Nat) (res : MutableResource)
    (hmade : res.blocks.isSome = true) (hcount : res.blockCount = (start : Int))
    (hfits : ((start + data.length : Nat) : Int) ≤ maxInt) :
    ∃ changed,
      (data.enumFrom start).foldlM (fun r entry => r.SetBlock (entry.1 : Int) entry.2) res
          = some changed
        ∧ changed.blockCount = ((start + data.length : Nat) : Int)
        ∧ (∀ (i : Nat) (block : Bytes), data[i]? = some block →
            changed.entry ((start + i : Nat) : Int) = some block)
        ∧ (∀ j : Int, (j < (start : Int) ∨ ((start + data.length : Nat) : Int) ≤ j) →
            changed.entry j = res.entry j)
        ∧ changed.blocks.isSome = true
        ∧ changed.filename = res.filename
        ∧ changed.saveOrder = res.saveOrder
        ∧ changed.compound = res.compound
        ∧ changed.contentType = res.contentType
        ∧ changed.compressed = res.compressed := by
  induction data generalizing start res with
  | nil =>
    refine ⟨res, rfl, by simpa using hcount, ?_, fun _ _ => rfl, hmade, rfl, rfl, rfl, rfl, rfl⟩
    intro i block hblock
    simp at hblock
  | cons first rest ih =>
    have hstart : (0 : Int) ≤ (start : Int) := Int.ofNat_nonneg start
    have hbelow : (start : Int) < maxInt := by
      simp only [List.length_cons] at hfits
      push_cast at hfits
      omega
    obtain ⟨next, hset⟩ := MutableResource.SetBlock_isSome res (start : Int) first hmade
    obtain ⟨hself, hother, _, hnextMade, _⟩ :=
      MutableResource.SetBlock_some res next (start : Int) first hstart hset
    obtain ⟨_, _, mname, morder, mcompound, mtype, mcompressed⟩ :=
      MutableResource.SetBlock_frame res next (start : Int) first hset
    have hnext : next.blockCount = ((start + 1 : Nat) : Int) := by
      rw [MutableResource.SetBlock_blockCount res next (start : Int) first hstart hbelow hset,
        hcount]
      simp
    have hfits' : ((start + 1 + rest.length : Nat) : Int) ≤ maxInt := by
      simp only [List.length_cons] at hfits
      push_cast at hfits ⊢
      omega
    obtain ⟨changed, hrun, hlen, hstored, hkeep, hchangedMade, hname, horder, hcompound, htype,
        hcompressed⟩ :=
      ih (start + 1) next hnextMade hnext hfits'
    refine ⟨changed, ?_, ?_, ?_, ?_, hchangedMade, hname.trans mname, horder.trans morder,
      hcompound.trans mcompound, htype.trans mtype, hcompressed.trans mcompressed⟩
    · simp only [List.enumFrom_cons, List.foldlM_cons, hset, Option.bind_eq_bind,
        Option.some_bind]
      exact hrun
    · rw [hlen]
      simp only [List.length_cons]
      congr 1
      omega
    · intro i block hblock
      cases i with
      | zero =>
        rw [hkeep ((start + 0 : Nat) : Int) (Or.inl (by push_cast; omega))]
        simp only [List.getElem?_cons_zero, Option.some.injEq] at hblock
        subst hblock
        exact hself
      | succ k =>
        simp only [List.getElem?_cons_succ] at hblock
        have hidx : ((start + (k + 1) : Nat) : Int) = ((start + 1 + k : Nat) : Int) := by
          congr 1
          omega
        rw [hidx]
        exact hstored k block hblock
    · intro j hj
      have hj' : j < ((start + 1 : Nat) : Int) ∨ ((start + 1 + rest.length : Nat) : Int) ≤ j := by
        simp only [List.length_cons] at hj
        push_cast at hj ⊢
        omega
      rw [hkeep j hj']
      apply hother
      simp only [List.length_cons] at hj
      push_cast at hj
      omega

/-- The state `SetBlocks` leaves behind. -/
theorem MutableResource.SetBlocks_state (res : MutableResource) (data : List Bytes)
    (hfits : (data.length : Int) ≤ maxInt) :
    ∃ changed, res.SetBlocks data = some changed
      ∧ changed.blockCount = (data.length : Int)
      ∧ (∀ (i : Nat) (block : Bytes), data[i]? = some block →
          changed.entry (i : Int) = some block)
      ∧ (∀ j : Int, (j < 0 ∨ (data.length : Int) ≤ j) → changed.entry j = none)
      ∧ changed.blocks.isSome = true
      ∧ (changed.filename = res.filename
        ∧ changed.saveOrder = res.saveOrder
        ∧ changed.compound = res.compound
        ∧ changed.contentType = res.contentType
        ∧ changed.compressed = res.compressed) := by
  obtain ⟨changed, hrun, hlen, hstored, hkeep, hmade, hmeta⟩ :=
    MutableResource.SetBlock_loop data 0
      { res with blockCount := 0, blocks := some fun _ => none } rfl rfl (by simpa using hfits)
  refine ⟨changed, ?_, by simpa using hlen, ?_, ?_, hmade, hmeta⟩
  · unfold MutableResource.SetBlocks List.enum
    exact hrun
  · intro i block hblock
    simpa using hstored i block hblock
  · intro j hj
    rw [hkeep j (by simpa using hj)]
    rfl

/-- `SetBlocks` returns for every list: it makes the block map before it sets a block. -/
theorem MutableResource.SetBlocks_isSome (res : MutableResource) (data : List Bytes) :
    ∃ changed, res.SetBlocks data = some changed ∧ changed.blocks.isSome = true := by
  have hloop : ∀ (entries : List (Nat × Bytes)) (start : MutableResource),
      start.blocks.isSome = true →
      ∃ changed,
        entries.foldlM (fun r entry => r.SetBlock (entry.1 : Int) entry.2) start = some changed
          ∧ changed.blocks.isSome = true := by
    intro entries
    induction entries with
    | nil => exact fun start hmade => ⟨start, rfl, hmade⟩
    | cons first rest ih =>
      intro start hmade
      obtain ⟨next, hset⟩ := MutableResource.SetBlock_isSome start (first.1 : Int) first.2 hmade
      obtain ⟨changed, hrun, hchanged⟩ :=
        ih next ((MutableResource.SetBlock_frame start next _ _ hset).2.1 hmade)
      refine ⟨changed, ?_, hchanged⟩
      simp only [List.foldlM_cons, hset, Option.bind_eq_bind, Option.some_bind]
      exact hrun
  exact hloop data.enum _ rfl

/-- C19: after `SetBlocks(data)`, for a slice `data`, which has at most `maxInt` elements, the
block count is `len(data)`, block `i` reads as `data[i]` for every `0 <= i < len(data)`, nothing
is stored at any other index, so no block of the state before survives, and the other fields are
as before; for an empty list the resource has no blocks. -/
theorem SetBlocks_replaces_all_blocks (res : MutableResource) (data : List Bytes)
    (hfits : (data.length : Int) ≤ maxInt) :
    (∃ changed, res.SetBlocks data = some changed
        ∧ changed.BlockCount = (data.length : Int)
        ∧ (∀ (i : Nat) (block : Bytes), data[i]? = some block →
            changed.Block (i : Int) = Except.ok (bytes.NewReader block))
        ∧ (∀ j : Int, (j < 0 ∨ (data.length : Int) ≤ j) → changed.entry j = none)
        ∧ (∀ j : Int, (j < 0 ∨ (data.length : Int) ≤ j) →
            changed.Block j = Except.error "block index wrong")
        ∧ (changed.filename = res.filename
          ∧ changed.saveOrder = res.saveOrder
          ∧ changed.compound = res.compound
          ∧ changed.contentType = res.contentType
          ∧ changed.compressed = res.compressed))
      ∧ ∃ emptied, res.SetBlocks [] = some emptied
          ∧ emptied.BlockCount = 0
          ∧ ∀ j : Int, emptied.entry j = none := by
  obtain ⟨changed, hrun, hcount, hstored, hnone, _, hmeta⟩ :=
    MutableResource.SetBlocks_state res data hfits
  refine ⟨⟨changed, hrun, hcount, ?_, hnone, ?_, hmeta⟩, ⟨_, rfl, rfl, fun _ => rfl⟩⟩
  · intro i block hblock
    have hi : i < data.length := by
      by_contra hge
      rw [List.getElem?_eq_none (by omega)] at hblock
      cases hblock
    rw [MutableResource.Block_of_valid _ (i : Int) (Int.ofNat_nonneg i)
      (by rw [hcount]; exact_mod_cast hi), hstored i block hblock]
    rfl
  · intro j hj
    rw [MutableResource.Block_eq changed j, if_pos]
    unfold MutableResource.BlockCount
    rw [hcount]
    omega

/-- Witness of C19: `SetBlocks` with the two blocks of the bulk retrieval test on an override
that held one other block. -/
theorem SetBlocks_replaces_all_blocks_witness :
    ∃ changed, testOverride.SetBlocks [[0xBB], [0xCC]] = some changed
      ∧ changed.BlockCount = 2
      ∧ changed.Block (1 : Nat) = Except.ok (bytes.NewReader [0xCC])
      ∧ changed.entry 2 = none
      ∧ changed.Block (-1) = Except.error "block index wrong" := by
  obtain ⟨changed, hrun, hcount, hread, hnone, herror, _⟩ :=
    (SetBlocks_replaces_all_blocks testOverride [[0xBB], [0xCC]] (by decide)).1
  exact ⟨changed, hrun, hcount, hread 1 [0xCC] rfl, hnone 2 (by decide), herror (-1) (by decide)⟩

/-! ## The invariant of the block map -/

theorem MutableResource.SetBlock_keeps_invariant (res next : MutableResource) (index : Int)
    (data : Bytes) (hfits : index < maxInt) (hset : res.SetBlock index data = some next)
    (hres : res.Consistent)
    (hlast : res.blockCount = 0 ∨ (res.entry (res.blockCount - 1)).isSome = true) :
    next.Consistent
      ∧ (next.blockCount = 0 ∨ (next.entry (next.blockCount - 1)).isSome = true) := by
  obtain ⟨hcount, hstored⟩ := hres
  by_cases hneg : index < 0
  · rw [MutableResource.SetBlock_of_negative res index data hneg] at hset
    cases hset
    exact ⟨⟨hcount, hstored⟩, hlast⟩
  · have hindex : 0 ≤ index := not_lt.mp hneg
    have hnew := MutableResource.SetBlock_blockCount res next index data hindex hfits hset
    obtain ⟨hself, hother, _, _, _⟩ := MutableResource.SetBlock_some res next index data hindex hset
    have hle := MutableResource.SetBlock_blockCount_le res next index data hfits hset
    refine ⟨⟨le_trans hcount hle, ?_⟩, ?_⟩
    · intro j hj
      by_cases hji : j = index
      · subst hji
        exact ⟨hindex, MutableResource.SetBlock_index_lt res next j data hindex hfits hset⟩
      · rw [hother j hji] at hj
        obtain ⟨hlow, hhigh⟩ := hstored j hj
        exact ⟨hlow, lt_of_lt_of_le hhigh hle⟩
    · right
      by_cases hbeyond : index ≥ res.blockCount
      · rw [hnew, if_pos hbeyond]
        have hidx : index + 1 - 1 = index := by omega
        rw [hidx, hself]
        rfl
      · rw [hnew, if_neg hbeyond]
        by_cases hji : res.blockCount - 1 = index
        · rw [hji, hself]
          rfl
        · rw [hother _ hji]
          rcases hlast with hzero | hsome
          · omega
          · exact hsome

/-- C26, refuted as stated: the resource `SetBlock(maxInt, ...)` makes of one with an empty block
map has a negative block count and stores bytes at the index `maxInt`, which is not below the
block count and which `Block` rejects. -/
theorem Built_at_largest_index_breaks_invariant :
    MutableResource.Built maxInt wrappedResource
      ∧ wrappedResource.BlockCount < 0
      ∧ (wrappedResource.entry maxInt).isSome = true
      ∧ ¬ maxInt < wrappedResource.BlockCount
      ∧ wrappedResource.Block maxInt = Except.error "block index wrong" :=
  ⟨MutableResource.Built.afterSetBlock emptyResource wrappedResource maxInt [0xBB]
      (MutableResource.Built.fresh "" 0 false ContentType.Text false) (le_refl _) rfl,
    by decide, rfl, by decide, rfl⟩

/-- C26, amended: a resource that calls of `SetBlock` with an index below `maxInt` and calls of
`SetBlocks` make of one with an empty block map has a block count that is not negative, stores
bytes only at indices in `[0, blockCount)`, which are the indices `Block` accepts, and has the
block count 0 or stores bytes at `blockCount - 1`, the largest index set since the last
`SetBlocks`. -/
theorem Built_keeps_block_invariant (res : MutableResource)
    (hbuilt : res.Built (maxInt - 1)) :
    0 ≤ res.BlockCount
      ∧ (∀ j : Int, (res.entry j).isSome = true → 0 ≤ j ∧ j < res.BlockCount)
      ∧ (res.BlockCount = 0 ∨ (res.entry (res.BlockCount - 1)).isSome = true)
      ∧ (∀ j : Int, (res.entry j).isSome = true →
          res.Block j = Except.ok (bytes.NewReader ((res.entry j).getD []))) := by
  have hinv : res.Consistent
      ∧ (res.blockCount = 0 ∨ (res.entry (res.blockCount - 1)).isSome = true) := by
    induction hbuilt with
    | fresh filename saveOrder compound contentType compressed =>
      refine ⟨⟨le_refl 0, ?_⟩, Or.inl rfl⟩
      intro j hj
      simp [MutableResource.entry] at hj
    | afterSetBlock before next index data _ hindex hset ih =>
      exact MutableResource.SetBlock_keeps_invariant before next index data (by omega) hset
        ih.1 ih.2
    | afterSetBlocks before next data _ hfits hset _ =>
      obtain ⟨changed, hrun, hcount, hstored, hnone, _, _⟩ :=
        MutableResource.SetBlocks_state before data hfits
      rw [hset] at hrun
      cases hrun
      refine ⟨⟨by rw [hcount]; exact Int.ofNat_nonneg _, ?_⟩, ?_⟩
      · intro j hj
        rw [hcount]
        by_contra hout
        have hgone := hnone j (by omega)
        rw [hgone] at hj
        simp at hj
      · rw [hcount]
        cases hdata : data.length with
        | zero => exact Or.inl rfl
        | succ n =>
          right
          have hlt : n < data.length := by omega
          have hblock := hstored n (data.get ⟨n, hlt⟩) (List.getElem?_eq_getElem hlt)
          have hidx : ((n + 1 : Nat) : Int) - 1 = (n : Int) := by push_cast; omega
          rw [hidx, hblock]
          rfl
  obtain ⟨⟨hcount, hstored⟩, hlast⟩ := hinv
  refine ⟨hcount, hstored, hlast, ?_⟩
  intro j hj
  obtain ⟨hlow, hhigh⟩ := hstored j hj
  exact MutableResource.Block_of_valid res j hlow hhigh

/-- Witness of C26: the resource made by `SetBlock(2, ...)`, `SetBlocks` of two blocks and
`SetBlock(4, ...)` of a resource with an empty block map. -/
theorem Built_keeps_block_invariant_witness :
    0 ≤ builtResource.BlockCount
      ∧ (∀ j : Int, (builtResource.entry j).isSome = true →
          0 ≤ j ∧ j < builtResource.BlockCount)
      ∧ (builtResource.BlockCount = 0
        ∨ (builtResource.entry (builtResource.BlockCount - 1)).isSome = true)
      ∧ (∀ j : Int, (builtResource.entry j).isSome = true →
          builtResource.Block j
            = Except.ok (bytes.NewReader ((builtResource.entry j).getD []))) :=
  Built_keeps_block_invariant builtResource
    (MutableResource.Built.afterSetBlock builtTwice builtResource 4 [0xCC]
      (MutableResource.Built.afterSetBlocks builtOnce builtTwice [[0xAA], [0xBB]]
        (MutableResource.Built.afterSetBlock emptyResource builtOnce 2 [0xBB]
          (MutableResource.Built.fresh "" 0 false ContentType.Text false) (by decide) rfl)
        (by decide) rfl)
      (by decide) rfl)

/-! ## The pristine mod -/

/-- C4: on a mod as `NewMod` returns it, whatever the world manifest has become since, no
override resource and no override block exists for any language, resource ID and block index. -/
theorem NewMod_has_no_overrides (world : Manifest) (lang : Language) (id : ID) (index : Int) :
    ({ Mod.NewMod with worldManifest := world } : Mod).ModifiedResource lang id = none
      ∧ ({ Mod.NewMod with worldManifest := world } : Mod).ModifiedBlock ⟨lang, id, index⟩ = []
      ∧ Mod.NewMod.ModifiedResource lang id = none
      ∧ Mod.NewMod.ModifiedBlock ⟨lang, id, index⟩ = [] :=
  ⟨rfl, rfl, rfl, rfl⟩

/-! ## The override maps of a mod -/

theorem Mod.store_localizedResources (mod : Mod) (lang l : Language) (id i : ID)
    (res : MutableResource) :
    (mod.store lang id res).localizedResources l i
      = if l = lang ∧ i = id then some res else mod.localizedResources l i :=
  rfl

theorem Mod.store_same (mod : Mod) (lang : Language) (id : ID) (res : MutableResource) :
    (mod.store lang id res).localizedResources lang id = some res := by
  simp [Mod.store]

theorem Mod.store_other (mod : Mod) (lang l : Language) (id i : ID) (res : MutableResource)
    (hne : ¬ (l = lang ∧ i = id)) :
    (mod.store lang id res).localizedResources l i = mod.localizedResources l i := by
  simp [Mod.store, hne]

theorem Mod.delete_localizedResources (mod : Mod) (lang l : Language) (id i : ID) :
    (mod.delete lang id).localizedResources l i
      = if l = lang ∧ i = id then none else mod.localizedResources l i :=
  rfl

theorem Mod.delResource_loop_localizedResources (L : LanguageSet) (lang : Language) (id : ID)
    (langs : List Language) (mod : Mod) (l : Language) (i : ID) :
    (langs.foldl (fun m worldLang => if L.Includes lang worldLang then m.delete worldLang id else m)
        mod).localizedResources l i
      = if i = id ∧ l ∈ langs ∧ L.Includes lang l = true then none
        else mod.localizedResources l i := by
  induction langs generalizing mod with
  | nil => simp
  | cons head rest ih =>
    rw [List.foldl_cons, ih]
    by_cases hinc : L.Includes lang head = true
    · rw [if_pos hinc, Mod.delete_localizedResources]
      by_cases hi : i = id
      · by_cases hl : l = head
        · subst hl; simp [hi, hinc]
        · simp [hi, hl]
      · simp [hi]
    · rw [if_neg hinc]
      by_cases hl : l = head
      · subst hl; simp [hinc]
      · simp [hl]

theorem Mod.delResource_loop_worldManifest (L : LanguageSet) (lang : Language) (id : ID)
    (langs : List Language) (mod : Mod) :
    (langs.foldl (fun m worldLang => if L.Includes lang worldLang then m.delete worldLang id else m)
        mod).worldManifest = mod.worldManifest := by
  induction langs generalizing mod with
  | nil => rfl
  | cons head rest ih =>
    rw [List.foldl_cons, ih]
    by_cases hinc : L.Includes lang head = true
    · rw [if_pos hinc]; rfl
    · rw [if_neg hinc]

/-- After `delResource(lang, id)` an override is gone exactly when it is an override of `id`
under a language with an override map that `lang` includes. -/
theorem Mod.delResource_localizedResources (L : LanguageSet) (mod : Mod) (lang l : Language)
    (id i : ID) :
    (mod.delResource L lang id).localizedResources l i
      = if i = id ∧ L.known l = true ∧ L.Includes lang l = true then none
        else mod.localizedResources l i := by
  have hloop := Mod.delResource_loop_localizedResources L lang id L.Languages mod
  unfold Mod.delResource
  by_cases hany : L.Includes lang L.LangAny = true
  · simp only [hany, if_true, Mod.delete_localizedResources, hloop, LanguageSet.known]
    by_cases hi : i = id
    · by_cases hl : l = L.LangAny
      · subst hl; simp [hi, hany]
      · simp [hi, hl]
    · simp [hi]
  · simp only [hany, LanguageSet.known]
    rw [if_neg (by simp), hloop]
    by_cases hi : i = id
    · by_cases hl : l = L.LangAny
      · subst hl; simp [hi, hany]
      · simp [hi, hl]
    · simp [hi]

theorem Mod.delResource_worldManifest (L : LanguageSet) (mod : Mod) (lang : Language) (id : ID) :
    (mod.delResource L lang id).worldManifest = mod.worldManifest := by
  unfold Mod.delResource
  by_cases hany : L.Includes lang L.LangAny = true
  · simp only [hany, if_true]
    exact Mod.delResource_loop_worldManifest L lang id L.Languages mod
  · simp only [hany]
    exact Mod.delResource_loop_worldManifest L lang id L.Languages mod

/-! ## The list Filter returns -/

theorem Mod.Filter_loop (L : LanguageSet) (mod : Mod) (lang : Language) (id : ID)
    (langs : List Language) (list : List ListEntry) :
    langs.foldl
        (fun list worldLang =>
          if L.Includes worldLang lang then
            match mod.localizedResources lang id with
            | some res => ListEntry.With list (ListEntry.modified lang res)
            | none => list
          else
            list)
        list
      = list ++ (List.replicate (langs.countP fun worldLang => L.Includes worldLang lang)
          (mod.overrideEntries lang id)).flatten := by
  induction langs generalizing list with
  | nil => simp
  | cons head rest ih =>
    rw [List.foldl_cons, ih]
    by_cases hinc : L.Includes head lang = true
    · rw [if_pos hinc]
      cases hres : mod.localizedResources lang id <;>
        simp [Mod.overrideEntries, hres, ListEntry.With, List.countP_cons, hinc,
          List.replicate_succ]
    · rw [if_neg hinc]
      simp [List.countP_cons, hinc]

/-- The list of `Filter`: the world list, then the `LangAny` override, then the override of the
language once for every entry of `Languages()` that includes the language. -/
theorem Mod.Filter_eq (L : LanguageSet) (mod : Mod) (lang : Language) (id : ID) :
    mod.Filter L lang id
      = (mod.worldManifest.Filter lang id).map ListEntry.world
        ++ mod.overrideEntries L.LangAny id
        ++ (List.replicate (L.Languages.countP fun worldLang => L.Includes worldLang lang)
            (mod.overrideEntries lang id)).flatten := by
  unfold Mod.Filter
  simp only []
  rw [Mod.Filter_loop]
  cases hres : mod.localizedResources L.LangAny id <;>
    simp [Mod.overrideEntries, hres, ListEntry.With]

theorem Mod.Filter_congr (L : LanguageSet) (mod other : Mod) (lang : Language) (id : ID)
    (hworld : other.worldManifest = mod.worldManifest)
    (hany : other.localizedResources L.LangAny id = mod.localizedResources L.LangAny id)
    (hlang : other.localizedResources lang id = mod.localizedResources lang id) :
    other.Filter L lang id = mod.Filter L lang id := by
  rw [Mod.Filter_eq, Mod.Filter_eq]
  simp only [Mod.overrideEntries, hworld, hany, hlang]

theorem Mod.mem_overrideEntries (mod : Mod) (lang : Language) (id : ID) (entry : ListEntry) :
    entry ∈ mod.overrideEntries lang id
      ↔ ∃ res, mod.localizedResources lang id = some res ∧ entry = ListEntry.modified lang res := by
  unfold Mod.overrideEntries
  cases hres : mod.localizedResources lang id <;> simp

theorem flatten_replicate_nil (n : Nat) :
    (List.replicate n ([] : List ListEntry)).flatten = [] := by
  induction n with
  | zero => rfl
  | succ n ih => rw [List.replicate_succ, List.flatten_cons, ih]; rfl

theorem flatten_replicate_singleton_succ (n : Nat) (entry : ListEntry) :
    (List.replicate (n + 1) [entry]).flatten = (List.replicate n [entry]).flatten ++ [entry] := by
  rw [List.replicate_succ', List.flatten_append]
  simp

/-- C6: for a language `first` of `Languages()` that is not `LangAny` and includes itself, and
any other language `second`: the override stored under `LangAny` is in `Filter(first, id)`, the
override stored under `first` is in `Filter(first, id)`, and no override stored under `first` is
in `Filter(second, id)`. -/
theorem Filter_language_inclusion (L : LanguageSet) (mod : Mod) (id : ID)
    (first second : Language) (hlisted : first ∈ L.Languages)
    (hself : L.Includes first first = true) (hspecific : first ≠ L.LangAny)
    (hdifferent : first ≠ second) :
    (∀ res, mod.ModifiedResource L.LangAny id = some res →
        ListEntry.modified L.LangAny res ∈ mod.Filter L first id)
      ∧ (∀ res, mod.ModifiedResource first id = some res →
        ListEntry.modified first res ∈ mod.Filter L first id)
      ∧ (∀ res, ListEntry.modified first res ∉ mod.Filter L second id) := by
  refine ⟨?_, ?_, ?_⟩
  · intro res hres
    rw [Mod.Filter_eq]
    apply List.mem_append_left
    apply List.mem_append_right
    exact (Mod.mem_overrideEntries mod L.LangAny id _).mpr ⟨res, hres, rfl⟩
  · intro res hres
    rw [Mod.Filter_eq]
    apply List.mem_append_right
    have hcount : 0 < L.Languages.countP fun worldLang => L.Includes worldLang first :=
      List.countP_pos_iff.mpr ⟨first, hlisted, hself⟩
    obtain ⟨n, hn⟩ := Nat.exists_eq_succ_of_ne_zero (Nat.pos_iff_ne_zero.mp hcount)
    rw [hn, List.replicate_succ, List.flatten_cons]
    apply List.mem_append_left
    exact (Mod.mem_overrideEntries mod first id _).mpr ⟨res, hres, rfl⟩
  · intro res hmem
    rw [Mod.Filter_eq, List.mem_append, List.mem_append] at hmem
    rcases hmem with (hworld | hany) | hlang
    · obtain ⟨w, _, hw⟩ := List.mem_map.mp hworld
      cases hw
    · obtain ⟨stored, _, heq⟩ := (Mod.mem_overrideEntries mod L.LangAny id _).mp hany
      injection heq with hlang _
      exact hspecific hlang
    · obtain ⟨entries, hentries, hentry⟩ := List.mem_flatten.mp hlang
      rw [List.eq_of_mem_replicate hentries] at hentry
      obtain ⟨stored, _, heq⟩ := (Mod.mem_overrideEntries mod second id _).mp hentry
      injection heq with hlang _
      exact hdifferent hlang

/-- Witness of C6, for the languages 1 and 2 of `resourceLanguages` and a mod that overrides
the resource under `LangAny` and under language 1. -/
theorem Filter_language_inclusion_witness :
    (∀ res, testMod.ModifiedResource resourceLanguages.LangAny 0x0800 = some res →
        ListEntry.modified resourceLanguages.LangAny res
          ∈ testMod.Filter resourceLanguages 1 0x0800)
      ∧ (∀ res, testMod.ModifiedResource 1 0x0800 = some res →
        ListEntry.modified 1 res ∈ testMod.Filter resourceLanguages 1 0x0800)
      ∧ (∀ res, ListEntry.modified 1 res ∉ testMod.Filter resourceLanguages 2 0x0800) :=
  Filter_language_inclusion resourceLanguages testMod 0x0800 1 2 (by decide) (by decide)
    (by decide) (by decide)

/-! ## The order of the list Filter returns -/

theorem modifierOf_actions (L : LanguageSet) (calls : List TransCall) (trans : ModTransaction) :
    (modifierOf L calls trans).actions
      = trans.actions ++ calls.map fun call modder => call.perform L modder := by
  induction calls generalizing trans with
  | nil => simp [modifierOf]
  | cons call rest ih =>
    have hstep : modifierOf L (call :: rest) trans = modifierOf L rest (call.queue L trans) := rfl
    rw [hstep, ih]
    cases call <;>
      simp [TransCall.queue, TransCall.perform, ModTransaction.SetResourceBlock,
        ModTransaction.SetResourceBlocks, ModTransaction.DelResource]

theorem modifierOf_modifiedIDs (L : LanguageSet) (calls : List TransCall) (trans : ModTransaction)
    (id : ID) :
    id ∈ (modifierOf L calls trans).modifiedIDs.toList
      ↔ id ∈ trans.modifiedIDs.toList ∨ ∃ call ∈ calls, call.id = id := by
  induction calls generalizing trans with
  | nil => simp [modifierOf]
  | cons call rest ih =>
    have hstep : modifierOf L (call :: rest) trans = modifierOf L rest (call.queue L trans) := rfl
    have hqueue : id ∈ (call.queue L trans).modifiedIDs.toList
        ↔ id = call.id ∨ id ∈ trans.modifiedIDs.toList := by
      cases call <;>
        simp [TransCall.queue, TransCall.id, ModTransaction.SetResourceBlock,
          ModTransaction.SetResourceBlocks, ModTransaction.DelResource, IDMarkerMap.Add,
          IDMarkerMap.toList]
    rw [hstep, ih, hqueue]
    constructor
    · rintro ((hid | hold) | ⟨other, hother, hid⟩)
      · exact Or.inr ⟨call, List.mem_cons_self _ _, hid.symm⟩
      · exact Or.inl hold
      · exact Or.inr ⟨other, List.mem_cons_of_mem _ hother, hid⟩
    · rintro (hold | ⟨other, hother, hid⟩)
      · exact Or.inl (Or.inr hold)
      · rcases List.mem_cons.mp hother with hhead | htail
        · subst hhead
          exact Or.inl (Or.inl hid.symm)
        · exact Or.inr ⟨other, htail, hid⟩

theorem applyActions_perform (L : LanguageSet) (calls : List TransCall) (mod : Mod) :
    applyActions (calls.map fun call modder => call.perform L modder) mod
      = performAll L calls mod := by
  induction calls generalizing mod with
  | nil => rfl
  | cons call rest ih =>
    simp only [List.map_cons, applyActions, performAll]
    cases hcall : call.perform L mod with
    | none => rfl
    | some next => simpa using ih next

theorem performAll_append (L : LanguageSet) (front back : List TransCall) (mod : Mod) :
    performAll L (front ++ back) mod = (performAll L front mod).bind (performAll L back) := by
  induction front generalizing mod with
  | nil => rfl
  | cons call rest ih =>
    simp only [List.cons_append, performAll]
    cases hcall : call.perform L mod with
    | none => rfl
    | some next => simpa using ih next

/-- A call of `Modify` with a modifier that makes the given calls: the mod after it is the mod
after the changes, the notifier receives the marked IDs, and the callback is called once. -/
theorem Modify_modifierOf (L : LanguageSet) (strategy : ViewStrategy) (mod changed : Mod)
    (calls : List TransCall) (hrun : performAll L calls mod = some changed) :
    mod.Modify L strategy (modifierOf L calls)
      = some
          { mod := changed
            affectedIDs := (modifierOf L calls ModTransaction.fresh).modifiedIDs.toList
            notifications :=
              [{ modifiedIDs :=
                   (modifierOf L calls ModTransaction.fresh).modifiedIDs.toList.filter fun id =>
                     effectiveContent L strategy mod id != effectiveContent L strategy changed id
                 failedIDs := [] }] } := by
  unfold Mod.Modify ModifyAndNotify
  simp only [modifierOf_actions, ModTransaction.fresh, List.nil_append]
  rw [applyActions_perform, hrun]

theorem Modify_panics (L : LanguageSet) (strategy : ViewStrategy) (mod : Mod)
    (calls : List TransCall) (hrun : performAll L calls mod = none) :
    mod.Modify L strategy (modifierOf L calls) = none := by
  unfold Mod.Modify ModifyAndNotify
  simp only [modifierOf_actions, ModTransaction.fresh, List.nil_append]
  rw [applyActions_perform, hrun]

theorem Mod.newResource_made (mod : Mod) (lang : Language) (id : ID) :
    (mod.newResource lang id).blocks.isSome = true := by
  unfold Mod.newResource
  cases mod.worldManifest.Filter lang id <;> rfl

/-- What `SetResourceBlock` with non-empty data does to the mod: the override under
`(lang, id)`, created by `newResource` if there was none, has the block set; nothing else
changes. -/
theorem Mod.SetResourceBlock_of_data (L : LanguageSet) (mod : Mod) (lang : Language) (id : ID)
    (index : Int) (data : Bytes) (hknown : L.known lang = true) (hdata : data ≠ [])
    (hmade : ∀ res, mod.localizedResources lang id = some res → res.blocks.isSome = true) :
    ∃ base next changed, mod.SetResourceBlock L lang id index data = some changed
      ∧ base.SetBlock index data = some next
      ∧ changed.worldManifest = mod.worldManifest
      ∧ (∀ l i, changed.localizedResources l i
          = if l = lang ∧ i = id then some next else mod.localizedResources l i)
      ∧ (mod.localizedResources lang id = some base
          ∨ (mod.localizedResources lang id = none ∧ base = mod.newResource lang id)) := by
  have hlen : data.length > 0 := List.length_pos.mpr hdata
  unfold Mod.SetResourceBlock Mod.ensureResource
  rw [if_pos hlen]
  cases hres : mod.localizedResources lang id with
  | some res =>
    obtain ⟨next, hset⟩ := MutableResource.SetBlock_isSome res index data (hmade res hres)
    refine ⟨res, next, mod.store lang id next, ?_, hset, rfl, ?_, Or.inl rfl⟩
    · simp only [hset, Option.map_some']
    · intro l i
      rfl
  | none =>
    obtain ⟨next, hset⟩ := MutableResource.SetBlock_isSome (mod.newResource lang id) index data
      (Mod.newResource_made mod lang id)
    dsimp only []
    rw [if_pos hknown]
    refine ⟨mod.newResource lang id, next,
      (mod.store lang id (mod.newResource lang id)).store lang id next, ?_, hset, rfl, ?_,
      Or.inr ⟨rfl, rfl⟩⟩
    · simp only [hset, Option.map_some']
    · intro l i
      by_cases hkey : l = lang ∧ i = id <;> simp [Mod.store, hkey]

theorem Mod.Modify_DelResource (L : LanguageSet) (strategy : ViewStrategy) (mod : Mod)
    (lang : Language) (id : ID) :
    mod.Modify L strategy (fun trans => trans.DelResource L lang id)
      = some
          { mod := mod.delResource L lang id
            affectedIDs := [id]
            notifications :=
              [{ modifiedIDs := [id].filter fun i =>
                   effectiveContent L strategy mod i
                     != effectiveContent L strategy (mod.delResource L lang id) i
                 failedIDs := [] }] } :=
  Modify_modifierOf L strategy mod (mod.delResource L lang id) [TransCall.DelResource lang id] rfl

theorem Mod.Modify_SetResourceBlock (L : LanguageSet) (strategy : ViewStrategy) (mod changed : Mod)
    (lang : Language) (id : ID) (index : Int) (data : Bytes)
    (hset : mod.SetResourceBlock L lang id index data = some changed) :
    mod.Modify L strategy (fun trans => trans.SetResourceBlock L lang id index data)
      = some
          { mod := changed
            affectedIDs := [id]
            notifications :=
              [{ modifiedIDs := [id].filter fun i =>
                   effectiveContent L strategy mod i != effectiveContent L strategy changed i
                 failedIDs := [] }] } :=
  Modify_modifierOf L strategy mod changed [TransCall.SetResourceBlock lang id index data]
    (by simp [performAll, TransCall.perform, hset])

/-- The list `Filter(lang, id)` returns once the override under `(lang, id)` is gone. -/
theorem Mod.Filter_after_delResource (L : LanguageSet) (mod : Mod) (lang : Language) (id : ID)
    (hknown : L.known lang = true) (hself : L.Includes lang lang = true) :
    (mod.delResource L lang id).Filter L lang id
      = (mod.worldManifest.Filter lang id).map ListEntry.world
        ++ (if L.Includes lang L.LangAny = true then [] else mod.overrideEntries L.LangAny id) := by
  have hlang : (mod.delResource L lang id).localizedResources lang id = none := by
    rw [Mod.delResource_localizedResources]
    simp [hknown, hself]
  have hany : (mod.delResource L lang id).overrideEntries L.LangAny id
      = if L.Includes lang L.LangAny = true then [] else mod.overrideEntries L.LangAny id := by
    unfold Mod.overrideEntries
    rw [Mod.delResource_localizedResources]
    by_cases hinc : L.Includes lang L.LangAny = true <;> simp [hinc, LanguageSet.known]
  rw [Mod.Filter_eq, hany, Mod.delResource_worldManifest]
  simp [Mod.overrideEntries, hlang, flatten_replicate_nil]

/-- C3, refuted as stated: in `testMod`, which overrides resource `0x0800` under `LangAny` and
under language 1, `DelResource(1, 0x0800)` does not make `Filter(1, 0x0800)` the list of the
world manifest: the `LangAny` override is still in it. -/
theorem DelResource_specific_keeps_any_override :
    ¬ ((testMod.Modify resourceLanguages testStrategy
          (fun trans => trans.DelResource resourceLanguages 1 0x0800)).map
          (fun out => out.mod.Filter resourceLanguages 1 0x0800)
        = some ((testMod.worldManifest.Filter 1 0x0800).map ListEntry.world)) := by
  intro hclaim
  have hlength := congrArg (Option.map List.length) hclaim
  revert hlength
  decide

/-- C3, amended: after `DelResource(lang, id)` for a language the mod keeps overrides for,
`Filter(lang, id)` is the list of the world manifest when `lang` includes `LangAny` or the mod
holds no `LangAny` override of `id`; otherwise it is that list followed by the `LangAny`
override, which stays in place. -/
theorem DelResource_unhides_world (L : LanguageSet) (strategy : ViewStrategy) (mod : Mod)
    (lang : Language) (id : ID) (hknown : L.known lang = true)
    (hself : L.Includes lang lang = true) :
    ∃ out, mod.Modify L strategy (fun trans => trans.DelResource L lang id) = some out
      ∧ out.mod.worldManifest = mod.worldManifest
      ∧ out.mod.ModifiedResource lang id = none
      ∧ (L.Includes lang L.LangAny = true ∨ mod.ModifiedResource L.LangAny id = none →
          out.mod.Filter L lang id = (mod.worldManifest.Filter lang id).map ListEntry.world)
      ∧ (∀ res, L.Includes lang L.LangAny = false →
          mod.ModifiedResource L.LangAny id = some res →
          out.mod.Filter L lang id
            = (mod.worldManifest.Filter lang id).map ListEntry.world
              ++ [ListEntry.modified L.LangAny res]) := by
  refine ⟨_, Mod.Modify_DelResource L strategy mod lang id, ?_, ?_, ?_, ?_⟩
  · exact Mod.delResource_worldManifest L mod lang id
  · show (mod.delResource L lang id).localizedResources lang id = none
    rw [Mod.delResource_localizedResources]
    simp [hknown, hself]
  · intro hcase
    show (mod.delResource L lang id).Filter L lang id = _
    rw [Mod.Filter_after_delResource L mod lang id hknown hself]
    rcases hcase with hinc | hnone
    · simp [hinc]
    · have hnone' : mod.localizedResources L.LangAny id = none := hnone
      simp [Mod.overrideEntries, hnone']
  · intro res hinc hres
    have hres' : mod.localizedResources L.LangAny id = some res := hres
    show (mod.delResource L lang id).Filter L lang id = _
    rw [Mod.Filter_after_delResource L mod lang id hknown hself]
    simp [hinc, Mod.overrideEntries, hres']

/-- Witness of C3 (amended), for `testMod` and language 1, which does not include `LangAny`. -/
theorem DelResource_unhides_world_witness :
    ∃ out, testMod.Modify resourceLanguages testStrategy
        (fun trans => trans.DelResource resourceLanguages 1 0x0800) = some out
      ∧ out.mod.worldManifest = testMod.worldManifest
      ∧ out.mod.ModifiedResource 1 0x0800 = none
      ∧ (resourceLanguages.Includes 1 resourceLanguages.LangAny = true
          ∨ testMod.ModifiedResource resourceLanguages.LangAny 0x0800 = none →
          out.mod.Filter resourceLanguages 1 0x0800
            = (testMod.worldManifest.Filter 1 0x0800).map ListEntry.world)
      ∧ (∀ res, resourceLanguages.Includes 1 resourceLanguages.LangAny = false →
          testMod.ModifiedResource resourceLanguages.LangAny 0x0800 = some res →
          out.mod.Filter resourceLanguages 1 0x0800
            = (testMod.worldManifest.Filter 1 0x0800).map ListEntry.world
              ++ [ListEntry.modified resourceLanguages.LangAny res]) :=
  DelResource_unhides_world resourceLanguages testStrategy testMod 1 0x0800 (by decide)
    (by decide)

theorem Mod.ModifiedBlock_eq (mod : Mod) (key : Key) :
    mod.ModifiedBlock key
      = match mod.ModifiedResource key.Lang key.ID with
        | none => []
        | some res =>
          if 0 ≤ key.Index ∧ key.Index < res.BlockCount then (res.entry key.Index).getD []
          else [] := by
  unfold ModOf.ModifiedBlock
  cases hres : mod.ModifiedResource key.Lang key.ID with
  | none => rfl
  | some res =>
    show (if key.Index ≥ res.BlockCount then []
      else
        match res.Block key.Index with
        | Except.error _ => []
        | Except.ok reader =>
          match readAll reader with
          | Except.error _ => []
          | Except.ok data => data) = _
    by_cases hhigh : key.Index ≥ res.BlockCount
    · have hinvalid : ¬ (0 ≤ key.Index ∧ key.Index < res.BlockCount) := by omega
      simp [hhigh, hinvalid]
    · rw [if_neg hhigh, MutableResource.Block_eq res key.Index]
      by_cases hlow : key.Index < 0
      · have hinvalid : ¬ (0 ≤ key.Index ∧ key.Index < res.BlockCount) := by omega
        simp [hlow, hinvalid]
      · have hvalid : 0 ≤ key.Index ∧ key.Index < res.BlockCount := by omega
        have hnot : ¬ (key.Index < 0 ∨ key.Index ≥ res.BlockCount) := by omega
        simp [hvalid, hnot, readAll, bytes.NewReader]

theorem Mod.ModifiedBlock_of_none (mod : Mod) (key : Key)
    (hnone : mod.localizedResources key.Lang key.ID = none) : mod.ModifiedBlock key = [] := by
  rw [Mod.ModifiedBlock_eq]
  simp [ModOf.ModifiedResource, hnone]

/-- After `SetResourceBlock` on `(lang, id)` and `delResource(lang, id)` the list
`Filter(lang, id)` is what it was, provided the mod held no override that `delResource` takes
away. -/
theorem Mod.Filter_restored (L : LanguageSet) (mod changed : Mod) (lang : Language) (id : ID)
    (hknown : L.known lang = true) (hself : L.Includes lang lang = true)
    (hnone : mod.localizedResources lang id = none)
    (hany : L.Includes lang L.LangAny = true → mod.localizedResources L.LangAny id = none)
    (hworld : changed.worldManifest = mod.worldManifest)
    (hlookup : ∀ l i, ¬ (l = lang ∧ i = id) →
      changed.localizedResources l i = mod.localizedResources l i) :
    (changed.delResource L lang id).localizedResources lang id = none
      ∧ (changed.delResource L lang id).Filter L lang id = mod.Filter L lang id := by
  have hlang : (changed.delResource L lang id).localizedResources lang id = none := by
    rw [Mod.delResource_localizedResources]
    simp [hknown, hself]
  have hanyEntry : (changed.delResource L lang id).localizedResources L.LangAny id
      = mod.localizedResources L.LangAny id := by
    rw [Mod.delResource_localizedResources]
    by_cases hinc : L.Includes lang L.LangAny = true
    · have hgone : mod.localizedResources L.LangAny id = none := hany hinc
      simp [hinc, LanguageSet.known, hgone]
    · have hne : L.LangAny ≠ lang := by
        intro heq
        rw [heq] at hinc
        exact hinc hself
      rw [if_neg (by simp [hinc]), hlookup _ _ (by simp [hne])]
  have hmanifest : (changed.delResource L lang id).worldManifest = mod.worldManifest := by
    rw [Mod.delResource_worldManifest, hworld]
  exact ⟨hlang, Mod.Filter_congr L mod _ lang id hmanifest hanyEntry (by rw [hlang, hnone])⟩

/-- C2: when the mod holds no override for `(lang, id)` (nor, should `lang` include `LangAny`,
for `(LangAny, id)`), setting a block of `(lang, id)` to non-empty data in one `Modify` and
calling `DelResource(lang, id)` in a second one leaves `ModifiedBlock` empty and makes
`Filter(lang, id)`, and with it the localized view, what it was before the override: the list of
the world manifest, unless a `LangAny` override was there before. -/
theorem SetResourceBlock_then_DelResource_restores (L : LanguageSet) (strategy : ViewStrategy)
    (mod : Mod) (lang : Language) (id : ID) (index : Int) (data : Bytes)
    (hknown : L.known lang = true) (hself : L.Includes lang lang = true) (hdata : data ≠ [])
    (hnone : mod.ModifiedResource lang id = none)
    (hany : L.Includes lang L.LangAny = true → mod.ModifiedResource L.LangAny id = none) :
    ∃ overridden restored,
      mod.Modify L strategy (fun trans => trans.SetResourceBlock L lang id index data)
          = some overridden
        ∧ overridden.mod.Modify L strategy (fun trans => trans.DelResource L lang id)
          = some restored
        ∧ restored.mod.ModifiedBlock ⟨lang, id, index⟩ = []
        ∧ restored.mod.Filter L lang id = mod.Filter L lang id
        ∧ (restored.mod.LocalizedResources strategy lang).Select L id
          = (mod.LocalizedResources strategy lang).Select L id
        ∧ (mod.ModifiedResource L.LangAny id = none →
            restored.mod.Filter L lang id
              = (mod.worldManifest.Filter lang id).map ListEntry.world) := by
  have hnone' : mod.localizedResources lang id = none := hnone
  obtain ⟨base, next, changed, hset, _, hworld, hlookup, _⟩ :=
    Mod.SetResourceBlock_of_data L mod lang id index data hknown hdata
      (fun res hres => by rw [hnone'] at hres; cases hres)
  obtain ⟨hlang, hfilter⟩ := Mod.Filter_restored L mod changed lang id hknown hself hnone' hany
    hworld (fun l i hkey => by rw [hlookup, if_neg hkey])
  refine ⟨_, _, Mod.Modify_SetResourceBlock L strategy mod changed lang id index data hset,
    Mod.Modify_DelResource L strategy changed lang id, ?_, hfilter, ?_, ?_⟩
  · exact Mod.ModifiedBlock_of_none (changed.delResource L lang id) ⟨lang, id, index⟩ hlang
  · show mergedView strategy id ((changed.delResource L lang id).Filter L lang id)
      = mergedView strategy id (mod.Filter L lang id)
    rw [hfilter]
  · intro hnoAny
    have hnoAny' : mod.localizedResources L.LangAny id = none := hnoAny
    show (changed.delResource L lang id).Filter L lang id = _
    rw [hfilter, Mod.Filter_eq]
    simp [Mod.overrideEntries, hnoAny', hnone', flatten_replicate_nil]

/-- Witness of C2: language 2 of `resourceLanguages` and resource `0x0800` in `testMod`, which
holds no override under language 2. -/
theorem SetResourceBlock_then_DelResource_restores_witness :
    ∃ overridden restored,
      testMod.Modify resourceLanguages testStrategy
          (fun trans => trans.SetResourceBlock resourceLanguages 2 0x0800 0 [0xBB])
          = some overridden
        ∧ overridden.mod.Modify resourceLanguages testStrategy
            (fun trans => trans.DelResource resourceLanguages 2 0x0800)
          = some restored
        ∧ restored.mod.ModifiedBlock ⟨2, 0x0800, 0⟩ = []
        ∧ restored.mod.Filter resourceLanguages 2 0x0800 = testMod.Filter resourceLanguages 2 0x0800
        ∧ (restored.mod.LocalizedResources testStrategy 2).Select resourceLanguages 0x0800
          = (testMod.LocalizedResources testStrategy 2).Select resourceLanguages 0x0800
        ∧ (testMod.ModifiedResource resourceLanguages.LangAny 0x0800 = none →
            restored.mod.Filter resourceLanguages 2 0x0800
              = (testMod.worldManifest.Filter 2 0x0800).map ListEntry.world) :=
  SetResourceBlock_then_DelResource_restores resourceLanguages testStrategy testMod 2 0x0800 0
    [0xBB] (by decide) (by decide) (by decide) rfl (fun hinc => absurd hinc (by decide))

/-! ## Mods whose overrides have a block map -/

theorem Mod.store_made (mod : Mod) (lang : Language) (id : ID) (res : MutableResource)
    (hmod : mod.Made) (hres : res.blocks.isSome = true) : (mod.store lang id res).Made := by
  intro l i stored hstored
  rw [Mod.store_localizedResources] at hstored
  by_cases hkey : l = lang ∧ i = id
  · rw [if_pos hkey] at hstored
    cases hstored
    exact hres
  · rw [if_neg hkey] at hstored
    exact hmod l i stored hstored

theorem Mod.delResource_made (L : LanguageSet) (mod : Mod) (lang : Language) (id : ID)
    (hmod : mod.Made) : (mod.delResource L lang id).Made := by
  intro l i stored hstored
  rw [Mod.delResource_localizedResources] at hstored
  by_cases hgone : i = id ∧ L.known l = true ∧ L.Includes lang l = true
  · rw [if_pos hgone] at hstored
    cases hstored
  · rw [if_neg hgone] at hstored
    exact hmod l i stored hstored

theorem Mod.ensureResource_made (L : LanguageSet) (mod ensured : Mod) (res : MutableResource)
    (lang : Language) (id : ID) (hmod : mod.Made)
    (hensure : mod.ensureResource L lang id = some (ensured, res)) :
    ensured.Made ∧ res.blocks.isSome = true := by
  unfold Mod.ensureResource at hensure
  cases hres : mod.localizedResources lang id with
  | some stored =>
    rw [hres] at hensure
    cases hensure
    exact ⟨hmod, hmod lang id _ hres⟩
  | none =>
    rw [hres] at hensure
    by_cases hknown : L.known lang = true
    · simp only [hknown, if_true] at hensure
      cases hensure
      exact ⟨Mod.store_made mod lang id _ hmod (Mod.newResource_made mod lang id),
        Mod.newResource_made mod lang id⟩
    · simp [hknown] at hensure

theorem Mod.SetResourceBlock_made (L : LanguageSet) (mod changed : Mod) (lang : Language)
    (id : ID) (index : Int) (data : Bytes) (hmod : mod.Made)
    (hset : mod.SetResourceBlock L lang id index data = some changed) : changed.Made := by
  unfold Mod.SetResourceBlock at hset
  by_cases hlen : data.length > 0
  · rw [if_pos hlen] at hset
    cases hensure : mod.ensureResource L lang id with
    | none => rw [hensure] at hset; cases hset
    | some pair =>
      obtain ⟨ensured, res⟩ := pair
      rw [hensure] at hset
      obtain ⟨hensured, hres⟩ := Mod.ensureResource_made L mod ensured res lang id hmod hensure
      obtain ⟨next, hnext, hstore⟩ := Option.map_eq_some'.mp hset
      rw [← hstore]
      exact Mod.store_made ensured lang id next hensured
        ((MutableResource.SetBlock_frame res next index data hnext).2.1 hres)
  · rw [if_neg hlen] at hset
    cases hres : mod.ModifiedResource lang id with
    | none =>
      rw [hres] at hset
      cases hset
      exact hmod
    | some res =>
      rw [hres] at hset
      obtain ⟨next, hnext, hstore⟩ := Option.map_eq_some'.mp hset
      rw [← hstore]
      exact Mod.store_made mod lang id next hmod
        ((MutableResource.SetBlock_frame res next index [] hnext).2.1 (hmod lang id res hres))

theorem Mod.SetResourceBlocks_made (L : LanguageSet) (mod changed : Mod) (lang : Language)
    (id : ID) (data : List Bytes) (hmod : mod.Made)
    (hset : mod.SetResourceBlocks L lang id data = some changed) : changed.Made := by
  unfold Mod.SetResourceBlocks at hset
  cases hensure : mod.ensureResource L lang id with
  | none => rw [hensure] at hset; cases hset
  | some pair =>
    obtain ⟨ensured, res⟩ := pair
    rw [hensure] at hset
    obtain ⟨hensured, _⟩ := Mod.ensureResource_made L mod ensured res lang id hmod hensure
    obtain ⟨next, hnext, hstore⟩ := Option.map_eq_some'.mp hset
    obtain ⟨made, hmade, hblocks⟩ := MutableResource.SetBlocks_isSome res data
    rw [hnext] at hmade
    cases hmade
    rw [← hstore]
    exact Mod.store_made ensured lang id next hensured hblocks

theorem performAll_made (L : LanguageSet) (calls : List TransCall) (mod changed : Mod)
    (hmod : mod.Made) (hrun : performAll L calls mod = some changed) : changed.Made := by
  induction calls generalizing mod with
  | nil =>
    cases hrun
    exact hmod
  | cons call rest ih =>
    simp only [performAll] at hrun
    cases hcall : call.perform L mod with
    | none => rw [hcall] at hrun; cases hrun
    | some next =>
      rw [hcall] at hrun
      refine ih next ?_ hrun
      cases call with
      | SetResourceBlock lang id index data =>
        exact Mod.SetResourceBlock_made L mod next lang id index data hmod hcall
      | SetResourceBlocks lang id data =>
        exact Mod.SetResourceBlocks_made L mod next lang id data hmod hcall
      | DelResource lang id =>
        cases hcall
        exact Mod.delResource_made L mod lang id hmod

theorem Mod.NewMod_made (world : Manifest) :
    Mod.Made { Mod.NewMod with worldManifest := world } := by
  intro l i stored hstored
  cases hstored

/-! ## Reading back what a transaction has set -/

theorem Mod.ModifiedBlock_of_holdsBlock (mod : Mod) (lang : Language) (id : ID) (index : Int)
    (data : Bytes) (hindex : 0 ≤ index) (hholds : mod.holdsBlock lang id index data) :
    mod.ModifiedBlock ⟨lang, id, index⟩ = data := by
  obtain ⟨res, hres, hblock, hcount⟩ := hholds
  rw [Mod.ModifiedBlock_eq]
  simp [ModOf.ModifiedResource, hres, MutableResource.BlockCount, hindex, hcount, hblock]

theorem Mod.SetResourceBlock_holdsBlock (L : LanguageSet) (mod : Mod) (lang : Language) (id : ID)
    (index : Int) (data : Bytes) (hknown : L.known lang = true) (hmod : mod.Made)
    (hindex : 0 ≤ index) (hfits : index < maxInt) (hdata : data ≠ []) :
    ∃ changed, mod.SetResourceBlock L lang id index data = some changed
      ∧ changed.holdsBlock lang id index data
      ∧ ∀ other stored, other ≠ index → mod.holdsBlock lang id other stored →
          changed.holdsBlock lang id other stored := by
  obtain ⟨base, next, changed, hset, hnext, _, hlookup, hbase⟩ :=
    Mod.SetResourceBlock_of_data L mod lang id index data hknown hdata (hmod lang id)
  obtain ⟨hself, hother, _, _, _⟩ := MutableResource.SetBlock_some base next index data hindex hnext
  have hchanged : changed.localizedResources lang id = some next := by
    rw [hlookup]; simp
  refine ⟨changed, hset, ?_, ?_⟩
  · exact ⟨_, hchanged, hself,
      MutableResource.SetBlock_index_lt base next index data hindex hfits hnext⟩
  · rintro other stored hne ⟨res, hres, hblock, hcount⟩
    have hsame : base = res := by
      rcases hbase with hsome | ⟨hnone, _⟩
      · rw [hres] at hsome
        exact (Option.some.inj hsome).symm
      · rw [hres] at hnone
        cases hnone
    subst hsame
    refine ⟨_, hchanged, ?_, ?_⟩
    · rw [hother other hne, hblock]
    · exact lt_of_lt_of_le hcount
        (MutableResource.SetBlock_blockCount_le base next index data hfits hnext)

theorem performAll_SetResourceBlock_list (L : LanguageSet) (lang : Language) (id : ID)
    (hknown : L.known lang = true) (blocks : List (Int × Bytes)) (mod : Mod) (hmod : mod.Made)
    (hblocks : ∀ block ∈ blocks, 0 ≤ block.1 ∧ block.1 < maxInt ∧ block.2 ≠ [])
    (hdistinct : (blocks.map Prod.fst).Nodup) :
    ∃ changed,
      performAll L (blocks.map fun block => TransCall.SetResourceBlock lang id block.1 block.2) mod
          = some changed
        ∧ (∀ block ∈ blocks, changed.holdsBlock lang id block.1 block.2)
        ∧ ∀ other stored, other ∉ blocks.map Prod.fst → mod.holdsBlock lang id other stored →
            changed.holdsBlock lang id other stored := by
  induction blocks generalizing mod with
  | nil => exact ⟨mod, rfl, by simp, fun _ _ _ hholds => hholds⟩
  | cons block rest ih =>
    obtain ⟨hhead, hrest⟩ := List.forall_mem_cons.mp hblocks
    rw [List.map_cons, List.nodup_cons] at hdistinct
    obtain ⟨next, hset, hnew, hkeep⟩ :=
      Mod.SetResourceBlock_holdsBlock L mod lang id block.1 block.2 hknown hmod hhead.1
        hhead.2.1 hhead.2.2
    obtain ⟨changed, hrun, hall, hframe⟩ :=
      ih next (Mod.SetResourceBlock_made L mod next lang id block.1 block.2 hmod hset) hrest
        hdistinct.2
    refine ⟨changed, ?_, ?_, ?_⟩
    · simp only [List.map_cons, performAll, TransCall.perform, hset, Option.bind_some]
      exact hrun
    · intro entry hentry
      rcases List.mem_cons.mp hentry with hfirst | hlater
      · subst hfirst
        exact hframe _ _ hdistinct.1 hnew
      · exact hall entry hlater
    · intro other stored hother hholds
      rw [List.map_cons, List.mem_cons, not_or] at hother
      exact hframe other stored hother.2 (hkeep other stored hother.1 hholds)

/-- C1, refuted as stated: after a `Modify` that sets block `maxInt`, the largest index there is,
of `(LangAny, 0x0800)` to `[0xBB]`, `ModifiedBlock` returns nothing for the block: the block
count of the override has become `minInt`. And on a mod whose override of `(LangAny, 0x0800)` is
the zero value of `MutableResource`, a `Modify` that sets block 0 panics. -/
theorem SetResourceBlock_at_largest_index_reads_empty :
    (∃ out,
        Mod.NewMod.Modify resourceLanguages testStrategy
            (fun trans => trans.SetResourceBlock resourceLanguages 255 0x0800 maxInt [0xBB])
            = some out
          ∧ (out.mod.ModifiedResource 255 0x0800).map MutableResource.BlockCount = some minInt
          ∧ out.mod.ModifiedBlock ⟨255, 0x0800, maxInt⟩ = []
          ∧ out.mod.ModifiedBlock ⟨255, 0x0800, maxInt⟩ ≠ [0xBB])
      ∧ ((Mod.NewMod.store 255 0x0800 zeroValueResource).Modify resourceLanguages testStrategy
          (fun trans => trans.SetResourceBlock resourceLanguages 255 0x0800 0 [0xBB])).isNone
        = true :=
  ⟨⟨_, rfl, rfl, rfl, by decide⟩, rfl⟩

/-- C1, amended: after a `Modify` on a mod whose overrides have a block map, whose transaction,
after any earlier calls, sets blocks with pairwise different indices from 0 to below `maxInt` of
`(lang, id)` to non-empty data, `ModifiedBlock(lang, id, index)` returns exactly the data set
for each of them. -/
theorem SetResourceBlock_reads_back (L : LanguageSet) (strategy : ViewStrategy)
    (mod before : Mod) (lang : Language) (id : ID) (earlier : List TransCall)
    (blocks : List (Int × Bytes)) (hknown : L.known lang = true) (hmod : mod.Made)
    (hearlier : performAll L earlier mod = some before)
    (hblocks : ∀ block ∈ blocks, 0 ≤ block.1 ∧ block.1 < maxInt ∧ block.2 ≠ [])
    (hdistinct : (blocks.map Prod.fst).Nodup) :
    ∃ out,
      mod.Modify L strategy
          (modifierOf L
            (earlier ++ blocks.map fun block => TransCall.SetResourceBlock lang id block.1 block.2))
          = some out
        ∧ ∀ block ∈ blocks, out.mod.ModifiedBlock ⟨lang, id, block.1⟩ = block.2 := by
  obtain ⟨changed, hrun, hall, _⟩ :=
    performAll_SetResourceBlock_list L lang id hknown blocks before
      (performAll_made L earlier mod before hmod hearlier) hblocks hdistinct
  refine ⟨_, Modify_modifierOf L strategy mod changed _ ?_, ?_⟩
  · rw [performAll_append, hearlier]
    exact hrun
  · intro block hblock
    exact Mod.ModifiedBlock_of_holdsBlock changed lang id block.1 block.2 (hblocks block hblock).1
      (hall block hblock)

/-- Witness of C1: the transaction of the retrieval test sets blocks 0 and 1 of resource
`0x0800` under `LangAny`; each reads back its own data. -/
theorem SetResourceBlock_reads_back_witness :
    ∃ out,
      Mod.NewMod.Modify resourceLanguages testStrategy
          (fun trans =>
            (trans.SetResourceBlock resourceLanguages 255 0x0800 0 [0xBB]).SetResourceBlock
              resourceLanguages 255 0x0800 1 [0xCC])
          = some out
        ∧ ∀ block ∈ [((0 : Int), ([0xBB] : Bytes)), (1, [0xCC])],
            out.mod.ModifiedBlock ⟨255, 0x0800, block.1⟩ = block.2 :=
  SetResourceBlock_reads_back resourceLanguages testStrategy Mod.NewMod Mod.NewMod 255 0x0800 []
    [(0, [0xBB]), (1, [0xCC])] (by decide) (Mod.NewMod_made _) rfl (by decide) (by decide)

/-! ## What a transaction leaves untouched -/

theorem Mod.SetResourceBlock_frame (L : LanguageSet) (mod changed : Mod) (lang : Language)
    (id : ID) (index : Int) (data : Bytes)
    (hset : mod.SetResourceBlock L lang id index data = some changed) :
    changed.worldManifest = mod.worldManifest
      ∧ ∀ l i, i ≠ id → changed.localizedResources l i = mod.localizedResources l i := by
  unfold Mod.SetResourceBlock Mod.ensureResource ModOf.ModifiedResource at hset
  by_cases hlen : data.length > 0
  · rw [if_pos hlen] at hset
    cases hres : mod.localizedResources lang id with
    | some res =>
      rw [hres] at hset
      obtain ⟨next, _, hstore⟩ := Option.map_eq_some'.mp hset
      rw [← hstore]
      exact ⟨rfl, fun l i hi => by simp [Mod.store, hi]⟩
    | none =>
      rw [hres] at hset
      by_cases hknown : L.known lang = true
      · simp only [hknown, if_true] at hset
        obtain ⟨next, _, hstore⟩ := Option.map_eq_some'.mp hset
        rw [← hstore]
        exact ⟨rfl, fun l i hi => by simp [Mod.store, hi]⟩
      · simp [hknown] at hset
  · rw [if_neg hlen] at hset
    cases hres : mod.localizedResources lang id with
    | some res =>
      rw [hres] at hset
      obtain ⟨next, _, hstore⟩ := Option.map_eq_some'.mp hset
      rw [← hstore]
      exact ⟨rfl, fun l i hi => by simp [Mod.store, hi]⟩
    | none =>
      rw [hres] at hset
      cases hset
      exact ⟨rfl, fun _ _ _ => rfl⟩

theorem Mod.SetResourceBlocks_frame (L : LanguageSet) (mod changed : Mod) (lang : Language)
    (id : ID) (data : List Bytes) (hset : mod.SetResourceBlocks L lang id data = some changed) :
    changed.worldManifest = mod.worldManifest
      ∧ ∀ l i, i ≠ id → changed.localizedResources l i = mod.localizedResources l i := by
  unfold Mod.SetResourceBlocks Mod.ensureResource at hset
  cases hres : mod.localizedResources lang id with
  | some res =>
    rw [hres] at hset
    obtain ⟨next, _, hstore⟩ := Option.map_eq_some'.mp hset
    rw [← hstore]
    exact ⟨rfl, fun l i hi => by simp [Mod.store, hi]⟩
  | none =>
    rw [hres] at hset
    by_cases hknown : L.known lang = true
    · simp only [hknown, if_true] at hset
      obtain ⟨next, _, hstore⟩ := Option.map_eq_some'.mp hset
      rw [← hstore]
      exact ⟨rfl, fun l i hi => by simp [Mod.store, hi]⟩
    · simp [hknown] at hset

theorem TransCall.perform_frame (L : LanguageSet) (mod changed : Mod) (call : TransCall)
    (hcall : call.perform L mod = some changed) :
    changed.worldManifest = mod.worldManifest
      ∧ ∀ l i, i ≠ call.id → changed.localizedResources l i = mod.localizedResources l i := by
  cases call with
  | SetResourceBlock lang id index data =>
    exact Mod.SetResourceBlock_frame L mod changed lang id index data hcall
  | SetResourceBlocks lang id data =>
    exact Mod.SetResourceBlocks_frame L mod changed lang id data hcall
  | DelResource lang id =>
    have hchanged : changed = mod.delResource L lang id := (Option.some.inj hcall).symm
    subst hchanged
    refine ⟨Mod.delResource_worldManifest L mod lang id, ?_⟩
    intro l i hi
    rw [Mod.delResource_localizedResources]
    have hi' : i ≠ id := hi
    simp [hi']

/-- The calls of a transaction change no override of a resource ID that none of them names. -/
theorem performAll_frame (L : LanguageSet) (calls : List TransCall) (mod changed : Mod)
    (hrun : performAll L calls mod = some changed) :
    changed.worldManifest = mod.worldManifest
      ∧ ∀ l i, (∀ call ∈ calls, call.id ≠ i) →
          changed.localizedResources l i = mod.localizedResources l i := by
  induction calls generalizing mod with
  | nil =>
    cases hrun
    exact ⟨rfl, fun _ _ _ => rfl⟩
  | cons call rest ih =>
    simp only [performAll] at hrun
    cases hcall : call.perform L mod with
    | none => rw [hcall] at hrun; cases hrun
    | some next =>
      rw [hcall] at hrun
      obtain ⟨hworld, hkeep⟩ := ih next hrun
      obtain ⟨hworld', hkeep'⟩ := TransCall.perform_frame L mod next call hcall
      refine ⟨hworld.trans hworld', ?_⟩
      intro l i hnamed
      rw [hkeep l i (fun other hother => hnamed other (List.mem_cons_of_mem _ hother)),
        hkeep' l i (fun heq => hnamed call (List.mem_cons_self _ _) heq.symm)]

theorem effectiveContent_congr (L : LanguageSet) (strategy : ViewStrategy) (mod changed : Mod)
    (id : ID) (hworld : changed.worldManifest = mod.worldManifest)
    (hsame : ∀ l, changed.localizedResources l id = mod.localizedResources l id) :
    effectiveContent L strategy changed id = effectiveContent L strategy mod id := by
  unfold effectiveContent Selector.Select Mod.LocalizedResources
  apply List.map_congr_left
  intro lang _
  simp only []
  rw [Mod.Filter_congr L mod changed lang id hworld (hsame _) (hsame _)]

/-! ## The order of the queued actions -/

theorem Mod.SetResourceBlock_of_known (L : LanguageSet) (mod : Mod) (lang : Language) (id : ID)
    (index : Int) (data : Bytes) (hknown : L.known lang = true) (hmod : mod.Made) :
    ∃ changed, mod.SetResourceBlock L lang id index data = some changed := by
  by_cases hdata : data = []
  · subst hdata
    unfold Mod.SetResourceBlock
    rw [if_neg (by simp)]
    cases hres : mod.ModifiedResource lang id with
    | some res =>
      obtain ⟨next, hnext⟩ := MutableResource.SetBlock_isSome res index [] (hmod lang id res hres)
      exact ⟨mod.store lang id next, by simp only [hnext, Option.map_some']⟩
    | none => exact ⟨_, rfl⟩
  · obtain ⟨_, _, changed, hset, _⟩ :=
      Mod.SetResourceBlock_of_data L mod lang id index data hknown hdata (hmod lang id)
    exact ⟨changed, hset⟩

/-- C10, refuted as stated: when the two calls of a transaction set block `maxInt`, the largest
index there is, of `(LangAny, 0x0800)`, `ModifiedBlock` does not return the data of the later
call afterwards but nothing. And on a mod whose override of `(LangAny, 0x0800)` is the zero value
of `MutableResource`, a `Modify` with two calls that set block 0 panics in the first. -/
theorem later_SetResourceBlock_at_largest_index_reads_empty :
    (∃ out,
        pristineTestMod.Modify resourceLanguages testStrategy
            (fun trans =>
              (trans.SetResourceBlock resourceLanguages 255 0x0800 maxInt [0xBB]).SetResourceBlock
                resourceLanguages 255 0x0800 maxInt [0xCC])
            = some out
          ∧ out.mod.ModifiedBlock ⟨255, 0x0800, maxInt⟩ = []
          ∧ out.mod.ModifiedBlock ⟨255, 0x0800, maxInt⟩ ≠ [0xCC])
      ∧ ((pristineTestMod.store 255 0x0800 zeroValueResource).Modify resourceLanguages
          testStrategy
          (fun trans =>
            (trans.SetResourceBlock resourceLanguages 255 0x0800 0 [0xBB]).SetResourceBlock
              resourceLanguages 255 0x0800 0 [0xCC])).isNone
        = true :=
  ⟨⟨_, rfl, rfl, by decide⟩, rfl⟩

/-- C10, amended: the mod a `Modify` leaves behind is the mod after the changes its calls ask
for, done one after the other in the order of the calls, each once; and when, on a mod whose
overrides have a block map, the last two calls of a transaction set the same block of
`(lang, id)`, at an index from 0 to below `maxInt`, `ModifiedBlock` returns the data of the later
call. -/
theorem Modify_applies_in_order (L : LanguageSet) (strategy : ViewStrategy) (mod : Mod)
    (calls : List TransCall) :
    (mod.Modify L strategy (modifierOf L calls)).map Outcome.mod = performAll L calls mod
      ∧ ∀ (before : Mod) (lang : Language) (id : ID) (index : Int) (first second : Bytes),
          L.known lang = true → mod.Made → 0 ≤ index → index < maxInt → second ≠ [] →
          performAll L calls mod = some before →
          ∃ out,
            mod.Modify L strategy
                (modifierOf L
                  (calls ++ [TransCall.SetResourceBlock lang id index first,
                    TransCall.SetResourceBlock lang id index second]))
                = some out
              ∧ out.mod.ModifiedBlock ⟨lang, id, index⟩ = second := by
  constructor
  · cases hrun : performAll L calls mod with
    | none => rw [Modify_panics L strategy mod calls hrun]; rfl
    | some changed => rw [Modify_modifierOf L strategy mod changed calls hrun]; rfl
  · intro before lang id index first second hknown hmod hindex hfits hsecond hbefore
    have hbeforeMade := performAll_made L calls mod before hmod hbefore
    obtain ⟨middle, hfirst⟩ :=
      Mod.SetResourceBlock_of_known L before lang id index first hknown hbeforeMade
    obtain ⟨changed, hset, hholds, _⟩ :=
      Mod.SetResourceBlock_holdsBlock L middle lang id index second hknown
        (Mod.SetResourceBlock_made L before middle lang id index first hbeforeMade hfirst)
        hindex hfits hsecond
    refine ⟨_, Modify_modifierOf L strategy mod changed _ ?_, ?_⟩
    · rw [performAll_append, hbefore]
      simp [performAll, TransCall.perform, hfirst, hset]
    · exact Mod.ModifiedBlock_of_holdsBlock changed lang id index second hindex hholds

/-- Witness of C10: block 0 of resource `0x0800` set to `[0xBB]` and then to `[0xCC]` in one
transaction reads back as `[0xCC]`. -/
theorem Modify_applies_in_order_witness :
    ∃ out,
      pristineTestMod.Modify resourceLanguages testStrategy
          (fun trans =>
            (trans.SetResourceBlock resourceLanguages 255 0x0800 0 [0xBB]).SetResourceBlock
              resourceLanguages 255 0x0800 0 [0xCC])
          = some out
        ∧ out.mod.ModifiedBlock ⟨255, 0x0800, 0⟩ = [0xCC] :=
  (Modify_applies_in_order resourceLanguages testStrategy pristineTestMod []).2 pristineTestMod
    255 0x0800 0 [0xBB] [0xCC] (by decide) (Mod.NewMod_made _) (by decide) (by decide)
    (by decide) rfl

/-! ## One notification for a transaction -/

/-- C9: a `Modify` whose actions all succeed calls the change callback exactly once, whatever
the modifier function has queued, and hands the notifier an ID list in which every marked ID
occurs exactly once; for a modifier that makes a sequence of calls, the ID named by each call
occurs in it exactly once, however many calls name it. -/
theorem Modify_notifies_once (L : LanguageSet) (strategy : ViewStrategy) (mod changed : Mod)
    (modifier : ModTransaction → ModTransaction)
    (hrun : applyActions (modifier ModTransaction.fresh).actions mod = some changed) :
    (∃ out, mod.Modify L strategy modifier = some out
        ∧ out.mod = changed
        ∧ out.notifications.length = 1
        ∧ out.affectedIDs = (modifier ModTransaction.fresh).modifiedIDs.toList
        ∧ ∀ id ∈ out.affectedIDs, out.affectedIDs.count id = 1)
      ∧ ∀ (calls : List TransCall), ∀ call ∈ calls,
          ((modifierOf L calls ModTransaction.fresh).modifiedIDs.toList).count call.id = 1 := by
  have hmodify : mod.Modify L strategy modifier
      = some
          { mod := changed
            affectedIDs := (modifier ModTransaction.fresh).modifiedIDs.toList
            notifications :=
              [{ modifiedIDs :=
                   (modifier ModTransaction.fresh).modifiedIDs.toList.filter fun id =>
                     effectiveContent L strategy mod id != effectiveContent L strategy changed id
                 failedIDs := [] }] } := by
    unfold Mod.Modify ModifyAndNotify
    simp only [hrun]
  constructor
  · refine ⟨_, hmodify, rfl, rfl, rfl, ?_⟩
    intro id hid
    exact List.count_eq_one_of_mem (modifier ModTransaction.fresh).modifiedIDs.nodup hid
  · intro calls call hcall
    apply List.count_eq_one_of_mem (modifierOf L calls ModTransaction.fresh).modifiedIDs.nodup
    exact (modifierOf_modifiedIDs L calls ModTransaction.fresh call.id).mpr
      (Or.inr ⟨call, hcall, rfl⟩)

/-- Witness of C9: two `SetResourceBlock` calls on the same resource ID in one transaction. -/
theorem Modify_notifies_once_witness :
    (∃ out,
        Mod.NewMod.Modify resourceLanguages testStrategy
            (modifierOf resourceLanguages
              [TransCall.SetResourceBlock 255 0x0800 0 [0xBB],
                TransCall.SetResourceBlock 255 0x0800 1 [0xCC]])
            = some out
          ∧ out.mod
            = ((performAll resourceLanguages
                  [TransCall.SetResourceBlock 255 0x0800 0 [0xBB],
                    TransCall.SetResourceBlock 255 0x0800 1 [0xCC]]
                  Mod.NewMod).getD Mod.NewMod)
          ∧ out.notifications.length = 1
          ∧ out.affectedIDs
            = (modifierOf resourceLanguages
                [TransCall.SetResourceBlock 255 0x0800 0 [0xBB],
                  TransCall.SetResourceBlock 255 0x0800 1 [0xCC]]
                ModTransaction.fresh).modifiedIDs.toList
          ∧ ∀ id ∈ out.affectedIDs, out.affectedIDs.count id = 1)
      ∧ ∀ (calls : List TransCall), ∀ call ∈ calls,
          ((modifierOf resourceLanguages calls ModTransaction.fresh).modifiedIDs.toList).count
            call.id = 1 :=
  Modify_notifies_once resourceLanguages testStrategy Mod.NewMod _
    (modifierOf resourceLanguages
      [TransCall.SetResourceBlock 255 0x0800 0 [0xBB],
        TransCall.SetResourceBlock 255 0x0800 1 [0xCC]])
    rfl

/-! ## Building a transaction -/

theorem BuilderCall.step_fold_mod (L : LanguageSet) (M : ModderMethods) (calls : List BuilderCall)
    (state : ModifyState) : (calls.foldl (BuilderCall.step L M) state).mod = state.mod := by
  induction calls generalizing state with
  | nil => rfl
  | cons call rest ih => rw [List.foldl_cons, ih]; rfl

theorem BuilderCall.step_fold_trans (L : LanguageSet) (M : ModderMethods)
    (calls : List BuilderCall) (state : ModifyState) :
    (calls.foldl (BuilderCall.step L M) state).trans = builderModifier L M calls state.trans := by
  induction calls generalizing state with
  | nil => rfl
  | cons call rest ih => rw [List.foldl_cons, ih]; rfl

/-- C11: while a modifier makes its calls of the six builder methods, the mod is the mod from
before `Modify`: after any number of the calls `ModifiedResource`, `ModifiedBlock` and `Filter`
return what they returned before. The calls only build the transaction, and the mod `Modify`
leaves behind is the old mod with the queued actions applied after the modifier has returned. -/
theorem builder_calls_leave_mod_unchanged (L : LanguageSet) (M : ModderMethods)
    (strategy : ViewStrategy) (mod : Mod) (calls : List BuilderCall) :
    (∀ (made : Nat) (lang : Language) (id : ID) (index : Int),
        ((calls.take made).foldl (BuilderCall.step L M) ⟨mod, ModTransaction.fresh⟩).mod
            = mod
          ∧ ((calls.take made).foldl (BuilderCall.step L M)
              ⟨mod, ModTransaction.fresh⟩).mod.ModifiedResource lang id
            = mod.ModifiedResource lang id
          ∧ ((calls.take made).foldl (BuilderCall.step L M)
              ⟨mod, ModTransaction.fresh⟩).mod.ModifiedBlock ⟨lang, id, index⟩
            = mod.ModifiedBlock ⟨lang, id, index⟩
          ∧ ((calls.take made).foldl (BuilderCall.step L M)
              ⟨mod, ModTransaction.fresh⟩).mod.Filter L lang id
            = mod.Filter L lang id)
      ∧ (calls.foldl (BuilderCall.step L M) ⟨mod, ModTransaction.fresh⟩).trans
        = builderModifier L M calls ModTransaction.fresh
      ∧ (builderModifier L M calls ModTransaction.fresh).actions.length = calls.length
      ∧ (mod.Modify L strategy (builderModifier L M calls)).map Outcome.mod
        = applyActions (builderModifier L M calls ModTransaction.fresh).actions mod := by
  refine ⟨?_, BuilderCall.step_fold_trans L M calls _, ?_, ?_⟩
  · intro made lang id index
    have hmod := BuilderCall.step_fold_mod L M (calls.take made) ⟨mod, ModTransaction.fresh⟩
    simp only [hmod, and_self]
  · have hlength : ∀ (trans : ModTransaction),
        (builderModifier L M calls trans).actions.length = trans.actions.length + calls.length := by
      induction calls with
      | nil => intro trans; rfl
      | cons call rest ih =>
        intro trans
        have hstep : builderModifier L M (call :: rest) trans
            = builderModifier L M rest (call.queue L M trans) := rfl
        rw [hstep, ih]
        cases call <;>
          simp [BuilderCall.queue, ModTransaction.SetResourceBlock,
            ModTransaction.PatchResourceBlock, ModTransaction.SetResourceBlocks,
            ModTransaction.DelResource, ModTransaction.SetTextureProperties,
            ModTransaction.SetObjectProperties] <;> omega
    simpa [ModTransaction.fresh] using hlength ModTransaction.fresh
  · cases hrun : applyActions (builderModifier L M calls ModTransaction.fresh).actions mod <;>
      simp [Mod.Modify, ModifyAndNotify, hrun]

/-- C12: each of `SetResourceBlock`, `PatchResourceBlock`, `SetResourceBlocks` and `DelResource`
puts one action, the call of the same method of the modder, behind the actions the transaction
has and marks its resource ID; `SetTextureProperties` and `SetObjectProperties` put one action
behind them and leave the marked IDs as they are. -/
theorem builder_methods_append_one_action (L : LanguageSet) (M : ModderMethods)
    (trans : ModTransaction) (lang : Language) (id : ID) (index expectedLength : Int)
    (data patch : Bytes) (blocks : List Bytes) (textureIndex : Int)
    (textureProperties : TextureProperties) (triple : ObjectTriple)
    (objectProperties : ObjectProperties) :
    ((trans.SetResourceBlock L lang id index data).actions
          = trans.actions ++ [fun modder => modder.SetResourceBlock L lang id index data]
        ∧ ∀ marked, marked ∈ (trans.SetResourceBlock L lang id index data).modifiedIDs.toList
            ↔ marked = id ∨ marked ∈ trans.modifiedIDs.toList)
      ∧ ((trans.PatchResourceBlock M lang id index expectedLength patch).actions
          = trans.actions
            ++ [fun modder => M.PatchResourceBlock modder lang id index expectedLength patch]
        ∧ ∀ marked,
            marked ∈ (trans.PatchResourceBlock M lang id index expectedLength patch).modifiedIDs.toList
              ↔ marked = id ∨ marked ∈ trans.modifiedIDs.toList)
      ∧ ((trans.SetResourceBlocks L lang id blocks).actions
          = trans.actions ++ [fun modder => modder.SetResourceBlocks L lang id blocks]
        ∧ ∀ marked, marked ∈ (trans.SetResourceBlocks L lang id blocks).modifiedIDs.toList
            ↔ marked = id ∨ marked ∈ trans.modifiedIDs.toList)
      ∧ ((trans.DelResource L lang id).actions
          = trans.actions ++ [fun modder => modder.DelResource L lang id]
        ∧ ∀ marked, marked ∈ (trans.DelResource L lang id).modifiedIDs.toList
            ↔ marked = id ∨ marked ∈ trans.modifiedIDs.toList)
      ∧ ((trans.SetTextureProperties M textureIndex textureProperties).actions
          = trans.actions
            ++ [fun modder => M.SetTextureProperties modder textureIndex textureProperties]
        ∧ (trans.SetTextureProperties M textureIndex textureProperties).modifiedIDs
          = trans.modifiedIDs)
      ∧ ((trans.SetObjectProperties M triple objectProperties).actions
          = trans.actions ++ [fun modder => M.SetObjectProperties modder triple objectProperties]
        ∧ (trans.SetObjectProperties M triple objectProperties).modifiedIDs
          = trans.modifiedIDs) := by
  have hmark : ∀ marked, marked ∈ (trans.modifiedIDs.Add id).toList
      ↔ marked = id ∨ marked ∈ trans.modifiedIDs.toList := by
    intro marked
    simp [IDMarkerMap.Add, IDMarkerMap.toList]
  exact ⟨⟨rfl, hmark⟩, ⟨rfl, hmark⟩, ⟨rfl, hmark⟩, ⟨rfl, hmark⟩, ⟨rfl, rfl⟩, ⟨rfl, rfl⟩⟩

/-! ## Deleting and creating overrides -/

/-- C13: after `delResource(lang, id)` the mod holds no override of `id` under any language with
an override map that `lang` includes, `lang` itself and `LangAny` among them when `lang` includes
them; the overrides of every other resource ID, of `id` under every language `lang` does not
include, and the world manifest are as before. -/
theorem delResource_removes_included (L : LanguageSet) (mod : Mod) (lang : Language) (id : ID) :
    (∀ l, L.Includes lang l = true → L.known l = true →
        (mod.delResource L lang id).ModifiedResource l id = none)
      ∧ (L.Includes lang lang = true → L.known lang = true →
        (mod.delResource L lang id).ModifiedResource lang id = none)
      ∧ (L.Includes lang L.LangAny = true →
        (mod.delResource L lang id).ModifiedResource L.LangAny id = none)
      ∧ (∀ l i, i ≠ id →
        (mod.delResource L lang id).ModifiedResource l i = mod.ModifiedResource l i)
      ∧ (∀ l, L.Includes lang l = false →
        (mod.delResource L lang id).ModifiedResource l id = mod.ModifiedResource l id)
      ∧ (∀ l i, L.known l = false →
        (mod.delResource L lang id).ModifiedResource l i = mod.ModifiedResource l i)
      ∧ (mod.delResource L lang id).worldManifest = mod.worldManifest := by
  have hgone : ∀ l, L.Includes lang l = true → L.known l = true →
      (mod.delResource L lang id).ModifiedResource l id = none := by
    intro l hinc hknown
    unfold ModOf.ModifiedResource
    rw [Mod.delResource_localizedResources]
    simp [hinc, hknown]
  refine ⟨hgone, hgone lang, ?_, ?_, ?_, ?_, Mod.delResource_worldManifest L mod lang id⟩
  · intro hinc
    exact hgone L.LangAny hinc (by simp [LanguageSet.known])
  · intro l i hi
    unfold ModOf.ModifiedResource
    rw [Mod.delResource_localizedResources]
    simp [hi]
  · intro l hinc
    unfold ModOf.ModifiedResource
    rw [Mod.delResource_localizedResources]
    simp [hinc]
  · intro l i hknown
    unfold ModOf.ModifiedResource
    rw [Mod.delResource_localizedResources]
    simp [hknown]

/-- Witness of C13: `delResource(LangAny, 0x0800)` on `testMod` removes the override under
language 1, which `LangAny` includes, and the one under `LangAny`. -/
theorem delResource_removes_included_witness :
    (testMod.delResource resourceLanguages 255 0x0800).ModifiedResource 1 0x0800 = none
      ∧ (testMod.delResource resourceLanguages 255 0x0800).ModifiedResource 255 0x0800 = none
      ∧ (testMod.delResource resourceLanguages 1 0x0800).ModifiedResource 255 0x0800
        = testMod.ModifiedResource 255 0x0800 :=
  ⟨(delResource_removes_included resourceLanguages testMod 255 0x0800).1 1 (by decide)
      (by decide),
    (delResource_removes_included resourceLanguages testMod 255 0x0800).2.2.1 (by decide),
    (delResource_removes_included resourceLanguages testMod 1 0x0800).2.2.2.2.1 255
      (by decide)⟩

/-- C14: the resource `newResource(lang, id)` makes has the compound flag, content type and
compressed flag of the first element of the world manifest's `Filter(lang, id)`, or
`(false, Text, false)` when that list is empty; either way it has no blocks. -/
theorem newResource_seeds_meta (mod : Mod) (lang : Language) (id : ID) :
    (∀ existing rest, mod.worldManifest.Filter lang id = existing :: rest →
        (mod.newResource lang id).compound = existing.Compound
          ∧ (mod.newResource lang id).contentType = existing.ContentType
          ∧ (mod.newResource lang id).compressed = existing.Compressed)
      ∧ (mod.worldManifest.Filter lang id = [] →
        (mod.newResource lang id).compound = false
          ∧ (mod.newResource lang id).contentType = ContentType.Text
          ∧ (mod.newResource lang id).compressed = false)
      ∧ (mod.newResource lang id).BlockCount = 0
      ∧ (∀ index, (mod.newResource lang id).entry index = none)
      ∧ (∀ index, (mod.newResource lang id).Block index = Except.error "block index wrong") := by
  have hcount : (mod.newResource lang id).blockCount = 0 := by
    unfold Mod.newResource
    cases mod.worldManifest.Filter lang id <;> rfl
  have hblocks : ∀ index, (mod.newResource lang id).entry index = none := by
    intro index
    unfold Mod.newResource
    cases mod.worldManifest.Filter lang id <;> rfl
  refine ⟨?_, ?_, hcount, hblocks, ?_⟩
  · intro existing rest hlist
    unfold Mod.newResource
    rw [hlist]
    exact ⟨rfl, rfl, rfl⟩
  · intro hlist
    unfold Mod.newResource
    rw [hlist]
    exact ⟨rfl, rfl, rfl⟩
  · intro index
    have hinvalid : (mod.newResource lang id).isBlockIndexValid index = false := by
      unfold MutableResource.isBlockIndexValid
      rw [hcount]
      by_cases hindex : index ≥ 0
      · have : ¬ index < 0 := by omega
        simp [hindex, this]
      · simp [hindex]
    simp [MutableResource.Block, hinvalid]

/-- Witness of C14: over `testWorld` the new resource for `0x0800` takes the attributes of the
world resource, and the one for `0x0801`, which the world does not have, the defaults. -/
theorem newResource_seeds_meta_witness :
    ((pristineTestMod.newResource 255 0x0800).compound = false
        ∧ (pristineTestMod.newResource 255 0x0800).contentType = ContentType.Text
        ∧ (pristineTestMod.newResource 255 0x0800).compressed = false)
      ∧ ((pristineTestMod.newResource 255 0x0801).compound = false
        ∧ (pristineTestMod.newResource 255 0x0801).contentType = ContentType.Text
        ∧ (pristineTestMod.newResource 255 0x0801).compressed = false) :=
  ⟨(newResource_seeds_meta pristineTestMod 255 0x0800).1
      { Compound := false, ContentType := ContentType.Text, Compressed := false,
        Blocks := [[0xAA]] } [] rfl,
    (newResource_seeds_meta pristineTestMod 255 0x0801).2.1 rfl⟩

theorem Mod.ensureResource_worldManifest (L : LanguageSet) (mod ensured : Mod)
    (res : MutableResource) (lang : Language) (id : ID)
    (hensure : mod.ensureResource L lang id = some (ensured, res)) :
    ensured.worldManifest = mod.worldManifest := by
  unfold Mod.ensureResource at hensure
  cases hres : mod.localizedResources lang id with
  | some stored =>
    rw [hres] at hensure
    cases hensure
    rfl
  | none =>
    rw [hres] at hensure
    by_cases hknown : L.known lang = true
    · simp only [hknown, if_true] at hensure
      cases hensure
      rfl
    · simp [hknown] at hensure

theorem Mod.ensureResource_localizedResources (L : LanguageSet) (mod ensured : Mod)
    (res : MutableResource) (lang : Language) (id : ID)
    (hensure : mod.ensureResource L lang id = some (ensured, res)) :
    ensured.localizedResources lang id = some res
      ∧ (mod.localizedResources lang id = some res
        ∨ (mod.localizedResources lang id = none ∧ res = mod.newResource lang id))
      ∧ ∀ l i, ¬ (l = lang ∧ i = id) →
          ensured.localizedResources l i = mod.localizedResources l i := by
  unfold Mod.ensureResource at hensure
  cases hres : mod.localizedResources lang id with
  | some stored =>
    rw [hres] at hensure
    cases hensure
    exact ⟨hres, Or.inl rfl, fun _ _ _ => rfl⟩
  | none =>
    rw [hres] at hensure
    by_cases hknown : L.known lang = true
    · simp only [hknown, if_true] at hensure
      cases hensure
      exact ⟨Mod.store_same mod lang id _, Or.inr ⟨rfl, rfl⟩,
        fun l i hkey => Mod.store_other mod lang l id i _ hkey⟩
    · simp [hknown] at hensure

theorem Mod.newResource_congr (mod other : Mod) (lang : Language) (id : ID)
    (hworld : other.worldManifest = mod.worldManifest) :
    other.newResource lang id = mod.newResource lang id := by
  unfold Mod.newResource
  rw [hworld]

/-- In a mod made by `ensureResource` and `delResource` every stored override is the resource
`newResource` makes for its key. -/
theorem Mod.Reachable.stored_eq_newResource (L : LanguageSet) (world : Manifest) (mod : Mod)
    (hreach : Mod.Reachable L world mod) :
    mod.worldManifest = world
      ∧ ∀ l i res, mod.localizedResources l i = some res → res = mod.newResource l i := by
  induction hreach with
  | pristine =>
    refine ⟨rfl, ?_⟩
    intro l i res hres
    cases hres
  | ensure before ensured made lang id _ hensure ih =>
    have hworld := Mod.ensureResource_worldManifest L before ensured made lang id hensure
    obtain ⟨hstored, horigin, hother⟩ :=
      Mod.ensureResource_localizedResources L before ensured made lang id hensure
    refine ⟨hworld.trans ih.1, ?_⟩
    intro l i res hres
    rw [Mod.newResource_congr before ensured l i hworld]
    by_cases hkey : l = lang ∧ i = id
    · obtain ⟨hl, hi⟩ := hkey
      subst hl
      subst hi
      rw [hstored] at hres
      cases hres
      rcases horigin with hold | ⟨_, hnew⟩
      · exact ih.2 l i made hold
      · exact hnew
    · rw [hother l i hkey] at hres
      exact ih.2 l i res hres
  | del before lang id _ ih =>
    refine ⟨(Mod.delResource_worldManifest L before lang id).trans ih.1, ?_⟩
    intro l i res hres
    rw [Mod.newResource_congr before _ l i (Mod.delResource_worldManifest L before lang id)]
    rw [Mod.delResource_localizedResources] at hres
    by_cases hgone : i = id ∧ L.known l = true ∧ L.Includes lang l = true
    · rw [if_pos hgone] at hres
      cases hres
    · rw [if_neg hgone] at hres
      exact ih.2 l i res hres

/-- C15: `ensureResource(lang, id)` returns the stored override and leaves the mod as it is when
one exists under exactly `(lang, id)`; otherwise, for a language with an override map, it stores
and returns the resource `newResource` seeds. Whatever it returned is what a second call for the
key returns, also after the world manifest has changed, and in every mod made by `ensureResource`
and `delResource` each stored override has the meta attributes `newResource` seeds for its
key. -/
theorem ensureResource_keeps_seed (L : LanguageSet) (mod : Mod) (lang : Language) (id : ID) :
    (∀ res, mod.ModifiedResource lang id = some res →
        mod.ensureResource L lang id = some (mod, res))
      ∧ (mod.ModifiedResource lang id = none → L.known lang = true →
        mod.ensureResource L lang id
          = some (mod.store lang id (mod.newResource lang id), mod.newResource lang id))
      ∧ (∀ ensured res, mod.ensureResource L lang id = some (ensured, res) →
          ensured.ModifiedResource lang id = some res
            ∧ (∀ l i, ¬ (l = lang ∧ i = id) →
                ensured.ModifiedResource l i = mod.ModifiedResource l i)
            ∧ ∀ world : Manifest,
                Mod.ensureResource L { ensured with worldManifest := world } lang id
                  = some ({ ensured with worldManifest := world }, res))
      ∧ (∀ world, Mod.Reachable L world mod → ∀ l i res, mod.ModifiedResource l i = some res →
          res.compound = (mod.newResource l i).compound
            ∧ res.contentType = (mod.newResource l i).contentType
            ∧ res.compressed = (mod.newResource l i).compressed) := by
  refine ⟨?_, ?_, ?_, ?_⟩
  · intro res hres
    have hres' : mod.localizedResources lang id = some res := hres
    simp [Mod.ensureResource, hres']
  · intro hnone hknown
    have hnone' : mod.localizedResources lang id = none := hnone
    simp [Mod.ensureResource, hnone', hknown]
  · intro ensured res hensure
    obtain ⟨hstored, _, hother⟩ :=
      Mod.ensureResource_localizedResources L mod ensured res lang id hensure
    refine ⟨hstored, hother, ?_⟩
    intro world
    simp only [Mod.ensureResource, hstored]
  · intro world hreach l i res hres
    rw [(Mod.Reachable.stored_eq_newResource L world mod hreach).2 l i res hres]
    exact ⟨rfl, rfl, rfl⟩

/-- Witness of C15: in the pristine mod of the tests `ensureResource(LangAny, 0x0800)` stores a
new resource; the mod it leaves is made by `ensureResource`, and a second call returns the same
resource. -/
theorem ensureResource_keeps_seed_witness :
    pristineTestMod.ensureResource resourceLanguages 255 0x0800
        = some (pristineTestMod.store 255 0x0800 (pristineTestMod.newResource 255 0x0800),
            pristineTestMod.newResource 255 0x0800)
      ∧ (pristineTestMod.store 255 0x0800 (pristineTestMod.newResource 255 0x0800)).ensureResource
          resourceLanguages 255 0x0800
        = some (pristineTestMod.store 255 0x0800 (pristineTestMod.newResource 255 0x0800),
            pristineTestMod.newResource 255 0x0800)
      ∧ (∀ l i res,
          (pristineTestMod.store 255 0x0800
              (pristineTestMod.newResource 255 0x0800)).ModifiedResource l i = some res →
          res.compound
              = ((pristineTestMod.store 255 0x0800
                  (pristineTestMod.newResource 255 0x0800)).newResource l i).compound
            ∧ res.contentType
              = ((pristineTestMod.store 255 0x0800
                  (pristineTestMod.newResource 255 0x0800)).newResource l i).contentType
            ∧ res.compressed
              = ((pristineTestMod.store 255 0x0800
                  (pristineTestMod.newResource 255 0x0800)).newResource l i).compressed) :=
  ⟨(ensureResource_keeps_seed resourceLanguages pristineTestMod 255 0x0800).2.1 rfl (by decide),
    (ensureResource_keeps_seed resourceLanguages
        (pristineTestMod.store 255 0x0800 (pristineTestMod.newResource 255 0x0800)) 255
        0x0800).1 (pristineTestMod.newResource 255 0x0800)
        (by simp [ModOf.ModifiedResource, Mod.store]),
    (ensureResource_keeps_seed resourceLanguages
        (pristineTestMod.store 255 0x0800 (pristineTestMod.newResource 255 0x0800)) 255
        0x0800).2.2.2 testWorld
      (Mod.Reachable.ensure pristineTestMod _ (pristineTestMod.newResource 255 0x0800) 255 0x0800
        Mod.Reachable.pristine rfl)⟩

/-! ## Reading overrides -/

/-- C16: `ModifiedResource(lang, id)` returns what is stored under exactly `(lang, id)`. It
never reads the world manifest, and an override stored under one language of a resource ID that
had no override is returned for that language only, be the language `LangAny` or a specific
one. -/
theorem ModifiedResource_exact_match (mod : Mod) (lang : Language) (id : ID) :
    mod.ModifiedResource lang id = mod.localizedResources lang id
      ∧ (∀ world : Manifest,
          ({ mod with worldManifest := world } : Mod).ModifiedResource lang id
            = mod.ModifiedResource lang id)
      ∧ (∀ world : Manifest,
          ({ Mod.NewMod with worldManifest := world } : Mod).ModifiedResource lang id = none)
      ∧ (∀ (stored : Language) (key : ID) (res : MutableResource),
          (mod.store stored key res).ModifiedResource lang id
            = if lang = stored ∧ id = key then some res else mod.ModifiedResource lang id)
      ∧ (∀ (stored : Language) (res : MutableResource),
          (∀ l, mod.ModifiedResource l id = none) →
          (mod.store stored id res).ModifiedResource lang id
            = if lang = stored then some res else none) := by
  refine ⟨rfl, fun _ => rfl, fun _ => rfl, fun _ _ _ => rfl, ?_⟩
  intro stored res hnone
  have hlang : mod.localizedResources lang id = none := hnone lang
  by_cases hstored : lang = stored <;> simp [ModOf.ModifiedResource, Mod.store, hstored, hlang]

/-- Witness of C16: an override stored only under `LangAny` (255) in the pristine mod of the
tests is returned for `LangAny` and not for language 1. -/
theorem ModifiedResource_exact_match_witness :
    (pristineTestMod.store 255 0x0800 testOverride).ModifiedResource 1 0x0800
      = if (1 : Language) = 255 then some testOverride else none :=
  (ModifiedResource_exact_match pristineTestMod 1 0x0800).2.2.2.2 255 testOverride (fun _ => rfl)

/-- C18: `ModifiedBlock` is a total function, it returns a value for every mod and key: nothing
when no override is stored under exactly `(lang, id)`, when the index is at or beyond the block
count of the override, when the override returns an error instead of a reader, as a
`MutableResource` does for a negative index, or when reading the block fails, and the bytes read
from the block otherwise. It holds for overrides of any type with the methods `BlockCount` and
`Block`; for a `MutableResource` the bytes read are the bytes stored for the block. -/
theorem ModifiedBlock_total {ρ : Type} [BlockProvider ρ] (mod : ModOf ρ) (key : Key) :
    (mod.ModifiedResource key.Lang key.ID = none → mod.ModifiedBlock key = [])
      ∧ (∀ res, mod.ModifiedResource key.Lang key.ID = some res →
          (key.Index ≥ BlockProvider.BlockCount res → mod.ModifiedBlock key = [])
            ∧ (∀ err, BlockProvider.Block res key.Index = Except.error err →
                mod.ModifiedBlock key = [])
            ∧ (∀ reader err, BlockProvider.Block res key.Index = Except.ok reader →
                readAll reader = Except.error err → mod.ModifiedBlock key = [])
            ∧ (∀ reader data, key.Index < BlockProvider.BlockCount res →
                BlockProvider.Block res key.Index = Except.ok reader →
                readAll reader = Except.ok data → mod.ModifiedBlock key = data))
      ∧ (∀ (overlay : Mod) (res : MutableResource),
          overlay.ModifiedResource key.Lang key.ID = some res →
          ((key.Index < 0 ∨ key.Index ≥ res.BlockCount) → overlay.ModifiedBlock key = [])
            ∧ (0 ≤ key.Index → key.Index < res.BlockCount →
                overlay.ModifiedBlock key = (res.entry key.Index).getD []
                  ∧ res.Block key.Index
                    = Except.ok (bytes.NewReader (overlay.ModifiedBlock key)))) := by
  refine ⟨?_, ?_, ?_⟩
  · intro hnone
    simp [ModOf.ModifiedBlock, hnone]
  · intro res hres
    refine ⟨?_, ?_, ?_, ?_⟩
    · intro hbeyond
      simp [ModOf.ModifiedBlock, hres, hbeyond]
    · intro err herr
      by_cases hbeyond : key.Index ≥ BlockProvider.BlockCount res <;>
        simp [ModOf.ModifiedBlock, hres, hbeyond, herr]
    · intro reader err hreader herr
      by_cases hbeyond : key.Index ≥ BlockProvider.BlockCount res <;>
        simp [ModOf.ModifiedBlock, hres, hbeyond, hreader, herr]
    · intro reader data hbelow hreader hdata
      simp [ModOf.ModifiedBlock, hres, not_le.mpr hbelow, hreader, hdata]
  · intro overlay res hres
    have hvalue := Mod.ModifiedBlock_eq overlay key
    rw [hres] at hvalue
    simp only [] at hvalue
    refine ⟨?_, ?_⟩
    · intro hinvalid
      rw [hvalue, if_neg (by omega)]
    · intro hlow hhigh
      rw [hvalue, if_pos ⟨hlow, hhigh⟩, MutableResource.Block_eq res key.Index,
        if_neg (by omega)]
      exact ⟨rfl, rfl⟩

/-- Witness of C18: the block of an override whose reader fails reads as nothing; in `testMod`
block 0 of the override of `0x0800` under language 1 reads as stored, and a negative index, an
index at the block count and a language without override read as nothing. -/
theorem ModifiedBlock_total_witness :
    unreadableMod.ModifiedBlock ⟨255, 0x0800, 0⟩ = []
      ∧ testMod.ModifiedBlock ⟨1, 0x0800, 0⟩ = [0xBB]
      ∧ testMod.ModifiedBlock ⟨1, 0x0800, -1⟩ = []
      ∧ testMod.ModifiedBlock ⟨1, 0x0800, 1⟩ = []
      ∧ testMod.ModifiedBlock ⟨2, 0x0800, 0⟩ = [] :=
  ⟨((ModifiedBlock_total unreadableMod ⟨255, 0x0800, 0⟩).2.1 unreadableResource rfl).2.2.1
      { ReadAll := Except.error "unexpected EOF" } "unexpected EOF" rfl rfl,
    ((ModifiedBlock_total testMod ⟨1, 0x0800, 0⟩).2.1 testOverride rfl).2.2.2
      (bytes.NewReader [0xBB]) [0xBB] (by decide) rfl rfl,
    ((ModifiedBlock_total testMod ⟨1, 0x0800, -1⟩).2.2 testMod testOverride rfl).1 (by decide),
    ((ModifiedBlock_total testMod ⟨1, 0x0800, 1⟩).2.1 testOverride rfl).1 (by decide),
    (ModifiedBlock_total testMod ⟨2, 0x0800, 0⟩).1 rfl⟩

/-! ## The merged view -/

theorem readBlock_of_valid (res : MutableResource) (index : Int) (hlow : 0 ≤ index)
    (hhigh : index < res.blockCount) : readBlock res index = (res.entry index).getD [] := by
  have hblock : BlockProvider.Block res index
      = Except.ok (bytes.NewReader ((res.entry index).getD [])) :=
    MutableResource.Block_of_valid res index hlow hhigh
  unfold readBlock
  rw [hblock]
  rfl

/-- An override shows the bytes it stores for a block below its block count. -/
theorem ListEntry.Blocks_modified_get (lang : Language) (res : MutableResource) (index : Int)
    (data : Bytes) (hlow : 0 ≤ index) (hhigh : index < res.blockCount)
    (hentry : res.entry index = some data) :
    (ListEntry.modified lang res).Blocks[index.toNat]? = some data := by
  have hnat : index.toNat < res.BlockCount.toNat := by
    unfold MutableResource.BlockCount
    omega
  have hcast : ((index.toNat : Nat) : Int) = index := Int.toNat_of_nonneg hlow
  unfold ListEntry.Blocks
  rw [List.getElem?_map, List.getElem?_range hnat]
  simp only [Option.map_some', hcast, readBlock_of_valid res index hlow hhigh, hentry,
    Option.getD_some]

theorem overlayBlocks_length (beneath front : List Bytes) :
    (overlayBlocks beneath front).length = max beneath.length front.length := by
  simp [overlayBlocks]

/-- Bytes of the resource in front are shown whatever lies beneath. -/
theorem overlayBlocks_get_front (beneath front : List Bytes) (index : Nat) (data : Bytes)
    (hfront : front[index]? = some data) (hdata : data ≠ []) :
    (overlayBlocks beneath front)[index]? = some data := by
  have hlt : index < front.length := by
    by_contra hbeyond
    rw [List.getElem?_eq_none (by omega)] at hfront
    cases hfront
  have hmax : index < max beneath.length front.length := lt_max_of_lt_right hlt
  have hget : front.getD index [] = data := by
    rw [List.getD_eq_getElem?_getD, hfront]
    rfl
  have hfilled : data.isEmpty = false := by
    cases data with
    | nil => exact absurd rfl hdata
    | cons _ _ => rfl
  unfold overlayBlocks
  rw [List.getElem?_map, List.getElem?_range hmax]
  simp only [Option.map_some', hget, hfilled, Bool.false_eq_true, if_false]

theorem mergedView_concat (strategy : ViewStrategy) (id : ID) (init : List ListEntry)
    (front : ListEntry) :
    mergedView strategy id (init ++ [front])
      = some (if strategy.IsCompoundList id = true then
          overlayBlocks
            (init.foldl (fun merged element => overlayBlocks merged element.Blocks) [])
            front.Blocks
        else front.Blocks) := by
  unfold mergedView
  rw [List.getLast?_concat]
  by_cases hlist : strategy.IsCompoundList id = true
  · simp [hlist, List.foldl_append]
  · simp [hlist]

/-- Bytes of the last element of the list are shown in the view, be the resource a compound list
or not. -/
theorem mergedView_shows_front (strategy : ViewStrategy) (id : ID) (init : List ListEntry)
    (front : ListEntry) (index : Nat) (data : Bytes) (hfront : front.Blocks[index]? = some data)
    (hdata : data ≠ []) :
    ∃ view, mergedView strategy id (init ++ [front]) = some view ∧ view[index]? = some data := by
  rw [mergedView_concat]
  by_cases hlist : strategy.IsCompoundList id = true
  · rw [if_pos hlist]
    exact ⟨_, rfl, overlayBlocks_get_front _ _ _ _ hfront hdata⟩
  · rw [if_neg hlist]
    exact ⟨_, rfl, hfront⟩

theorem overlayBlocks_fold_length_le (list : List ListEntry) (bound : Nat) (merged : List Bytes)
    (hmerged : merged.length ≤ bound) (hlist : ∀ entry ∈ list, entry.Blocks.length ≤ bound) :
    (list.foldl (fun merged element => overlayBlocks merged element.Blocks) merged).length
      ≤ bound := by
  induction list generalizing merged with
  | nil => exact hmerged
  | cons head rest ih =>
    rw [List.foldl_cons]
    apply ih
    · rw [overlayBlocks_length]
      exact max_le hmerged (hlist head (List.mem_cons_self _ _))
    · intro entry hentry
      exact hlist entry (List.mem_cons_of_mem _ hentry)

/-- A view has no more blocks than the longest element of the list has. -/
theorem mergedView_length_le (strategy : ViewStrategy) (id : ID) (list : List ListEntry)
    (bound : Nat) (view : List Bytes) (hlist : ∀ entry ∈ list, entry.Blocks.length ≤ bound)
    (hview : mergedView strategy id list = some view) : view.length ≤ bound := by
  unfold mergedView at hview
  cases hlast : list.getLast? with
  | none =>
    rw [hlast] at hview
    cases hview
  | some front =>
    rw [hlast] at hview
    simp only [] at hview
    by_cases hcompound : strategy.IsCompoundList id = true
    · rw [if_pos hcompound] at hview
      cases hview
      exact overlayBlocks_fold_length_le list bound [] (Nat.zero_le _) hlist
    · rw [if_neg hcompound] at hview
      cases hview
      exact hlist front (List.mem_of_mem_getLast? hlast)

/-- The override stored under the requested language is the last element of what `Filter`
returns, for `LangAny` and for every language of `Languages()` that includes itself. -/
theorem Mod.Filter_ends_with_override (L : LanguageSet) (mod : Mod) (lang : Language) (id : ID)
    (res : MutableResource)
    (hlang : lang = L.LangAny ∨ (lang ∈ L.Languages ∧ L.Includes lang lang = true))
    (hres : mod.localizedResources lang id = some res) :
    ∃ init, mod.Filter L lang id = init ++ [ListEntry.modified lang res] := by
  have hentries : mod.overrideEntries lang id = [ListEntry.modified lang res] := by
    simp [Mod.overrideEntries, hres]
  rw [Mod.Filter_eq, hentries]
  cases hcount : L.Languages.countP (fun worldLang => L.Includes worldLang lang) with
  | zero =>
    rcases hlang with hany | ⟨hlisted, hself⟩
    · rw [← hany, hentries]
      exact ⟨(mod.worldManifest.Filter lang id).map ListEntry.world, by simp⟩
    · exfalso
      have hpos : 0 < L.Languages.countP (fun worldLang => L.Includes worldLang lang) :=
        List.countP_pos_iff.mpr ⟨lang, hlisted, hself⟩
      omega
  | succ n =>
    rw [flatten_replicate_singleton_succ, ← List.append_assoc]
    exact ⟨_, rfl⟩

theorem LanguageSet.known_of_visible (L : LanguageSet) (lang : Language)
    (hlang : lang = L.LangAny ∨ (lang ∈ L.Languages ∧ L.Includes lang lang = true)) :
    L.known lang = true := by
  unfold LanguageSet.known
  rcases hlang with hany | ⟨hlisted, _⟩
  · simp [hany]
  · simp [hlisted]

/-- The effective content of a resource differs when its view for one language does. -/
theorem effectiveContent_ne_of_view (L : LanguageSet) (strategy : ViewStrategy)
    (mod changed : Mod) (lang : Language) (id : ID) (hknown : L.known lang = true)
    (hview : (mod.LocalizedResources strategy lang).Select L id
      ≠ (changed.LocalizedResources strategy lang).Select L id) :
    effectiveContent L strategy mod id ≠ effectiveContent L strategy changed id := by
  intro hsame
  unfold effectiveContent at hsame
  have hmem : lang ∈ L.LangAny :: L.Languages := by
    unfold LanguageSet.known at hknown
    rcases Bool.or_eq_true _ _ ▸ hknown with hlisted | hany
    · exact List.mem_cons_of_mem _ (of_decide_eq_true hlisted)
    · rw [of_decide_eq_true hany]
      exact List.mem_cons_self _ _
  exact hview (List.map_inj_left.mp hsame lang hmem)

/-- The view of the language an override is stored under shows the bytes of its blocks. -/
theorem Selector.Select_shows_override (L : LanguageSet) (strategy : ViewStrategy) (mod : Mod)
    (lang : Language) (id : ID) (res : MutableResource) (index : Int) (data : Bytes)
    (hlang : lang = L.LangAny ∨ (lang ∈ L.Languages ∧ L.Includes lang lang = true))
    (hres : mod.localizedResources lang id = some res) (hlow : 0 ≤ index)
    (hhigh : index < res.blockCount) (hentry : res.entry index = some data) (hdata : data ≠ []) :
    ∃ view, (mod.LocalizedResources strategy lang).Select L id = some view
      ∧ view[index.toNat]? = some data := by
  obtain ⟨init, hfilter⟩ := Mod.Filter_ends_with_override L mod lang id res hlang hres
  unfold Selector.Select Mod.LocalizedResources
  simp only []
  rw [hfilter]
  exact mergedView_shows_front strategy id init _ index.toNat data
    (ListEntry.Blocks_modified_get lang res index data hlow hhigh hentry) hdata

/-- A `Modify` that sets a block to bytes the view of the language did not show at that index
notifies the resource ID, and the view shows the bytes afterwards. -/
theorem Mod.Modify_SetResourceBlock_notifies (L : LanguageSet) (strategy : ViewStrategy)
    (mod : Mod) (lang : Language) (id : ID) (index : Int) (data : Bytes) (hmod : mod.Made)
    (hlang : lang = L.LangAny ∨ (lang ∈ L.Languages ∧ L.Includes lang lang = true))
    (hindex : 0 ≤ index) (hfits : index < maxInt) (hdata : data ≠ [])
    (hbefore : ∀ view, (mod.LocalizedResources strategy lang).Select L id = some view →
      view[index.toNat]? ≠ some data) :
    ∃ out, mod.Modify L strategy (fun trans => trans.SetResourceBlock L lang id index data)
          = some out
      ∧ mod.SetResourceBlock L lang id index data = some out.mod
      ∧ out.notifications = [{ modifiedIDs := [id], failedIDs := [] }]
      ∧ ∃ view, (out.mod.LocalizedResources strategy lang).Select L id = some view
          ∧ view[index.toNat]? = some data := by
  have hknown := LanguageSet.known_of_visible L lang hlang
  obtain ⟨changed, hset, ⟨res, hres, hentry, hcount⟩, _⟩ :=
    Mod.SetResourceBlock_holdsBlock L mod lang id index data hknown hmod hindex hfits hdata
  obtain ⟨view, hview, hshown⟩ :=
    Selector.Select_shows_override L strategy changed lang id res index data hlang hres hindex
      hcount hentry hdata
  have hdiffer : effectiveContent L strategy mod id ≠ effectiveContent L strategy changed id := by
    apply effectiveContent_ne_of_view L strategy mod changed lang id hknown
    intro hsame
    rw [hview] at hsame
    exact hbefore view hsame hshown
  refine ⟨_, Mod.Modify_SetResourceBlock L strategy mod changed lang id index data hset, hset, ?_,
    view, hview, hshown⟩
  simp [hdiffer]

/-- A `Modify` that deletes an override of which a block shows bytes that the view does not show
without the override notifies the resource ID. -/
theorem Mod.Modify_DelResource_notifies (L : LanguageSet) (strategy : ViewStrategy) (mod : Mod)
    (lang : Language) (id : ID) (res : MutableResource) (index : Int) (data : Bytes)
    (hknown : L.known lang = true) (hself : L.Includes lang lang = true)
    (hres : mod.localizedResources lang id = some res) (hindex : 0 ≤ index)
    (hcount : index < res.blockCount) (hentry : res.entry index = some data) (hdata : data ≠ [])
    (hbeneath : ∀ view,
      ((mod.delResource L lang id).LocalizedResources strategy lang).Select L id = some view →
      view[index.toNat]? ≠ some data) :
    mod.Modify L strategy (fun trans => trans.DelResource L lang id)
      = some
          { mod := mod.delResource L lang id
            affectedIDs := [id]
            notifications := [{ modifiedIDs := [id], failedIDs := [] }] } := by
  have hlang : lang = L.LangAny ∨ (lang ∈ L.Languages ∧ L.Includes lang lang = true) := by
    unfold LanguageSet.known at hknown
    rcases Bool.or_eq_true _ _ ▸ hknown with hlisted | hany
    · exact Or.inr ⟨of_decide_eq_true hlisted, hself⟩
    · exact Or.inl (of_decide_eq_true hany)
  obtain ⟨view, hview, hshown⟩ :=
    Selector.Select_shows_override L strategy mod lang id res index data hlang hres hindex hcount
      hentry hdata
  have hdiffer : effectiveContent L strategy mod id
      ≠ effectiveContent L strategy (mod.delResource L lang id) id := by
    apply effectiveContent_ne_of_view L strategy mod _ lang id hknown
    intro hsame
    rw [hview] at hsame
    exact hbeneath view hsame.symm hshown
  rw [Mod.Modify_DelResource]
  simp [hdiffer]

/-! ## The IDs a transaction notifies -/

/-- C8: a `Modify` whose calls all succeed calls the callback with a modified-ID list that holds
every ID once and holds exactly the IDs of the resources whose effective content the transaction
changed, and with an empty failed-ID list. A block added, a block overridden and an override
deleted are such changes and are notified, for a mod whose overrides have block maps, a language
`lang` that is `LangAny` or a language of `Languages()` that includes itself, and bytes `data`
that are not empty:
`SetResourceBlock` at an index from 0 below the largest `int`, when the view of `lang` did not
show `data` at that index, be it an index at or beyond the block count of everything `Filter`
returns or a block that showed other bytes, notifies the ID alone and the view shows `data`
afterwards; `DelResource` of an override that shows `data` in a block where the view without it
does not notifies the ID alone. -/
theorem Modify_notifies_changed (L : LanguageSet) (strategy : ViewStrategy) (mod : Mod) :
    (∀ (changed : Mod) (calls : List TransCall), performAll L calls mod = some changed →
        ∃ out modifiedIDs,
          mod.Modify L strategy (modifierOf L calls) = some out
            ∧ out.mod = changed
            ∧ out.notifications = [{ modifiedIDs := modifiedIDs, failedIDs := [] }]
            ∧ modifiedIDs.Nodup
            ∧ ∀ id, id ∈ modifiedIDs
                ↔ effectiveContent L strategy mod id ≠ effectiveContent L strategy changed id)
      ∧ (∀ (lang : Language) (id : ID) (index : Int) (data : Bytes), mod.Made →
          (lang = L.LangAny ∨ (lang ∈ L.Languages ∧ L.Includes lang lang = true)) →
          0 ≤ index → index < maxInt → data ≠ [] →
          (∀ view, (mod.LocalizedResources strategy lang).Select L id = some view →
            view[index.toNat]? ≠ some data) →
          ∃ out,
            mod.Modify L strategy (fun trans => trans.SetResourceBlock L lang id index data)
                = some out
              ∧ mod.SetResourceBlock L lang id index data = some out.mod
              ∧ out.notifications = [{ modifiedIDs := [id], failedIDs := [] }]
              ∧ ∃ view, (out.mod.LocalizedResources strategy lang).Select L id = some view
                  ∧ view[index.toNat]? = some data)
      ∧ (∀ (lang : Language) (id : ID) (index : Int) (data : Bytes), mod.Made →
          (lang = L.LangAny ∨ (lang ∈ L.Languages ∧ L.Includes lang lang = true)) →
          0 ≤ index → index < maxInt → data ≠ [] →
          (∀ entry ∈ mod.Filter L lang id, (entry.Blocks.length : Int) ≤ index) →
          ∃ out,
            mod.Modify L strategy (fun trans => trans.SetResourceBlock L lang id index data)
                = some out
              ∧ mod.SetResourceBlock L lang id index data = some out.mod
              ∧ out.notifications = [{ modifiedIDs := [id], failedIDs := [] }]
              ∧ ∃ view, (out.mod.LocalizedResources strategy lang).Select L id = some view
                  ∧ view[index.toNat]? = some data)
      ∧ (∀ (lang : Language) (id : ID) (res : MutableResource) (index : Int) (data : Bytes),
          L.known lang = true → L.Includes lang lang = true →
          mod.ModifiedResource lang id = some res →
          0 ≤ index → index < res.BlockCount → res.entry index = some data → data ≠ [] →
          (∀ view,
            ((mod.delResource L lang id).LocalizedResources strategy lang).Select L id
                = some view →
            view[index.toNat]? ≠ some data) →
          mod.Modify L strategy (fun trans => trans.DelResource L lang id)
            = some
                { mod := mod.delResource L lang id
                  affectedIDs := [id]
                  notifications := [{ modifiedIDs := [id], failedIDs := [] }] }) := by
  refine ⟨?_, ?_, ?_, ?_⟩
  · intro changed calls hrun
    refine ⟨_, _, Modify_modifierOf L strategy mod changed calls hrun, rfl, rfl, ?_, ?_⟩
    · exact (modifierOf L calls ModTransaction.fresh).modifiedIDs.nodup.filter _
    · intro id
      rw [List.mem_filter, modifierOf_modifiedIDs]
      constructor
      · rintro ⟨_, hdiffer⟩
        simpa using hdiffer
      · intro hdiffer
        refine ⟨Or.inr ?_, by simpa using hdiffer⟩
        by_contra hunnamed
        obtain ⟨hworld, hkeep⟩ := performAll_frame L calls mod changed hrun
        apply hdiffer
        refine (effectiveContent_congr L strategy mod changed id hworld ?_).symm
        intro l
        apply hkeep
        intro call hcall hid
        exact hunnamed ⟨call, hcall, hid⟩
  · intro lang id index data hmod hlang hindex hfits hdata hbefore
    exact Mod.Modify_SetResourceBlock_notifies L strategy mod lang id index data hmod hlang hindex
      hfits hdata hbefore
  · intro lang id index data hmod hlang hindex hfits hdata hbeyond
    apply Mod.Modify_SetResourceBlock_notifies L strategy mod lang id index data hmod hlang hindex
      hfits hdata
    intro view hview
    have hshort : view.length ≤ index.toNat := by
      apply mergedView_length_le strategy id (mod.Filter L lang id) index.toNat view _ hview
      intro entry hentry
      have hlength := hbeyond entry hentry
      omega
    rw [List.getElem?_eq_none hshort]
    exact fun hnone => Option.noConfusion hnone
  · intro lang id res index data hknown hself hres hindex hcount hentry hdata hbeneath
    exact Mod.Modify_DelResource_notifies L strategy mod lang id res index data hknown hself hres
      hindex hcount hentry hdata hbeneath

/-- Witness of C8, from the tests and the scenario of the spec, over the world that holds
resource `0x0800` with the block `[0xAA]`: a block added at index 2 notifies `0x0800`, block 0
set to `[0xBB]` notifies `0x0800`, and the deletion of the override that holds `[0xBB]` notifies
`0x0800`; each time the failed-ID list is empty. -/
theorem Modify_notifies_changed_witness :
    (∃ out,
        pristineTestMod.Modify resourceLanguages testStrategy
            (fun trans => trans.SetResourceBlock resourceLanguages 255 0x0800 2 [0xBB])
            = some out
          ∧ pristineTestMod.SetResourceBlock resourceLanguages 255 0x0800 2 [0xBB]
            = some out.mod
          ∧ out.notifications = [{ modifiedIDs := [0x0800], failedIDs := [] }]
          ∧ ∃ view,
              (out.mod.LocalizedResources testStrategy 255).Select resourceLanguages 0x0800
                  = some view
                ∧ view[(2 : Int).toNat]? = some [0xBB])
      ∧ (∃ out,
        pristineTestMod.Modify resourceLanguages testStrategy
            (fun trans => trans.SetResourceBlock resourceLanguages 255 0x0800 0 [0xBB])
            = some out
          ∧ pristineTestMod.SetResourceBlock resourceLanguages 255 0x0800 0 [0xBB]
            = some out.mod
          ∧ out.notifications = [{ modifiedIDs := [0x0800], failedIDs := [] }]
          ∧ ∃ view,
              (out.mod.LocalizedResources testStrategy 255).Select resourceLanguages 0x0800
                  = some view
                ∧ view[(0 : Int).toNat]? = some [0xBB])
      ∧ (pristineTestMod.store 255 0x0800 testOverride).Modify resourceLanguages testStrategy
          (fun trans => trans.DelResource resourceLanguages 255 0x0800)
        = some
            { mod := (pristineTestMod.store 255 0x0800 testOverride).delResource
                resourceLanguages 255 0x0800
              affectedIDs := [0x0800]
              notifications := [{ modifiedIDs := [0x0800], failedIDs := [] }] } :=
  ⟨(Modify_notifies_changed resourceLanguages testStrategy pristineTestMod).2.2.1 255 0x0800 2
      [0xBB] (fun _ _ _ hres => Option.noConfusion hres) (Or.inl rfl) (by decide) (by decide)
      (by decide)
      (by
        intro entry hentry
        have hlist : pristineTestMod.Filter resourceLanguages 255 0x0800
            = [ListEntry.world
                { Compound := false, ContentType := ContentType.Text, Compressed := false,
                  Blocks := [[0xAA]] }] := rfl
        rw [hlist, List.mem_singleton] at hentry
        rw [hentry]
        decide),
    (Modify_notifies_changed resourceLanguages testStrategy pristineTestMod).2.1 255 0x0800 0
      [0xBB] (fun _ _ _ hres => Option.noConfusion hres) (Or.inl rfl) (by decide) (by decide)
      (by decide)
      (by
        intro view hview
        have hbefore : (pristineTestMod.LocalizedResources testStrategy 255).Select
            resourceLanguages 0x0800 = some [[0xAA]] := rfl
        rw [hbefore] at hview
        cases hview
        decide),
    (Modify_notifies_changed resourceLanguages testStrategy
        (pristineTestMod.store 255 0x0800 testOverride)).2.2.2 255 0x0800 testOverride 0 [0xBB]
      (by decide) (by decide) rfl (by decide) (by decide) rfl (by decide)
      (by
        intro view hview
        have hbeneath : (((pristineTestMod.store 255 0x0800 testOverride).delResource
            resourceLanguages 255 0x0800).LocalizedResources testStrategy 255).Select
            resourceLanguages 0x0800 = some [[0xAA]] := rfl
        rw [hbeneath] at hview
        cases hview
        decide)⟩

/-- The scenario of the test `TestModificationsToIdenticalDataAreNotNotified`: over a world that
holds the compound list `0x004C` with the block `[0xAA]`, setting block 0 to `[0xAA]` notifies an
empty modified-ID list. -/
theorem identical_data_in_list_is_not_notified :
    (listTestMod.Modify resourceLanguages testStrategy
        (fun trans => trans.SetResourceBlock resourceLanguages 255 0x004C 0 [0xAA])).map
        Outcome.notifications
      = some [{ modifiedIDs := [], failedIDs := [] }] := by
  decide

/-! ## Restoring a text -/

/-- For a key of a list resource `Modified` wraps the block the getter returns in a list of one
element and tests the length of that list, so it returns true whatever the getter holds. -/
theorem GetTextService.Modified_of_list (ids : ResourceIDs) (service : GetTextService) (key : Key)
    (hlist : (ids.Info key.ID).1.List = true) : service.Modified ids key = true := by
  simp [GetTextService.Modified, hlist]

/-- C20, evaluated at a key of a list text resource over a mod without overrides: the function
`RestoreTextFunc` returns calls `Set` with the text of the world and never `Remove`, because
`Modified` reports the key as modified. For the key of a paged text it calls `Remove`. -/
theorem RestoreTextFunc_list_key_without_override :
    unmodifiedTextService.getText.Modified testIDs ⟨0, 0x0867, 0⟩ = true
      ∧ unmodifiedTextService.RestoreTextFunc testIDs ⟨0, 0x0867, 0⟩ []
        = [TextSetterCall.Set ⟨0, 0x0867, 0⟩ "world line"]
      ∧ unmodifiedTextService.RestoreTextFunc testIDs ⟨0, 0x003C, 0⟩ []
        = [TextSetterCall.Remove ⟨0, 0x003C, 0⟩] := by
  refine ⟨by decide, ?_, ?_⟩ <;> rfl


/-! ## The modification flag of a text -/

/-- For a key of a resource that is not a list `Modified` is true exactly when the getter
returns at least one block for the resource. -/
theorem GetTextService.Modified_of_pages (ids : ResourceIDs) (service : GetTextService)
    (key : Key) (hpages : (ids.Info key.ID).1.List = false) :
    service.Modified ids key = true
      ↔ service.getter.ModifiedBlocks key.Lang (ids.Plus key.ID key.Index) ≠ [] := by
  simp [GetTextService.Modified, hpages, List.length_pos]

/-- C25, evaluated at a key of a list text resource over a mod without overrides: the getter
returns no bytes for the block, and `Modified` is true all the same. -/
theorem Modified_list_key_without_override :
    unmodifiedTextService.getText.getter.ModifiedBlock 0 0x0867 0 = []
      ∧ (testIDs.Info 0x0867).1.List = true
      ∧ unmodifiedTextService.getText.Modified testIDs ⟨0, 0x0867, 0⟩ = true := by
  decide

/-! ## The sound key of a trap message -/

/-- C28: for a current key whose ID is `TrapMessageTexts` the view's `currentSoundKey` returns
true together with `TrapMessageSoundKeyFor` of the key, that is the language of the key, the ID
`TrapMessagesAudioStart.Plus(key.Index)` and the index 0; for any other ID it returns false. -/
theorem currentSoundKey_eq_TrapMessageSoundKeyFor (ids : ResourceIDs) (known : TrapMessageIDs)
    (key : Key) :
    (key.ID = known.TrapMessageTexts →
        texts.View.currentSoundKey ids known { model := { currentKey := key } }
            = (TrapMessageSoundKeyFor ids known key, true)
          ∧ TrapMessageSoundKeyFor ids known key
            = { Lang := key.Lang, ID := ids.Plus known.TrapMessagesAudioStart key.Index,
                Index := 0 })
      ∧ (key.ID ≠ known.TrapMessageTexts →
        (texts.View.currentSoundKey ids known { model := { currentKey := key } }).2 = false) := by
  constructor
  · intro hid
    refine ⟨?_, rfl⟩
    simp [texts.View.currentSoundKey, texts.View.hasAudio, texts.textToAudio,
      TrapMessageSoundKeyFor, hid]
  · intro hid
    simp [texts.View.currentSoundKey, texts.View.hasAudio, hid]

/-- Witness of C28: the trap message with index 3 under language 1, and a key of another
resource. -/
theorem currentSoundKey_eq_TrapMessageSoundKeyFor_witness :
    (texts.View.currentSoundKey testIDs testTrapMessageIDs
          { model := { currentKey := ⟨1, 0x0867, 3⟩ } }
        = (TrapMessageSoundKeyFor testIDs testTrapMessageIDs ⟨1, 0x0867, 3⟩, true)
      ∧ TrapMessageSoundKeyFor testIDs testTrapMessageIDs ⟨1, 0x0867, 3⟩
        = { Lang := 1, ID := testIDs.Plus testTrapMessageIDs.TrapMessagesAudioStart 3,
            Index := 0 })
      ∧ (texts.View.currentSoundKey testIDs testTrapMessageIDs
          { model := { currentKey := ⟨1, 0x0868, 3⟩ } }).2 = false :=
  ⟨(currentSoundKey_eq_TrapMessageSoundKeyFor testIDs testTrapMessageIDs ⟨1, 0x0867, 3⟩).1 rfl,
    (currentSoundKey_eq_TrapMessageSoundKeyFor testIDs testTrapMessageIDs ⟨1, 0x0868, 3⟩).2
      (by decide)⟩

/-! ## The order of timestamps -/

/-- The position of a timestamp in time, in units of 1/65536 second. -/
theorem Timestamp.IsAfter_iff (a b : Timestamp) :
    a.IsAfter b = true
      ↔ 65536 * b.Second.val + b.Fraction.val < 65536 * a.Second.val + a.Fraction.val := by
  have ha := a.Fraction.isLt
  have hb := b.Fraction.isLt
  simp only [Timestamp.IsAfter, Bool.or_eq_true, Bool.and_eq_true, decide_eq_true_eq,
    Fin.lt_def, gt_iff_lt, Fin.ext_iff]
  omega

/-- C21: `a.IsAfter(b)` holds exactly when `65536 * a.Second + a.Fraction` is greater than
`65536 * b.Second + b.Fraction`; so `IsAfter` is irreflexive and transitive, and of two different
timestamps exactly one is after the other. -/
theorem IsAfter_strict_total_order (a b c : Timestamp) :
    (a.IsAfter b = true
        ↔ 65536 * a.Second.val + a.Fraction.val > 65536 * b.Second.val + b.Fraction.val)
      ∧ a.IsAfter a = false
      ∧ (a.IsAfter b = true → b.IsAfter c = true → a.IsAfter c = true)
      ∧ (a ≠ b → (a.IsAfter b = true ∧ b.IsAfter a = false)
          ∨ (a.IsAfter b = false ∧ b.IsAfter a = true)) := by
  have hab := Timestamp.IsAfter_iff a b
  have hba := Timestamp.IsAfter_iff b a
  have hbc := Timestamp.IsAfter_iff b c
  have hac := Timestamp.IsAfter_iff a c
  have haa := Timestamp.IsAfter_iff a a
  refine ⟨hab, ?_, ?_, ?_⟩
  · cases hself : a.IsAfter a with
    | false => rfl
    | true =>
      have := haa.mp hself
      omega
  · intro h1 h2
    have := hab.mp h1
    have := hbc.mp h2
    exact hac.mpr (by omega)
  · intro hne
    have hdiff : 65536 * a.Second.val + a.Fraction.val
        ≠ 65536 * b.Second.val + b.Fraction.val := by
      intro heq
      apply hne
      have hfa := a.Fraction.isLt
      have hfb := b.Fraction.isLt
      have hs : a.Second.val = b.Second.val := by omega
      have hf : a.Fraction.val = b.Fraction.val := by omega
      cases a with
      | mk sa fa =>
        cases b with
        | mk sb fb =>
          simp only [Timestamp.mk.injEq]
          exact ⟨Fin.ext hs, Fin.ext hf⟩
    cases h1 : a.IsAfter b with
    | true =>
      left
      refine ⟨rfl, ?_⟩
      cases h2 : b.IsAfter a with
      | false => rfl
      | true =>
        have := hab.mp h1
        have := hba.mp h2
        omega
    | false =>
      right
      refine ⟨rfl, ?_⟩
      apply hba.mpr
      have hnot : ¬ (65536 * b.Second.val + b.Fraction.val
          < 65536 * a.Second.val + a.Fraction.val) := by
        intro hlt
        rw [hab.mpr hlt] at h1
        cases h1
      omega

/-- Witness of C21: three timestamps in descending order. -/
theorem IsAfter_strict_total_order_witness :
    (Timestamp.IsAfter ⟨2, 0⟩ ⟨1, 65535⟩ = true → Timestamp.IsAfter ⟨1, 65535⟩ ⟨1, 7⟩ = true →
        Timestamp.IsAfter ⟨2, 0⟩ ⟨1, 7⟩ = true)
      ∧ ((Timestamp.IsAfter ⟨2, 0⟩ ⟨1, 65535⟩ = true ∧ Timestamp.IsAfter ⟨1, 65535⟩ ⟨2, 0⟩ = false)
        ∨ (Timestamp.IsAfter ⟨2, 0⟩ ⟨1, 65535⟩ = false
          ∧ Timestamp.IsAfter ⟨1, 65535⟩ ⟨2, 0⟩ = true)) :=
  ⟨(IsAfter_strict_total_order ⟨2, 0⟩ ⟨1, 65535⟩ ⟨1, 7⟩).2.2.1,
    (IsAfter_strict_total_order ⟨2, 0⟩ ⟨1, 65535⟩ ⟨1, 7⟩).2.2.2 (by decide)⟩


/-! ## Resources read from a provider -/

theorem mutableFromProvider_loop (res : ProviderResource) (start : MutableResource)
    (hmade : start.blocks.isSome = true) (hcount : start.blockCount = 0)
    (hempty : ∀ j, start.entry j = none) (count : Nat) (hfits : (count : Int) ≤ maxInt) :
    ∃ mutable,
      (List.range count).foldlM
          (fun mutable (blockIndex : Nat) =>
            mutable.SetBlock (blockIndex : Int) (readBlock res (blockIndex : Int)))
          start = some mutable
        ∧ mutable.blockCount = (count : Int)
        ∧ (∀ j : Int, mutable.entry j
            = if 0 ≤ j ∧ j < (count : Int) then some (readBlock res j) else none)
        ∧ mutable.blocks.isSome = true
        ∧ mutable.filename = start.filename
        ∧ mutable.saveOrder = start.saveOrder
        ∧ mutable.compound = start.compound
        ∧ mutable.contentType = start.contentType
        ∧ mutable.compressed = start.compressed := by
  induction count with
  | zero =>
    refine ⟨start, rfl, by simpa using hcount, ?_, hmade, rfl, rfl, rfl, rfl, rfl⟩
    intro j
    have hout : ¬ (0 ≤ j ∧ j < ((0 : Nat) : Int)) := by
      push_cast
      omega
    rw [if_neg hout]
    exact hempty j
  | succ n ih =>
    have hn : (0 : Int) ≤ (n : Int) := Int.ofNat_nonneg n
    have hbelow : (n : Int) < maxInt := by
      push_cast at hfits
      omega
    obtain ⟨before, hrun, hlen, hblocks, hbeforeMade, hname, horder, hcompound, htype,
        hcompressed⟩ := ih (by omega)
    obtain ⟨next, hset⟩ :=
      MutableResource.SetBlock_isSome before (n : Int) (readBlock res (n : Int)) hbeforeMade
    obtain ⟨hself, hother, _, hnextMade, _⟩ :=
      MutableResource.SetBlock_some before next (n : Int) _ hn hset
    obtain ⟨_, _, mname, morder, mcompound, mtype, mcompressed⟩ :=
      MutableResource.SetBlock_frame before next (n : Int) _ hset
    refine ⟨next, ?_, ?_, ?_, hnextMade, mname.trans hname, morder.trans horder,
      mcompound.trans hcompound, mtype.trans htype, mcompressed.trans hcompressed⟩
    · rw [List.range_succ, List.foldlM_append, hrun]
      simp only [Option.bind_eq_bind, Option.some_bind, List.foldlM_cons, List.foldlM_nil, hset,
        Option.pure_def]
    · rw [MutableResource.SetBlock_blockCount before next (n : Int) _ hn hbelow hset, hlen]
      simp
    · intro j
      by_cases hj : j = (n : Int)
      · subst hj
        rw [hself, if_pos]
        constructor
        · exact hn
        · push_cast
          omega
      · rw [hother j hj, hblocks j]
        by_cases hin : 0 ≤ j ∧ j < (n : Int)
        · rw [if_pos hin, if_pos]
          constructor
          · exact hin.1
          · push_cast
            omega
        · rw [if_neg hin, if_neg]
          push_cast
          omega

/-- The resource made for one resource of the provider. -/
theorem mutableFromProvider_state (filename : String) (index : Int) (res : ProviderResource) :
    ∃ mutable, mutableFromProvider filename index res = some mutable
      ∧ mutable.filename = filename
      ∧ mutable.saveOrder = index
      ∧ mutable.compound = res.Compound
      ∧ mutable.contentType = res.ContentType
      ∧ mutable.compressed = res.Compressed
      ∧ mutable.blockCount = (res.BlockCount.toNat : Int)
      ∧ ∀ j : Int, mutable.entry j
          = if 0 ≤ j ∧ j < (res.BlockCount.toNat : Int) then some (readBlock res j) else none := by
  have hfits : (res.BlockCount.toNat : Int) ≤ maxInt := by
    have hcount := res.blockCountIsInt
    unfold maxInt at hcount ⊢
    omega
  obtain ⟨mutable, hrun, hlen, hblocks, _, hname, horder, hcompound, htype, hcompressed⟩ :=
    mutableFromProvider_loop res
      { filename := filename, saveOrder := index
        compound := res.Compound, contentType := res.ContentType, compressed := res.Compressed
        blockCount := 0, blocks := some fun _ => none }
      rfl rfl (fun _ => rfl) res.BlockCount.toNat hfits
  exact ⟨mutable, hrun, hname, horder, hcompound, htype, hcompressed, hlen, hblocks⟩

theorem MutableResourcesFromProvider_loop (filename : String) (provider : Provider)
    (ids : List ID) (start : Nat) (mutables : IdentifiedResources)
    (hresolves : ∀ id ∈ ids, ∃ res, provider.Resource id = Except.ok res) :
    ∃ result,
      (ids.enumFrom start).foldl
          (fun state entry =>
            match state with
            | none => none
            | some mutables =>
              match provider.Resource entry.2 with
              | Except.error _ => none
              | Except.ok res =>
                match mutableFromProvider filename (entry.1 : Int) res with
                | none => none
                | some mutable =>
                  some fun id => if id = entry.2 then some mutable else mutables id)
          (some mutables) = some result
        ∧ (∀ id, id ∉ ids → result id = mutables id)
        ∧ (∀ id ∈ ids, (result id).isSome = true)
        ∧ ∀ (position : Nat) (id : ID) (res : ProviderResource), ids[position]? = some id →
            (∀ later, position < later → ids[later]? ≠ some id) →
            provider.Resource id = Except.ok res →
            result id = mutableFromProvider filename ((start + position : Nat) : Int) res := by
  induction ids generalizing start mutables with
  | nil =>
    refine ⟨mutables, rfl, fun _ _ => rfl, ?_, ?_⟩
    · intro id hid
      cases hid
    · intro position id res hpos
      simp at hpos
  | cons head tail ih =>
    obtain ⟨first, hfirst⟩ := hresolves head (List.mem_cons_self _ _)
    obtain ⟨made, hmade, _⟩ := mutableFromProvider_state filename (start : Int) first
    obtain ⟨result, hrun, hframe, hsome, hlast⟩ :=
      ih (start + 1) (fun id => if id = head then some made else mutables id)
        (fun id hid => hresolves id (List.mem_cons_of_mem _ hid))
    refine ⟨result, ?_, ?_, ?_, ?_⟩
    · simp only [List.enumFrom_cons, List.foldl_cons, hfirst, hmade]
      exact hrun
    · intro id hid
      rw [List.mem_cons, not_or] at hid
      rw [hframe id hid.2, if_neg hid.1]
    · intro id hid
      by_cases htail : id ∈ tail
      · exact hsome id htail
      · rcases List.mem_cons.mp hid with hhead | hmem
        · rw [hframe id htail, if_pos hhead]
          rfl
        · exact absurd hmem htail
    · intro position id res hpos hnolater hres
      cases position with
      | zero =>
        simp only [List.getElem?_cons_zero, Option.some.injEq] at hpos
        subst hpos
        have htail : head ∉ tail := by
          intro hmem
          obtain ⟨n, hn⟩ := List.mem_iff_getElem?.mp hmem
          exact hnolater (n + 1) (Nat.succ_pos n) (by simpa using hn)
        rw [hfirst] at hres
        cases hres
        rw [hframe head htail, if_pos rfl]
        exact hmade.symm
      | succ k =>
        simp only [List.getElem?_cons_succ] at hpos
        have hnolater' : ∀ later, k < later → tail[later]? ≠ some id := by
          intro later hlater
          have := hnolater (later + 1) (by omega)
          simpa using this
        rw [hlast k id res hpos hnolater' hres]
        have hidx : ((start + 1 + k : Nat) : Int) = ((start + (k + 1) : Nat) : Int) := by
          congr 1
          omega
        rw [hidx]

/-- C23: for a provider that returns a resource for every ID it lists,
`MutableResourcesFromProvider` returns a map with an entry for exactly the listed IDs. The entry
of an ID has the given filename, as saveOrder the position of the ID in the list (the last one,
should the ID be listed twice), the compound flag, content type and compressed flag of the
provider's resource, its block count, and as block `i` the bytes read from the provider's block
`i`, nothing when that block cannot be obtained or read. -/
theorem MutableResourcesFromProvider_retrieves_all (filename : String) (provider : Provider)
    (hresolves : ∀ id ∈ provider.IDs, ∃ res, provider.Resource id = Except.ok res) :
    ∃ mutables,
      MutableResourcesFromProvider filename provider = some mutables
        ∧ (∀ id, (mutables id).isSome = true ↔ id ∈ provider.IDs)
        ∧ (∀ (position : Nat) (id : ID) (res : ProviderResource),
            provider.IDs[position]? = some id →
            (∀ later, position < later → provider.IDs[later]? ≠ some id) →
            provider.Resource id = Except.ok res →
            ∃ mutable, mutables id = some mutable
              ∧ mutable.filename = filename
              ∧ mutable.saveOrder = (position : Int)
              ∧ mutable.compound = res.Compound
              ∧ mutable.contentType = res.ContentType
              ∧ mutable.compressed = res.Compressed
              ∧ (0 ≤ res.BlockCount → mutable.BlockCount = res.BlockCount)
              ∧ (∀ index : Int, 0 ≤ index → index < res.BlockCount →
                  mutable.Block index = Except.ok (bytes.NewReader (readBlock res index)))
              ∧ (∀ index : Int, 0 ≤ index → index < res.BlockCount →
                  (∀ reader data, res.Block index = Except.ok reader →
                      readAll reader = Except.ok data →
                      mutable.Block index = Except.ok (bytes.NewReader data))
                    ∧ ((∃ err, res.Block index = Except.error err) →
                      mutable.Block index = Except.ok (bytes.NewReader []))
                    ∧ (∀ reader err, res.Block index = Except.ok reader →
                      readAll reader = Except.error err →
                      mutable.Block index = Except.ok (bytes.NewReader [])))) := by
  obtain ⟨result, hrun, hframe, hsome, hlast⟩ :=
    MutableResourcesFromProvider_loop filename provider provider.IDs 0 (fun _ => none) hresolves
  refine ⟨result, ?_, ?_, ?_⟩
  · unfold MutableResourcesFromProvider List.enum
    exact hrun
  · intro id
    constructor
    · intro hid
      by_contra hout
      rw [hframe id hout] at hid
      cases hid
    · exact hsome id
  · intro position id res hpos hnolater hres
    obtain ⟨mutable, hmutable, hname, horder, hcompound, htype, hcompressed, hcount, hblocks⟩ :=
      mutableFromProvider_state filename ((0 + position : Nat) : Int) res
    have hread : ∀ index : Int, 0 ≤ index → index < res.BlockCount →
        mutable.Block index = Except.ok (bytes.NewReader (readBlock res index)) := by
      intro index hlow hhigh
      have hin : 0 ≤ index ∧ index < (res.BlockCount.toNat : Int) := by
        constructor
        · exact hlow
        · rw [Int.toNat_of_nonneg (by omega)]
          exact hhigh
      rw [MutableResource.Block_of_valid _ index hlow (by rw [hcount]; exact hin.2),
        hblocks index, if_pos hin]
      rfl
    have hblock : ∀ index, BlockProvider.Block res index = res.Block index := fun _ => rfl
    refine ⟨mutable, (hlast position id res hpos hnolater hres).trans hmutable, hname, ?_,
      hcompound, htype, hcompressed, ?_, hread, ?_⟩
    · rw [horder]
      simp
    · intro hnonneg
      show mutable.blockCount = res.BlockCount
      rw [hcount, Int.toNat_of_nonneg hnonneg]
    · intro index hlow hhigh
      rw [hread index hlow hhigh]
      refine ⟨?_, ?_, ?_⟩
      · intro reader data hreader hdata
        simp [readBlock, hblock, hreader, hdata]
      · rintro ⟨err, hreader⟩
        simp [readBlock, hblock, hreader]
      · intro reader err hreader hdata
        simp [readBlock, hblock, hreader, hdata]

/-- Witness of C23: `testProvider`, whose resource `0x0800` has a block that cannot be read. -/
theorem MutableResourcesFromProvider_retrieves_all_witness :
    ∃ mutables,
      MutableResourcesFromProvider "test.res" testProvider = some mutables
        ∧ (∀ id, (mutables id).isSome = true ↔ id ∈ testProvider.IDs)
        ∧ (∀ (position : Nat) (id : ID) (res : ProviderResource),
            testProvider.IDs[position]? = some id →
            (∀ later, position < later → testProvider.IDs[later]? ≠ some id) →
            testProvider.Resource id = Except.ok res →
            ∃ mutable, mutables id = some mutable
              ∧ mutable.filename = "test.res"
              ∧ mutable.saveOrder = (position : Int)
              ∧ mutable.compound = res.Compound
              ∧ mutable.contentType = res.ContentType
              ∧ mutable.compressed = res.Compressed
              ∧ (0 ≤ res.BlockCount → mutable.BlockCount = res.BlockCount)
              ∧ (∀ index : Int, 0 ≤ index → index < res.BlockCount →
                  mutable.Block index = Except.ok (bytes.NewReader (readBlock res index)))
              ∧ (∀ index : Int, 0 ≤ index → index < res.BlockCount →
                  (∀ reader data, res.Block index = Except.ok reader →
                      readAll reader = Except.ok data →
                      mutable.Block index = Except.ok (bytes.NewReader data))
                    ∧ ((∃ err, res.Block index = Except.error err) →
                      mutable.Block index = Except.ok (bytes.NewReader []))
                    ∧ (∀ reader err, res.Block index = Except.ok reader →
                      readAll reader = Except.error err →
                      mutable.Block index = Except.ok (bytes.NewReader [])))) :=
  MutableResourcesFromProvider_retrieves_all "test.res" testProvider (by
    intro id hid
    simp only [testProvider, List.mem_cons, List.mem_singleton, List.not_mem_nil, or_false]
      at hid
    rcases hid with hid | hid <;> subst hid <;> exact ⟨_, rfl⟩)

/-! ## Timestamps and floating-point values -/

theorem FloatFormat.round_nat_div_pow {precision : Nat} (format : FloatFormat precision)
    (significand shift : Nat) (hbits : significand < 2 ^ precision) :
    format.round ((significand : ℚ) / 2 ^ shift) = (significand : ℚ) / 2 ^ shift := by
  have hexact := format.exact (significand : ℤ) (-(shift : ℤ)) (by
    rw [abs_of_nonneg (Int.ofNat_nonneg significand)]
    exact_mod_cast hbits)
  have hform : ((significand : ℤ) : ℚ) * (2 : ℚ) ^ (-(shift : ℤ))
      = (significand : ℚ) / 2 ^ shift := by
    rw [zpow_neg, zpow_natCast, Int.cast_natCast, div_eq_mul_inv]
  rw [hform] at hexact
  exact hexact

theorem FloatFormat.round_nat {precision : Nat} (format : FloatFormat precision)
    (value : Nat) (hbits : value < 2 ^ precision) :
    format.round (value : ℚ) = (value : ℚ) := by
  have hexact := format.round_nat_div_pow value 0 hbits
  simpa using hexact

theorem truncate_nat_div (numerator denominator : Nat) :
    truncate ((numerator : ℚ) / (denominator : ℚ)) = (numerator : ℤ) / (denominator : ℤ) := by
  have hnonneg : (0 : ℚ) ≤ (numerator : ℚ) / (denominator : ℚ) :=
    div_nonneg (Nat.cast_nonneg _) (Nat.cast_nonneg _)
  unfold truncate
  rw [if_pos hnonneg]
  have hfloor := Rat.floor_intCast_div_natCast (numerator : ℤ) denominator
  rw [Int.cast_natCast] at hfloor
  exact hfloor

theorem truncate_nat (value : Nat) : truncate (value : ℚ) = (value : ℤ) := by
  have hdiv := truncate_nat_div value 1
  simpa using hdiv

/-- A value whose integer part is a `uint8` converts to that integer. -/
theorem FloatFormat.toUint8_of_truncate {precision : Nat} (format : FloatFormat precision)
    (value : ℚ) (target : Fin 256) (htruncate : truncate value = (target.val : ℤ)) :
    format.toUint8 value = target := by
  have hlt := target.isLt
  unfold FloatFormat.toUint8
  rw [htruncate, if_pos ⟨by omega, by omega⟩]
  apply Fin.ext
  simp only [Fin.ofNat, Fin.val_mk]
  omega

/-- A value whose integer part is a `uint16` converts to that integer. -/
theorem FloatFormat.toUint16_of_truncate {precision : Nat} (format : FloatFormat precision)
    (value : ℚ) (target : Fin 65536) (htruncate : truncate value = (target.val : ℤ)) :
    format.toUint16 value = target := by
  have hlt := target.isLt
  unfold FloatFormat.toUint16
  rw [htruncate, if_pos ⟨by omega, by omega⟩]
  apply Fin.ext
  simp only [Fin.ofNat, Fin.val_mk]
  omega

/-- The value `ToDuration` computes: no operation rounds and the product is an `int64`, so the
result is the exact product with the fraction dropped. -/
theorem Timestamp.ToDuration_eq (float64 : FloatFormat 53) (ts : Timestamp) :
    ts.ToDuration float64
      = ((65536 * (ts.Second.val : Int) + (ts.Fraction.val : Int)) * 1000000000) / 65536 := by
  have hsecond := ts.Second.isLt
  have hfraction := ts.Fraction.isLt
  have h1 : float64.round (ts.Second.val : ℚ) = (ts.Second.val : ℚ) :=
    float64.round_nat _ (by omega)
  have h2 : float64.round (ts.Fraction.val : ℚ) = (ts.Fraction.val : ℚ) :=
    float64.round_nat _ (by omega)
  have h3 : float64.round (fractionDivisor : ℚ) = (65536 : ℚ) := by
    have := float64.round_nat fractionDivisor (by decide)
    simpa [fractionDivisor] using this
  have h4 : float64.round ((ts.Fraction.val : ℚ) / 65536) = (ts.Fraction.val : ℚ) / 65536 := by
    have := float64.round_nat_div_pow ts.Fraction.val 16 (by omega)
    norm_num at this
    exact this
  have h5 : float64.round ((ts.Second.val : ℚ) + (ts.Fraction.val : ℚ) / 65536)
      = ((65536 * ts.Second.val + ts.Fraction.val : Nat) : ℚ) / 65536 := by
    have hsum : (ts.Second.val : ℚ) + (ts.Fraction.val : ℚ) / 65536
        = ((65536 * ts.Second.val + ts.Fraction.val : Nat) : ℚ) / 2 ^ 16 := by
      push_cast
      norm_num
      ring
    rw [hsum, float64.round_nat_div_pow _ 16 (by omega)]
    norm_num
  have h6 : float64.round (timeSecond : ℚ) = (1000000000 : ℚ) := by
    have := float64.round_nat 1000000000 (by norm_num)
    simpa [timeSecond] using this
  have h7 : float64.round
        (((65536 * ts.Second.val + ts.Fraction.val : Nat) : ℚ) / 65536 * 1000000000)
      = (((65536 * ts.Second.val + ts.Fraction.val) * 1953125 : Nat) : ℚ) / (128 : Nat) := by
    have hproduct : ((65536 * ts.Second.val + ts.Fraction.val : Nat) : ℚ) / 65536 * 1000000000
        = (((65536 * ts.Second.val + ts.Fraction.val) * 1953125 : Nat) : ℚ) / 2 ^ 7 := by
      push_cast
      norm_num
      ring
    rw [hproduct, float64.round_nat_div_pow _ 7 (by omega)]
    norm_num
  unfold Timestamp.ToDuration FloatFormat.toInt64
  rw [h1, h2, h3, h4, h5, h6, h7, truncate_nat_div]
  have hrange : minInt
        ≤ (((65536 * ts.Second.val + ts.Fraction.val) * 1953125 : Nat) : ℤ) / ((128 : Nat) : ℤ)
      ∧ (((65536 * ts.Second.val + ts.Fraction.val) * 1953125 : Nat) : ℤ) / ((128 : Nat) : ℤ)
        ≤ maxInt := by
    unfold minInt maxInt
    push_cast
    omega
  rw [if_pos hrange]
  push_cast
  omega

/-- C22: `ToDuration` returns `(65536 * Second + Fraction) * 1000000000 / 65536` nanoseconds,
the fraction dropped: every floating-point operation in it has an exact result, which is a
duration between 0 and 256 seconds. Hence a timestamp that is after another has the greater
duration. -/
theorem ToDuration_exact_and_monotone (float64 : FloatFormat 53) (a b : Timestamp) :
    a.ToDuration float64
        = ((65536 * (a.Second.val : Int) + (a.Fraction.val : Int)) * 1000000000) / 65536
      ∧ 0 ≤ a.ToDuration float64
      ∧ a.ToDuration float64 < 256 * timeSecond
      ∧ (a.IsAfter b = true → a.ToDuration float64 > b.ToDuration float64) := by
  have ha := Timestamp.ToDuration_eq float64 a
  have hb := Timestamp.ToDuration_eq float64 b
  have hsa := a.Second.isLt
  have hfa := a.Fraction.isLt
  have hsb := b.Second.isLt
  have hfb := b.Fraction.isLt
  refine ⟨ha, ?_, ?_, ?_⟩
  · rw [ha]
    omega
  · rw [ha]
    unfold timeSecond
    omega
  · intro hafter
    have horder := (Timestamp.IsAfter_iff a b).mp hafter
    rw [ha, hb]
    omega

/-- Witness of C22: one second and a half is after one second and a quarter. -/
theorem ToDuration_exact_and_monotone_witness :
    Timestamp.ToDuration (unroundedFormat 53) ⟨1, 32768⟩
      > Timestamp.ToDuration (unroundedFormat 53) ⟨1, 16384⟩ :=
  (ToDuration_exact_and_monotone (unroundedFormat 53) ⟨1, 32768⟩ ⟨1, 16384⟩).2.2.2 (by decide)

/-- C29: the value `Second + Fraction/65536` of a timestamp is a `float32` value, and
`TimestampFromSeconds` applied to it returns the timestamp: no operation in it rounds. -/
theorem TimestampFromSeconds_of_exact_value (float32 : FloatFormat 24) (ts : Timestamp) :
    float32.round ((ts.Second.val : ℚ) + (ts.Fraction.val : ℚ) / 65536)
        = (ts.Second.val : ℚ) + (ts.Fraction.val : ℚ) / 65536
      ∧ TimestampFromSeconds float32 ((ts.Second.val : ℚ) + (ts.Fraction.val : ℚ) / 65536)
        = ts := by
  have hsecond := ts.Second.isLt
  have hfraction := ts.Fraction.isLt
  have hsum : (ts.Second.val : ℚ) + (ts.Fraction.val : ℚ) / 65536
      = ((65536 * ts.Second.val + ts.Fraction.val : Nat) : ℚ) / ((65536 : Nat) : ℚ) := by
    push_cast
    ring
  constructor
  · have hpow : ((65536 : Nat) : ℚ) = 2 ^ 16 := by norm_num
    rw [hsum, hpow, float32.round_nat_div_pow _ 16 (by omega)]
  · have htrunc : truncate ((ts.Second.val : ℚ) + (ts.Fraction.val : ℚ) / 65536)
        = (ts.Second.val : ℤ) := by
      rw [hsum, truncate_nat_div]
      push_cast
      omega
    have hsec : float32.toUint8 ((ts.Second.val : ℚ) + (ts.Fraction.val : ℚ) / 65536)
        = ts.Second :=
      float32.toUint8_of_truncate _ ts.Second htrunc
    have h1 : float32.round (ts.Second.val : ℚ) = (ts.Second.val : ℚ) :=
      float32.round_nat _ (by omega)
    have h2 : float32.round
          ((ts.Second.val : ℚ) + (ts.Fraction.val : ℚ) / 65536 - (ts.Second.val : ℚ))
        = (ts.Fraction.val : ℚ) / 65536 := by
      have hdiff : (ts.Second.val : ℚ) + (ts.Fraction.val : ℚ) / 65536 - (ts.Second.val : ℚ)
          = (ts.Fraction.val : ℚ) / 2 ^ 16 := by
        norm_num
      rw [hdiff, float32.round_nat_div_pow _ 16 (by omega)]
      norm_num
    have h3 : float32.round (fractionDivisor : ℚ) = (65536 : ℚ) := by
      have := float32.round_nat fractionDivisor (by decide)
      simpa [fractionDivisor] using this
    have h4 : float32.round ((ts.Fraction.val : ℚ) / 65536 * 65536) = (ts.Fraction.val : ℚ) := by
      have hprod : (ts.Fraction.val : ℚ) / 65536 * 65536 = (ts.Fraction.val : ℚ) := by
        norm_num
      rw [hprod, float32.round_nat _ (by omega)]
    have hfrac : float32.toUint16 (ts.Fraction.val : ℚ) = ts.Fraction :=
      float32.toUint16_of_truncate _ ts.Fraction (truncate_nat _)
    unfold TimestampFromSeconds
    simp only [hsec, h1, h2, h3, h4, hfrac]

end Hacked
